import Mathlib

/-!
# Cooperative scheduler (llint/Scheduler): embedding of `Scheduler.cpp`

The scheduler of `src/Scheduler/Scheduler.cpp` is embedded as pure functions on an
explicit state value.

* A task (`Task::ptr`, a `std::unique_ptr<Task>`) is represented by its identity,
  the address of the `Task` object, a natural number.
* A reading of `std::chrono::high_resolution_clock::now()` is an argument `now` of
  the operation that reads the clock.  A time point is the clock's count of
  nanoseconds, a signed 64-bit integer; `time_point()` (the epoch) is `0`.  A
  `std::chrono::milliseconds` argument is its count of milliseconds.  The sum
  `now + duration` is computed as the code computes it, in the 64-bit nanosecond
  count (`clockAdd`).
* The context switch `jump_fcontext` is control flow, not data: an operation that
  jumps back to the main context ends the task's turn, so in the embedding the
  operation returns the state it has built before the jump.  `WaitForEvent`
  returns `none` for its result when it jumps (the result is then decided by the
  value passed at the later resume, see `waitResult`).
* Containers with an unspecified iteration order (`std::unordered_map`) are lists
  in iteration order.  An insertion may rearrange all entries (the table can
  rehash); the arrangement after an insertion is an argument `order` of the
  operation that inserts (`rehash`).
-/

namespace pi

/-- Identity of a task: the address held by a `Task::ptr`. -/
abbrev TaskId := Nat

/-- The type `IScheduler::EventID` (`intptr_t`). -/
abbrev EventID := Int

/-- A `std::chrono::high_resolution_clock::time_point`: its count of nanoseconds since
the epoch. -/
abbrev TimePoint := Int

/-- Two's complement reading of an integer in 64 bits: the value a signed 64-bit count
holds after an addition or a multiplication that leaves the range. -/
def wrap64 (x : Int) : Int :=
  (x + 9223372036854775808) % 18446744073709551616 - 9223372036854775808

/-- The number of clock periods in a millisecond: the period of
`std::chrono::high_resolution_clock` is the nanosecond (libc++ and libstdc++). -/
def periodsPerMs : Int := 1000000

/-- The sum `now + d` of a time point of the clock and a `std::chrono::milliseconds`, as
`operator+` computes it: the duration is converted to the clock's period by a
multiplication in the 64-bit count, then added to the count of `now`. -/
def clockAdd (now : TimePoint) (d : Int) : TimePoint :=
  wrap64 (now + wrap64 (d * periodsPerMs))

/-- One entry put at its place in an iteration order given by `order`: an entry goes
before the first entry whose key does not come earlier in `order` than its own (keys
that `order` does not list come last). -/
def arrange {α κ : Type} [BEq κ] (order : List κ) (key : α → κ) (x : α) : List α → List α
  | [] => [x]
  | y :: l =>
    if order.indexOf (key x) ≤ order.indexOf (key y) then x :: y :: l
    else y :: arrange order key x l

/-- The iteration order of a `std::unordered_map` after an insertion, which may rehash the
table: the entries arranged by the place of their keys in `order`.  Every arrangement of
entries with distinct keys is obtained for some `order` (`rehash_of_perm`). -/
def rehash {α κ : Type} [BEq κ] (order : List κ) (key : α → κ) : List α → List α
  | [] => []
  | x :: l => arrange order key x (rehash order key l)

/-- Modelled from the spec: `Utilities/WeakPtr.h` is not part of the sources; a bucket
of the timed index is a `std::unordered_map<Task::weak_ptr, m_waiting::iterator>`
whose key is "a stable handle to the task identity".  The bucket is the list of its
keys in iteration order; the mapped iterator designates the node of `m_waiting`
that holds the same task. -/
abbrev Bucket := List TaskId

/-- The struct `Event`. -/
structure Event where
  m_signaled : Bool
  m_waiting : List (TaskId × TimePoint)
  m_timed : List (TimePoint × Bucket)
deriving DecidableEq, Repr

/-- The data members of `class Scheduler` (the main context `m_fcm` apart). -/
structure Scheduler where
  m_current : Option TaskId
  m_ready : List (TaskId × Int)
  m_events : List (EventID × Event)
  m_sleeping : List (TimePoint × TaskId)
deriving DecidableEq, Repr

/-- The scheduler as constructed: nothing running, all containers empty. -/
def Scheduler.empty : Scheduler :=
  { m_current := none, m_ready := [], m_events := [], m_sleeping := [] }

/-! ## Container primitives -/

/-- The lookup `m_events.find(eventId)`. -/
def findEvent (eventId : EventID) : List (EventID × Event) → Option Event
  | [] => none
  | (k, e) :: rest => if k = eventId then some e else findEvent eventId rest

/-- Assignment through the iterator returned by `m_events.find(eventId)`. -/
def storeEvent (eventId : EventID) (e' : Event) : List (EventID × Event) → List (EventID × Event)
  | [] => []
  | (k, e) :: rest =>
    if k = eventId then (k, e') :: rest else (k, e) :: storeEvent eventId e' rest

/-- The call `m_events.erase(it)` for `it = m_events.find(eventId)`. -/
def eraseEvent (eventId : EventID) : List (EventID × Event) → List (EventID × Event)
  | [] => []
  | (k, e) :: rest => if k = eventId then rest else (k, e) :: eraseEvent eventId rest

/-- The call `m_sleeping.emplace(tp, task)` on the `std::multimap`: the entry goes after
every entry whose key is not greater. -/
def sleepEmplace (tp : TimePoint) (t : TaskId) : List (TimePoint × TaskId) → List (TimePoint × TaskId)
  | [] => [(tp, t)]
  | (k, u) :: rest =>
    if k ≤ tp then (k, u) :: sleepEmplace tp t rest else (tp, t) :: (k, u) :: rest

/-- The call `bucket.emplace(task, i)`: no effect when the key is present. -/
def bucketEmplace (order : List TaskId) (t : TaskId) (b : Bucket) : Bucket :=
  if t ∈ b then b else rehash order id (t :: b)

/-- The statement `m_timed[tp].emplace(task, i)` on the `std::map`: the bucket of `tp` is
created at its place in key order when it is absent. -/
def timedEmplace (tp : TimePoint) (t : TaskId) (order : List TaskId) :
    List (TimePoint × Bucket) → List (TimePoint × Bucket)
  | [] => [(tp, bucketEmplace order t [])]
  | (k, b) :: rest =>
    if k < tp then (k, b) :: timedEmplace tp t order rest
    else if k = tp then (k, bucketEmplace order t b) :: rest
    else (tp, bucketEmplace order t []) :: (k, b) :: rest

/-- Lines 143-151 of `SetEvent`: `x = m_timed.find(tp)`; when found, erase the task from
the bucket and erase the bucket when it has become empty. -/
def timedErase (tp : TimePoint) (t : TaskId) : List (TimePoint × Bucket) → List (TimePoint × Bucket)
  | [] => []
  | (k, b) :: rest =>
    if k = tp then
      (if (b.erase t).isEmpty then rest else (k, b.erase t) :: rest)
    else (k, b) :: timedErase tp t rest

/-- The call `m_waiting.erase(i)` for the iterator stored with task `t`: the node holding
`t` leaves the list. -/
def eraseNode (t : TaskId) : List (TaskId × TimePoint) → List (TaskId × TimePoint)
  | [] => []
  | (u, tp) :: rest => if u = t then rest else (u, tp) :: eraseNode t rest

/-! ## Operations of `IScheduler` -/

/-- The method `Scheduler::CreateTask`; `t` is the address of the `new Task`. -/
def CreateTask (t : TaskId) (s : Scheduler) : Scheduler :=
  { s with m_ready := s.m_ready ++ [(t, 0)] }

/-- The method `Scheduler::CreateEvent`; `eventId` is the address of the `new Event`, which
is also the value returned.  `emplace` keeps an entry already stored under the key. -/
def CreateEvent (eventId : EventID) (order : List EventID) (s : Scheduler) : Scheduler × EventID :=
  match findEvent eventId s.m_events with
  | some _ => (s, eventId)
  | none =>
    ({ s with m_events := rehash order Prod.fst
                ((eventId, { m_signaled := false, m_waiting := [], m_timed := [] }) :: s.m_events) },
      eventId)

/-- The deadline computed at lines 111-112 of `WaitForEvent`. -/
def waitDeadline (timeout : Int) (now : TimePoint) : TimePoint :=
  if timeout ≠ -1 then clockAdd now timeout else 0

/-- The method `Scheduler::WaitForEvent`.  The result is `some b` when the call returns `b`
without a jump and `none` when the task has been parked and control went back to main. -/
def WaitForEvent (eventId : EventID) (timeout : Int) (now : TimePoint) (order : List TaskId)
    (s : Scheduler) : Scheduler × Option Bool :=
  match s.m_current with
  | some cur =>
    match findEvent eventId s.m_events with
    | some e =>
      if e.m_signaled then
        ({ s with m_events := storeEvent eventId { e with m_signaled := false } s.m_events },
          some true)
      else if timeout = 0 then
        (s, some false)
      else
        let tp := waitDeadline timeout now
        let w := e.m_waiting ++ [(cur, tp)]
        let timed := if timeout ≠ -1 then timedEmplace tp cur order e.m_timed else e.m_timed
        ({ s with
            m_current := none
            m_events := storeEvent eventId { e with m_waiting := w, m_timed := timed } s.m_events },
          none)
    | none => (s, some true)
  | none => (s, some true)

/-- Line 125 of `WaitForEvent`: the result of a wait that parked, from the value `r`
passed when the task is resumed. -/
def waitResult (r : Int) : Bool := decide (r = 1)

/-- The method `Scheduler::SetEvent`. -/
def SetEvent (eventId : EventID) (s : Scheduler) : Scheduler :=
  match findEvent eventId s.m_events with
  | some e =>
    match e.m_waiting with
    | (t, tp) :: rest =>
      { s with
        m_ready := s.m_ready ++ [(t, 1)]
        m_events := storeEvent eventId
          { e with m_waiting := rest, m_timed := timedErase tp t e.m_timed } s.m_events }
    | [] =>
      { s with m_events := storeEvent eventId { e with m_signaled := true } s.m_events }
  | none => s

/-- The method `Scheduler::DeleteEvent`. -/
def DeleteEvent (eventId : EventID) (s : Scheduler) : Scheduler :=
  match findEvent eventId s.m_events with
  | some e =>
    { s with
      m_ready := s.m_ready ++ e.m_waiting.map (fun w => (w.1, (1 : Int)))
      m_events := eraseEvent eventId s.m_events }
  | none => s

/-- The method `Scheduler::Yield`. -/
def Yield (s : Scheduler) : Scheduler :=
  match s.m_current with
  | some cur => { s with m_current := none, m_ready := s.m_ready ++ [(cur, 0)] }
  | none => s

/-- The method `Scheduler::Sleep`. -/
def Sleep (duration : Int) (now : TimePoint) (s : Scheduler) : Scheduler :=
  if duration = 0 then Yield s
  else
    match s.m_current with
    | some cur =>
      { s with m_current := none, m_sleeping := sleepEmplace (clockAdd now duration) cur s.m_sleeping }
    | none => s

/-! ## `Tick` -/

/-- Step 1 of `Tick` (lines 214-222) on the sleep map: the loop runs from `begin()` to
`upper_bound(now)`, moving each entry to the end of the ready queue with value 0. -/
def wakeLoop (now : TimePoint) :
    List (TimePoint × TaskId) → List (TaskId × Int) → List (TimePoint × TaskId) × List (TaskId × Int)
  | [], ready => ([], ready)
  | (k, t) :: rest, ready =>
    if k ≤ now then wakeLoop now rest (ready ++ [(t, 0)]) else ((k, t) :: rest, ready)

/-- Step 1 of `Tick`. -/
def tickWake (now : TimePoint) (s : Scheduler) : Scheduler :=
  let r := wakeLoop now s.m_sleeping s.m_ready
  { s with m_sleeping := r.1, m_ready := r.2 }

/-- Lines 234-238 of `Tick`: the loop over one expired bucket. -/
def bucketLoop :
    Bucket → List (TaskId × TimePoint) → List (TaskId × Int) → List (TaskId × TimePoint) × List (TaskId × Int)
  | [], waiting, ready => (waiting, ready)
  | t :: b, waiting, ready => bucketLoop b (eraseNode t waiting) (ready ++ [(t, 0)])

/-- Lines 227-240 of `Tick` for one event: the loop over the buckets from `begin()` to
`upper_bound(now)`; each bucket is emptied by `bucketLoop` and then erased. -/
def timedLoop (now : TimePoint) :
    List (TimePoint × Bucket) → List (TaskId × TimePoint) → List (TaskId × Int) →
      List (TimePoint × Bucket) × List (TaskId × TimePoint) × List (TaskId × Int)
  | [], waiting, ready => ([], waiting, ready)
  | (k, b) :: rest, waiting, ready =>
    if k ≤ now then
      let r := bucketLoop b waiting ready
      timedLoop now rest r.1 r.2
    else ((k, b) :: rest, waiting, ready)

/-- The body of the loop `for (auto& e : m_events)` at line 225 for one event. -/
def expireEvent (now : TimePoint) (e : Event) (ready : List (TaskId × Int)) :
    Event × List (TaskId × Int) :=
  let r := timedLoop now e.m_timed e.m_waiting ready
  ({ e with m_timed := r.1, m_waiting := r.2.1 }, r.2.2)

/-- Step 2 of `Tick` (lines 225-241): the loop over the event table. -/
def eventsLoop (now : TimePoint) :
    List (EventID × Event) → List (TaskId × Int) → List (EventID × Event) × List (TaskId × Int)
  | [], ready => ([], ready)
  | (k, e) :: rest, ready =>
    let r := expireEvent now e ready
    let r' := eventsLoop now rest r.2
    ((k, r.1) :: r'.1, r'.2)

/-- Step 2 of `Tick`. -/
def tickExpire (now : TimePoint) (s : Scheduler) : Scheduler :=
  let r := eventsLoop now s.m_events s.m_ready
  { s with m_events := r.1, m_ready := r.2 }

/-- The method `Tick` up to the jump into the selected task (lines 209-250): the state at
the jump together with the value passed to the task, or the final state and `none` when
`Tick` does not jump. -/
def tickHost (now : TimePoint) (s : Scheduler) : Scheduler × Option Int :=
  match s.m_current with
  | some _ => (s, none)
  | none =>
    let s2 := tickExpire now (tickWake now s)
    match s2.m_ready with
    | (t, x) :: rest => ({ s2 with m_current := some t, m_ready := rest }, some x)
    | [] => (s2, none)

/-- The task selected by `Tick`, if it selects one. -/
def tickSelected (now : TimePoint) (s : Scheduler) : Option TaskId :=
  match (tickHost now s).2 with
  | some _ => (tickHost now s).1.m_current
  | none => none

/-- The method `Scheduler::TaskLeave` followed by lines 253-257 of `Tick`: the task
function has returned, the jump passes 1 and `Tick` resets `m_current`. -/
def TaskLeave (s : Scheduler) : Scheduler :=
  { s with m_current := none }

/-- The method `Scheduler::Tick`.  The argument `body` is what the selected task does
between the jump into it and its jump back: from the state at the jump and the value
passed in, the state at the jump back and the value passed back. -/
def Tick (now : TimePoint) (body : Scheduler → Int → Scheduler × Int) (s : Scheduler) : Scheduler :=
  match tickHost now s with
  | (s1, none) => s1
  | (s1, some x) =>
    let r := body s1 x
    if r.2 = 1 then { r.1 with m_current := none } else r.1

/-! ## Observations on a state -/

/-- The tasks held by the waiting sequences of an event table, in table order. -/
def waitingTasks (l : List (EventID × Event)) : List TaskId :=
  l.flatMap (fun p => p.2.m_waiting.map Prod.fst)

/-- Every place where the scheduler holds a task: the current slot, the ready queue, the
sleep map and the waiting sequences of all events. -/
def parked (s : Scheduler) : List TaskId :=
  s.m_current.toList ++ (s.m_ready.map Prod.fst ++
    (s.m_sleeping.map Prod.snd ++ waitingTasks s.m_events))

/-- The tasks recorded in a timed index, bucket after bucket. -/
def timedTasks (tm : List (TimePoint × Bucket)) : List TaskId :=
  tm.flatMap Prod.snd

/-- The tasks in the buckets of a timed index whose deadline is not later than `now`. -/
def expiredTasks (now : TimePoint) (tm : List (TimePoint × Bucket)) : List TaskId :=
  timedTasks (tm.filter (fun kb => decide (kb.1 ≤ now)))

/-- Representation invariant of an `Event`: `m_timed` is a `std::map` (keys strictly
increasing) whose buckets are non-empty and hold each task once; every entry of a bucket
designates a node of `m_waiting` holding that task with the bucket's key as deadline; a
task has one node; a raised latch goes with an empty waiting sequence. -/
def EventWF (e : Event) : Prop :=
  (e.m_waiting.map Prod.fst).Nodup ∧
  (e.m_timed.map Prod.fst).Pairwise (· < ·) ∧
  (∀ kb ∈ e.m_timed, kb.2 ≠ []) ∧
  (timedTasks e.m_timed).Nodup ∧
  (∀ kb ∈ e.m_timed, ∀ t ∈ kb.2, (t, kb.1) ∈ e.m_waiting) ∧
  (e.m_signaled = true → e.m_waiting = [])

instance (e : Event) : Decidable (EventWF e) := by
  unfold EventWF; infer_instance

/-- Representation invariant of the scheduler: a task is held in one place only
(`std::unique_ptr`), every event is well formed, `m_events` has one entry per key and
`m_sleeping` is ordered by deadline (`std::multimap`). -/
def Inv (s : Scheduler) : Prop :=
  (parked s).Nodup ∧
  (∀ p ∈ s.m_events, EventWF p.2) ∧
  (s.m_events.map Prod.fst).Nodup ∧
  (s.m_sleeping.map Prod.fst).Pairwise (· ≤ ·)

instance (s : Scheduler) : Decidable (Inv s) := by
  unfold Inv; infer_instance

/-! ## Sequences of operations -/

/-- One call of an operation of the scheduler, with the values it obtains from outside
(the address of a new object, the clock reading, the place in a hash table). -/
inductive Op where
  | createTask (t : TaskId)
  | createEvent (eventId : EventID) (order : List EventID)
  | waitForEvent (eventId : EventID) (timeout : Int) (now : TimePoint) (order : List TaskId)
  | setEvent (eventId : EventID)
  | deleteEvent (eventId : EventID)
  | yield
  | sleep (duration : Int) (now : TimePoint)
  | tick (now : TimePoint)
  | taskLeave
deriving DecidableEq, Repr

/-- The state after one operation.  For `tick` this is the state at the jump into the
selected task (or at the return of `Tick` when it selects none); what the task then does
is made of further operations, the last of which parks it or is `taskLeave`. -/
def step (s : Scheduler) : Op → Scheduler
  | .createTask t => CreateTask t s
  | .createEvent eventId order => (CreateEvent eventId order s).1
  | .waitForEvent eventId timeout now order => (WaitForEvent eventId timeout now order s).1
  | .setEvent eventId => SetEvent eventId s
  | .deleteEvent eventId => DeleteEvent eventId s
  | .yield => Yield s
  | .sleep duration now => Sleep duration now s
  | .tick now => (tickHost now s).1
  | .taskLeave => TaskLeave s

/-- The state after a sequence of operations. -/
def runOps (s : Scheduler) (ops : List Op) : Scheduler :=
  ops.foldl step s

/-- What the allocator guarantees for an operation: the address of a new task is not the
address of a task the scheduler holds. -/
def OpOk (s : Scheduler) : Op → Prop
  | .createTask t => t ∉ parked s
  | _ => True

instance (s : Scheduler) (op : Op) : Decidable (OpOk s op) := by
  cases op <;> (simp only [OpOk]; infer_instance)

/-- A sequence of operations each of which is allowed in the state it is called in. -/
def Admissible : Scheduler → List Op → Prop
  | _, [] => True
  | s, op :: ops => OpOk s op ∧ Admissible (step s op) ops

instance : (s : Scheduler) → (ops : List Op) → Decidable (Admissible s ops)
  | _, [] => by simp only [Admissible]; infer_instance
  | s, op :: ops =>
    have : Decidable (Admissible (step s op) ops) := instDecidableAdmissible (step s op) ops
    by simp only [Admissible]; infer_instance

/-- The entry popped from the ready queue by a `tick` operation, if any. -/
def popped (s : Scheduler) : Op → List (TaskId × Int)
  | .tick now =>
    match (tickHost now s).2, (tickHost now s).1.m_current with
    | some x, some t => [(t, x)]
    | _, _ => []
  | _ => []

/-- The entries popped from the ready queue along a sequence of operations, in order. -/
def dispatched : Scheduler → List Op → List (TaskId × Int)
  | _, [] => []
  | s, op :: ops => popped s op ++ dispatched (step s op) ops

/-- The states reachable from the empty scheduler, each with the tasks that have been
created and have not finished.  The address of a new task differs from those. -/
inductive Reachable : Scheduler → List TaskId → Prop where
  | init : Reachable Scheduler.empty []
  | createTask {s : Scheduler} {live : List TaskId} (t : TaskId) :
      Reachable s live → t ∉ live → Reachable (CreateTask t s) (t :: live)
  | createEvent {s : Scheduler} {live : List TaskId} (eventId : EventID)
      (order : List EventID) :
      Reachable s live → Reachable (CreateEvent eventId order s).1 live
  | waitForEvent {s : Scheduler} {live : List TaskId} (eventId : EventID) (timeout : Int)
      (now : TimePoint) (order : List TaskId) :
      Reachable s live → Reachable (WaitForEvent eventId timeout now order s).1 live
  | setEvent {s : Scheduler} {live : List TaskId} (eventId : EventID) :
      Reachable s live → Reachable (SetEvent eventId s) live
  | deleteEvent {s : Scheduler} {live : List TaskId} (eventId : EventID) :
      Reachable s live → Reachable (DeleteEvent eventId s) live
  | yield {s : Scheduler} {live : List TaskId} :
      Reachable s live → Reachable (Yield s) live
  | sleep {s : Scheduler} {live : List TaskId} (duration : Int) (now : TimePoint) :
      Reachable s live → Reachable (Sleep duration now s) live
  | tick {s : Scheduler} {live : List TaskId} (now : TimePoint) :
      Reachable s live → Reachable (tickHost now s).1 live
  | taskLeave {s : Scheduler} {live : List TaskId} (t : TaskId) :
      Reachable s live → s.m_current = some t → Reachable (TaskLeave s) (live.erase t)

/-! ## Derived notions and sample states -/

/-- Successive calls of `m_waiting.erase` for a list of tasks. -/
def eraseNodes (ts : List TaskId) (w : List (TaskId × TimePoint)) : List (TaskId × TimePoint) :=
  ts.foldl (fun acc t => eraseNode t acc) w

/-- The tasks in the buckets that the loop of step 2 visits: those before
`upper_bound(now)` in key order. -/
def timedOut (now : TimePoint) (tm : List (TimePoint × Bucket)) : List TaskId :=
  timedTasks (tm.takeWhile (fun kb => decide (kb.1 ≤ now)))

/-- An event after step 2 of `Tick`. -/
def expired (now : TimePoint) (e : Event) : Event :=
  { e with
    m_timed := e.m_timed.dropWhile (fun kb => decide (kb.1 ≤ now))
    m_waiting := eraseNodes (timedOut now e.m_timed) e.m_waiting }

/-- A run of the scheduler: an event and two tasks are created, the first task waits on
the event with a timeout of 50 ms, the second waits on it for ever. -/
def demoWaiting : Scheduler :=
  (WaitForEvent 100 (-1) 1 [] (tickHost 1 (WaitForEvent 100 50 0 [] (tickHost 0
    (CreateTask 2 (CreateTask 1 (CreateEvent 100 [] Scheduler.empty).1))).1).1).1).1

/-- The entries that steps 1 and 2 of a `Tick` at time `now` append to the ready queue. -/
def readiedByTick (now : TimePoint) (s : Scheduler) : List (TaskId × Int) :=
  (tickExpire now (tickWake now s)).m_ready.drop s.m_ready.length

/-- A run of the scheduler: one task is created, runs and calls `Sleep` for 5 ms at clock
reading 0; the ready queue is then empty. -/
def demoSleeping : Scheduler :=
  Sleep 5 0 (tickHost 0 (CreateTask 7 Scheduler.empty)).1

/-- The timed index without task `t`: the entry of `t` is taken out of every bucket and a
bucket left empty is dropped. -/
def timedWithout (t : TaskId) (tm : List (TimePoint × Bucket)) : List (TimePoint × Bucket) :=
  (tm.map (fun kb => (kb.1, kb.2.filter (fun u => decide (u ≠ t))))).filter
    (fun kb => !kb.2.isEmpty)

/-- A state in which task 3 runs and event 100 exists, without waiters and unlatched. -/
def demoRunning : Scheduler :=
  (tickHost 0 (CreateTask 3 (CreateEvent 100 [] Scheduler.empty).1)).1

/-- The clock readings of the `tick` operations of a sequence. -/
def tickTimes : List Op → List TimePoint
  | [] => []
  | .tick now :: ops => now :: tickTimes ops
  | _ :: ops => tickTimes ops

/-- The state `demoWaiting` when its second task waits with a timeout of 80 ms instead of
for ever. -/
def demoTimed : Scheduler :=
  (WaitForEvent 100 80 1 [] (tickHost 1 (WaitForEvent 100 50 0 [] (tickHost 0
    (CreateTask 2 (CreateTask 1 (CreateEvent 100 [] Scheduler.empty).1))).1).1).1).1

/-- A state in which task 2 runs while task 1 waits on event 100 with a timeout of 50 ms. -/
def demoSecondRuns : Scheduler :=
  (tickHost 1 (WaitForEvent 100 50 0 [] (tickHost 0
    (CreateTask 2 (CreateTask 1 (CreateEvent 100 [] Scheduler.empty).1))).1).1).1

/-! ## Definitions for the claims on ticks, turns and traces -/

/-- A state with nothing to do before 50 ms: task 1 waits on event 100 with a timeout of
50 ms from clock reading 0. -/
def demoIdle : Scheduler :=
  (WaitForEvent 100 50 0 [] (tickHost 0
    (CreateTask 1 (CreateEvent 100 [] Scheduler.empty).1)).1).1

/-- A state in which task 2 runs while task 1 sleeps until 5 ms and task 3 is ready. -/
def demoBusy : Scheduler :=
  (tickHost 1 (CreateTask 3 (Sleep 5 0 (tickHost 0
    (CreateTask 2 (CreateTask 1 Scheduler.empty))).1))).1

/-- The main context has created event 100 and set it: the latch is raised and no task
runs. -/
def demoLatched : Scheduler :=
  SetEvent 100 (CreateEvent 100 [] Scheduler.empty).1

/-- What a task does when all it does in its turn is call `Yield`: `Yield` requeues the
task and jumps back to main with value 0. -/
def yieldBody : Scheduler → Int → Scheduler × Int :=
  fun s _ => (Yield s, 0)

/-- Successive calls of `Tick` from main, at the given times, when every task yields each
time it runs. -/
def yieldTicks : List TimePoint → Scheduler → Scheduler
  | [], s => s
  | now :: times, s => yieldTicks times (Tick now yieldBody s)

/-- The tasks selected by the successive ticks of `yieldTicks`. -/
def yieldTrace : List TimePoint → Scheduler → List (Option TaskId)
  | [], _ => []
  | now :: times, s => tickSelected now s :: yieldTrace times (Tick now yieldBody s)

/-- Three tasks created from main, none of them run yet. -/
def demoThree : Scheduler :=
  CreateTask 3 (CreateTask 2 (CreateTask 1 Scheduler.empty))

/-- The call by which a task ends its turn: its function returns (`TaskLeave`), or it
calls `Yield`, `Sleep` or a `WaitForEvent` that parks it. -/
inductive Ending where
  | finish
  | yield
  | sleep (duration : Int) (now : TimePoint)
  | wait (eventId : EventID) (timeout : Int) (now : TimePoint) (order : List TaskId)
deriving DecidableEq, Repr

/-- The state at the jump back to main and the value passed by the jump: `TaskLeave`
passes 1 and leaves the state as it is, the other calls pass 0 after they have parked the
task. -/
def endTurn (fin : Ending) (s : Scheduler) : Scheduler × Int :=
  match fin with
  | .finish => (s, 1)
  | .yield => (Yield s, 0)
  | .sleep duration now => (Sleep duration now s, 0)
  | .wait eventId timeout now order => ((WaitForEvent eventId timeout now order s).1, 0)

/-- The last call of a turn does jump back to main: a `WaitForEvent` only when it parks
the task. -/
def Ending.jumps (s : Scheduler) : Ending → Prop
  | .wait eventId timeout now order => (WaitForEvent eventId timeout now order s).2 = none
  | _ => True

instance (s : Scheduler) (fin : Ending) : Decidable (fin.jumps s) := by
  cases fin <;> (simp only [Ending.jumps]; infer_instance)

/-- Task `t` is the running task before each operation of the sequence and after the
last one: the operations are calls made by `t` that return to it. -/
def staysCurrent (t : TaskId) : Scheduler → List Op → Prop
  | s, [] => s.m_current = some t
  | s, op :: ops => s.m_current = some t ∧ staysCurrent t (step s op) ops

instance (t : TaskId) : (s : Scheduler) → (ops : List Op) → Decidable (staysCurrent t s ops)
  | _, [] => by simp only [staysCurrent]; infer_instance
  | s, op :: ops =>
    have : Decidable (staysCurrent t (step s op) ops) :=
      instDecidableStaysCurrent t (step s op) ops
    by simp only [staysCurrent]; infer_instance

/-- The result of an operation when it is a `WaitForEvent` on the given event called by a
running task (`none` when the call parks the task); no entry for any other operation. -/
def waitOutcome (eventId : EventID) (s : Scheduler) : Op → List (Option Bool)
  | .waitForEvent other timeout now order =>
    if other = eventId ∧ s.m_current ≠ none then
      [(WaitForEvent other timeout now order s).2]
    else []
  | _ => []

/-- The results of the `WaitForEvent` calls made by running tasks on the given event along
a sequence of operations, in order. -/
def waitOutcomes (eventId : EventID) : Scheduler → List Op → List (Option Bool)
  | _, [] => []
  | s, op :: ops => waitOutcome eventId s op ++ waitOutcomes eventId (step s op) ops

/-- The operations considered after the `SetEvent` calls of C19: neither `SetEvent` nor
`DeleteEvent` on the event, and a `WaitForEvent` on it only with a timeout other than 0. -/
def FollowsSets (eventId : EventID) : Op → Prop
  | .setEvent other => other ≠ eventId
  | .deleteEvent other => other ≠ eventId
  | .waitForEvent other timeout _ _ => other = eventId → timeout ≠ 0
  | _ => True

instance (eventId : EventID) (op : Op) : Decidable (FollowsSets eventId op) := by
  cases op <;> (simp only [FollowsSets]; infer_instance)

/-- Bookkeeping for C14, not part of the scheduler: after an operation, the timeout that
each task passed to its latest `WaitForEvent` call that parked it.  Only a `WaitForEvent`
that parks the running task changes the record. -/
def noteWait (s : Scheduler) (op : Op) (g : TaskId → Option Int) : TaskId → Option Int :=
  match op with
  | .waitForEvent eventId timeout now order =>
    match s.m_current, (WaitForEvent eventId timeout now order s).2 with
    | some c, none => fun t => if t = c then some timeout else g t
    | _, _ => g
  | _ => g

/-- The record of `noteWait` after a sequence of operations. -/
def parkedWith : Scheduler → List Op → (TaskId → Option Int) → TaskId → Option Int
  | _, [], g => g
  | s, op :: ops, g => parkedWith (step s op) ops (noteWait s op g)

/-- The waiters of an event agree with the record `g`: each was parked with a recorded
timeout, and it is in the timed index exactly when that timeout is not -1. -/
def TimedAgrees (g : TaskId → Option Int) (e : Event) : Prop :=
  ∀ w ∈ e.m_waiting, ∃ τ, g w.1 = some τ ∧
    (τ ≠ -1 → w.1 ∈ timedTasks e.m_timed) ∧ (τ = -1 → w.1 ∉ timedTasks e.m_timed)


/-- An integer that a signed 64-bit count holds without wrapping. -/
def Representable (x : Int) : Prop :=
  -9223372036854775808 ≤ x ∧ x < 9223372036854775808

instance (x : Int) : Decidable (Representable x) := by
  unfold Representable; infer_instance

/-- The arguments of the calls `m_ready.emplace_back` that an operation makes, in the order
of the calls: the new task with value 0 in `CreateTask` (line 80); the running task with
value 0 in `Yield` (line 181), also when reached through `Sleep(0)`; the front of the
waiting sequence with value 1 in `SetEvent` (line 140); every entry of the waiting
sequence, in order, with value 1 in `DeleteEvent` (line 167); in a `Tick` called from main,
the sleepers visited by the loop of step 1 (line 220) and then, event after event, the
tasks of the buckets visited by the loop of step 2 (line 236), with value 0.  The other
operations do not call it. -/
def readied (s : Scheduler) : Op → List (TaskId × Int)
  | .createTask t => [(t, 0)]
  | .yield =>
    match s.m_current with
    | some cur => [(cur, 0)]
    | none => []
  | .sleep duration _ =>
    match s.m_current with
    | some cur => if duration = 0 then [(cur, 0)] else []
    | none => []
  | .setEvent eventId =>
    match findEvent eventId s.m_events with
    | some e =>
      match e.m_waiting with
      | (t, _) :: _ => [(t, 1)]
      | [] => []
    | none => []
  | .deleteEvent eventId =>
    match findEvent eventId s.m_events with
    | some e => e.m_waiting.map (fun w => (w.1, (1 : Int)))
    | none => []
  | .tick now =>
    match s.m_current with
    | some _ => []
    | none =>
      (s.m_sleeping.takeWhile (fun q => decide (q.1 ≤ now))).map (fun q => (q.2, (0 : Int))) ++
        (s.m_events.flatMap (fun p => timedOut now p.2.m_timed)).map (fun t => (t, (0 : Int)))
  | _ => []

/-- The entries made ready along a sequence of operations, in order. -/
def readiedAlong : Scheduler → List Op → List (TaskId × Int)
  | _, [] => []
  | s, op :: ops => readied s op ++ readiedAlong (step s op) ops

/-! # Theorems -/

/-! ## Lemmas on the event table -/

theorem findEvent_mem {eventId : EventID} {e : Event} :
    ∀ {l : List (EventID × Event)}, findEvent eventId l = some e → (eventId, e) ∈ l
  | [], h => by simp [findEvent] at h
  | (k, e0) :: rest, h => by
    unfold findEvent at h
    split at h
    · next hk => cases h; subst hk; simp
    · exact List.mem_cons_of_mem _ (findEvent_mem h)

theorem findEvent_none_iff {eventId : EventID} :
    ∀ {l : List (EventID × Event)}, findEvent eventId l = none ↔ eventId ∉ l.map Prod.fst
  | [] => by simp [findEvent]
  | (k, e0) :: rest => by
    unfold findEvent
    split
    · next hk => subst hk; simp
    · next hk =>
      rw [findEvent_none_iff (l := rest)]
      simp [Ne.symm hk]

theorem findEvent_of_mem {eventId : EventID} {e : Event} :
    ∀ {l : List (EventID × Event)}, (l.map Prod.fst).Nodup → (eventId, e) ∈ l →
      findEvent eventId l = some e
  | [], _, h => by simp at h
  | (k, e0) :: rest, hnd, h => by
    simp only [List.map_cons, List.nodup_cons] at hnd
    unfold findEvent
    rcases List.mem_cons.1 h with h | h
    · cases h; simp
    · have hk : k ≠ eventId := by
        rintro rfl
        exact hnd.1 (List.mem_map.2 ⟨(k, e), h, rfl⟩)
      rw [if_neg hk]
      exact findEvent_of_mem hnd.2 h

theorem storeEvent_keys (eventId : EventID) (e' : Event) :
    ∀ l : List (EventID × Event), (storeEvent eventId e' l).map Prod.fst = l.map Prod.fst
  | [] => rfl
  | (k, e0) :: rest => by
    unfold storeEvent
    split
    · simp
    · simp [storeEvent_keys eventId e' rest]

theorem findEvent_storeEvent_same {eventId : EventID} {e e' : Event} :
    ∀ {l : List (EventID × Event)}, findEvent eventId l = some e →
      findEvent eventId (storeEvent eventId e' l) = some e'
  | [], h => by simp [findEvent] at h
  | (k, e0) :: rest, h => by
    unfold findEvent at h
    unfold storeEvent
    split
    · next hk => simp [findEvent, hk]
    · next hk =>
      rw [if_neg hk] at h
      simp [findEvent, hk, findEvent_storeEvent_same h]

theorem findEvent_storeEvent_other {eventId other : EventID} (e' : Event) (hne : other ≠ eventId) :
    ∀ l : List (EventID × Event),
      findEvent other (storeEvent eventId e' l) = findEvent other l
  | [] => rfl
  | (k, e0) :: rest => by
    unfold storeEvent
    split
    · next hk =>
      subst hk
      simp [findEvent, Ne.symm hne]
    · next hk =>
      simp [findEvent, findEvent_storeEvent_other e' hne rest]

theorem findEvent_eraseEvent_other {eventId other : EventID} (hne : other ≠ eventId) :
    ∀ l : List (EventID × Event),
      findEvent other (eraseEvent eventId l) = findEvent other l
  | [] => rfl
  | (k, e0) :: rest => by
    unfold eraseEvent
    split
    · next hk =>
      subst hk
      simp [findEvent, Ne.symm hne]
    · next hk =>
      simp [findEvent, findEvent_eraseEvent_other hne rest]

theorem eraseEvent_sublist (eventId : EventID) :
    ∀ l : List (EventID × Event), (eraseEvent eventId l).Sublist l
  | [] => List.Sublist.refl _
  | (k, e0) :: rest => by
    unfold eraseEvent
    split
    · exact List.sublist_cons_self _ _
    · exact (eraseEvent_sublist eventId rest).cons₂ _

theorem findEvent_eraseEvent_same {eventId : EventID} :
    ∀ {l : List (EventID × Event)}, (l.map Prod.fst).Nodup →
      findEvent eventId (eraseEvent eventId l) = none
  | [], _ => rfl
  | (k, e0) :: rest, hnd => by
    simp only [List.map_cons, List.nodup_cons] at hnd
    unfold eraseEvent
    split
    · next hk =>
      subst hk
      exact findEvent_none_iff.2 hnd.1
    · next hk =>
      simp [findEvent, hk, findEvent_eraseEvent_same hnd.2]

theorem mem_storeEvent {eventId : EventID} {e' : Event} {p : EventID × Event} :
    ∀ {l : List (EventID × Event)}, p ∈ storeEvent eventId e' l → p ∈ l ∨ p = (eventId, e')
  | [], h => by simp [storeEvent] at h
  | (k, e0) :: rest, h => by
    unfold storeEvent at h
    split at h
    · next hk =>
      subst hk
      rcases List.mem_cons.1 h with h | h
      · exact Or.inr h
      · exact Or.inl (List.mem_cons_of_mem _ h)
    · rcases List.mem_cons.1 h with h | h
      · exact Or.inl (h ▸ List.mem_cons_self _ _)
      · rcases mem_storeEvent h with h | h
        · exact Or.inl (List.mem_cons_of_mem _ h)
        · exact Or.inr h

/-- The waiting tasks of a table split into those of a known event and those of the rest. -/
theorem waitingTasks_perm {eventId : EventID} {e : Event} :
    ∀ {l : List (EventID × Event)}, findEvent eventId l = some e →
      (waitingTasks l).Perm (e.m_waiting.map Prod.fst ++ waitingTasks (eraseEvent eventId l))
  | [], h => by simp [findEvent] at h
  | (k, e0) :: rest, h => by
    unfold findEvent at h
    unfold eraseEvent
    split at h
    · next hk =>
      cases h
      simp [waitingTasks, hk]
    · next hk =>
      rw [if_neg hk]
      have ih := waitingTasks_perm h
      simp only [waitingTasks, List.flatMap_cons] at ih ⊢
      refine (List.Perm.append_left _ ih).trans ?_
      simp only [← List.append_assoc]
      exact List.Perm.append_right _ List.perm_append_comm

theorem waitingTasks_storeEvent_perm {eventId : EventID} {e : Event} (e' : Event) :
    ∀ {l : List (EventID × Event)}, findEvent eventId l = some e →
      (waitingTasks (storeEvent eventId e' l)).Perm
        (e'.m_waiting.map Prod.fst ++ waitingTasks (eraseEvent eventId l))
  | [], h => by simp [findEvent] at h
  | (k, e0) :: rest, h => by
    unfold findEvent at h
    unfold eraseEvent storeEvent
    split at h
    · next hk =>
      simp [waitingTasks, hk]
    · next hk =>
      rw [if_neg hk, if_neg hk]
      have ih := waitingTasks_storeEvent_perm e' h
      simp only [waitingTasks, List.flatMap_cons] at ih ⊢
      refine (List.Perm.append_left _ ih).trans ?_
      simp only [← List.append_assoc]
      exact List.Perm.append_right _ List.perm_append_comm

/-! ## The loops of `Tick` in closed form -/

theorem wakeLoop_eq (now : TimePoint) :
    ∀ (l : List (TimePoint × TaskId)) (ready : List (TaskId × Int)),
      wakeLoop now l ready =
        (l.dropWhile (fun q => decide (q.1 ≤ now)),
          ready ++ (l.takeWhile (fun q => decide (q.1 ≤ now))).map (fun q => (q.2, (0 : Int))))
  | [], ready => by simp [wakeLoop]
  | (k, t) :: rest, ready => by
    unfold wakeLoop
    split
    · next hk => simp [wakeLoop_eq now rest, List.takeWhile, List.dropWhile, hk]
    · next hk => simp [List.takeWhile, List.dropWhile, hk]

theorem bucketLoop_eq :
    ∀ (b : Bucket) (w : List (TaskId × TimePoint)) (ready : List (TaskId × Int)),
      bucketLoop b w ready = (eraseNodes b w, ready ++ b.map (fun t => (t, (0 : Int))))
  | [], w, ready => by simp [bucketLoop, eraseNodes]
  | t :: b, w, ready => by
    unfold bucketLoop
    rw [bucketLoop_eq b]
    simp [eraseNodes]

theorem eraseNodes_append (a b : List TaskId) (w : List (TaskId × TimePoint)) :
    eraseNodes (a ++ b) w = eraseNodes b (eraseNodes a w) := by
  simp [eraseNodes, List.foldl_append]

theorem timedLoop_eq (now : TimePoint) :
    ∀ (tm : List (TimePoint × Bucket)) (w : List (TaskId × TimePoint)) (ready : List (TaskId × Int)),
      timedLoop now tm w ready =
        (tm.dropWhile (fun kb => decide (kb.1 ≤ now)),
          eraseNodes (timedOut now tm) w,
          ready ++ (timedOut now tm).map (fun t => (t, (0 : Int))))
  | [], w, ready => by simp [timedLoop, timedOut, timedTasks, eraseNodes]
  | (k, b) :: rest, w, ready => by
    unfold timedLoop
    split
    · next hk =>
      simp only [bucketLoop_eq, timedLoop_eq now rest]
      simp [timedOut, timedTasks, List.takeWhile, List.dropWhile, hk, eraseNodes_append]
    · next hk => simp [timedOut, timedTasks, List.takeWhile, List.dropWhile, hk, eraseNodes]

theorem expireEvent_eq (now : TimePoint) (e : Event) (ready : List (TaskId × Int)) :
    expireEvent now e ready =
      (expired now e, ready ++ (timedOut now e.m_timed).map (fun t => (t, (0 : Int)))) := by
  simp [expireEvent, timedLoop_eq, expired]

theorem eventsLoop_eq (now : TimePoint) :
    ∀ (l : List (EventID × Event)) (ready : List (TaskId × Int)),
      eventsLoop now l ready =
        (l.map (fun p => (p.1, expired now p.2)),
          ready ++ (l.flatMap (fun p => timedOut now p.2.m_timed)).map (fun t => (t, (0 : Int))))
  | [], ready => by simp [eventsLoop]
  | (k, e) :: rest, ready => by
    unfold eventsLoop
    simp [expireEvent_eq, eventsLoop_eq now rest]

theorem findEvent_map_expired (now : TimePoint) (eventId : EventID) :
    ∀ l : List (EventID × Event),
      findEvent eventId (l.map (fun p => (p.1, expired now p.2))) =
        (findEvent eventId l).map (expired now)
  | [] => rfl
  | (k, e) :: rest => by
    simp only [List.map_cons, findEvent]
    split
    · rfl
    · exact findEvent_map_expired now eventId rest

/-! ## Ordered containers: the visited entries are those with a key `≤ now` -/

theorem takeWhile_eq_filter_of_sorted {α : Type} (now : TimePoint) :
    ∀ l : List (TimePoint × α), (l.map Prod.fst).Pairwise (· ≤ ·) →
      l.takeWhile (fun q => decide (q.1 ≤ now)) = l.filter (fun q => decide (q.1 ≤ now))
  | [], _ => rfl
  | (k, a) :: rest, h => by
    simp only [List.map_cons, List.pairwise_cons] at h
    by_cases hk : k ≤ now
    · simp [List.takeWhile, List.filter, hk, takeWhile_eq_filter_of_sorted now rest h.2]
    · have : ∀ q ∈ rest, ¬ q.1 ≤ now := by
        intro q hq hle
        exact hk (le_trans (h.1 q.1 (List.mem_map.2 ⟨q, hq, rfl⟩)) hle)
      simp only [List.takeWhile, List.filter, hk, decide_False]
      symm
      rw [List.filter_eq_nil_iff]
      intro q hq
      simpa using this q hq

theorem dropWhile_eq_filter_of_sorted {α : Type} (now : TimePoint) :
    ∀ l : List (TimePoint × α), (l.map Prod.fst).Pairwise (· ≤ ·) →
      l.dropWhile (fun q => decide (q.1 ≤ now)) = l.filter (fun q => decide (now < q.1))
  | [], _ => rfl
  | (k, a) :: rest, h => by
    simp only [List.map_cons, List.pairwise_cons] at h
    by_cases hk : k ≤ now
    · simp [List.dropWhile, List.filter, hk, not_lt.2 hk, dropWhile_eq_filter_of_sorted now rest h.2]
    · have : ∀ q ∈ rest, now < q.1 := by
        intro q hq
        exact lt_of_lt_of_le (not_le.1 hk) (h.1 q.1 (List.mem_map.2 ⟨q, hq, rfl⟩))
      simp only [List.dropWhile, List.filter, hk, decide_False, not_le.1 hk, decide_True]
      congr 1
      symm
      rw [List.filter_eq_self]
      intro q hq
      simpa using this q hq

theorem pairwise_le_of_lt {l : List TimePoint} (h : l.Pairwise (· < ·)) : l.Pairwise (· ≤ ·) :=
  h.imp (fun hab => le_of_lt hab)

/-! ## Erasing nodes of a waiting sequence in which a task has one node -/

theorem eraseNode_eq_filter (t : TaskId) :
    ∀ w : List (TaskId × TimePoint), (w.map Prod.fst).Nodup →
      eraseNode t w = w.filter (fun q => decide (q.1 ≠ t))
  | [], _ => rfl
  | (u, tp) :: rest, h => by
    simp only [List.map_cons, List.nodup_cons] at h
    unfold eraseNode
    split
    · next hu =>
      subst hu
      have : ∀ q ∈ rest, q.1 ≠ u := by
        intro q hq heq
        exact h.1 (List.mem_map.2 ⟨q, hq, heq⟩)
      simp only [List.filter, ne_eq, not_true_eq_false, decide_False]
      symm
      rw [List.filter_eq_self]
      intro q hq
      simpa using this q hq
    · next hu =>
      simp [List.filter, hu, eraseNode_eq_filter t rest h.2]

theorem filter_keys_nodup {w : List (TaskId × TimePoint)} (p : TaskId × TimePoint → Bool)
    (h : (w.map Prod.fst).Nodup) : ((w.filter p).map Prod.fst).Nodup :=
  h.sublist ((List.filter_sublist w).map Prod.fst)

theorem eraseNodes_eq_filter :
    ∀ (ts : List TaskId) (w : List (TaskId × TimePoint)), (w.map Prod.fst).Nodup →
      eraseNodes ts w = w.filter (fun q => decide (q.1 ∉ ts))
  | [], w, _ => by simp [eraseNodes]
  | t :: ts, w, h => by
    have h1 : eraseNodes (t :: ts) w = eraseNodes ts (eraseNode t w) := rfl
    rw [h1, eraseNode_eq_filter t w h, eraseNodes_eq_filter ts _ (filter_keys_nodup _ h),
      List.filter_filter]
    congr 1
    funext q
    by_cases h2 : q.1 = t <;> simp [h2]

/-! ## Where the tasks are after each operation -/

theorem arrange_perm {α κ : Type} [BEq κ] (order : List κ) (key : α → κ) (x : α) :
    ∀ l : List α, (arrange order key x l).Perm (x :: l)
  | [] => List.Perm.refl _
  | y :: l => by
    unfold arrange
    split
    · exact List.Perm.refl _
    · exact ((arrange_perm order key x l).cons y).trans (List.Perm.swap _ _ _)

theorem rehash_perm {α κ : Type} [BEq κ] (order : List κ) (key : α → κ) :
    ∀ l : List α, (rehash order key l).Perm l
  | [] => List.Perm.refl _
  | x :: l => (arrange_perm order key x _).trans ((rehash_perm order key l).cons x)

theorem mem_rehash {α κ : Type} [BEq κ] {order : List κ} {key : α → κ} {y : α} {l : List α} :
    y ∈ rehash order key l ↔ y ∈ l :=
  (rehash_perm order key l).mem_iff

theorem findEvent_arrange (order : List EventID) (other k : EventID) (e : Event) :
    ∀ l : List (EventID × Event),
      findEvent other (arrange order Prod.fst (k, e) l) =
        if k = other then some e else findEvent other l
  | [] => by simp [arrange, findEvent]
  | (k0, e0) :: l => by
    unfold arrange
    split
    · simp [findEvent]
    · next hrank =>
      simp only [findEvent]
      rw [findEvent_arrange order other k e l]
      by_cases h0 : k0 = other
      · have hk : k ≠ other := by
          rintro rfl
          rw [h0] at hrank
          exact hrank (le_refl _)
        simp [h0, hk]
      · simp [h0]

/-- A lookup does not depend on the arrangement of the table. -/
theorem findEvent_rehash (order : List EventID) (other : EventID) :
    ∀ l : List (EventID × Event), findEvent other (rehash order Prod.fst l) = findEvent other l
  | [] => rfl
  | (k, e) :: l => by
    simp only [rehash]
    rw [findEvent_arrange, findEvent_rehash order other l]
    simp only [findEvent]

theorem rehash_eq_insertionSort {α κ : Type} [BEq κ] (order : List κ) (key : α → κ) :
    ∀ l : List α,
      rehash order key l =
        l.insertionSort (fun a b => order.indexOf (key a) ≤ order.indexOf (key b))
  | [] => rfl
  | x :: l => by
    have harr : ∀ m : List α, arrange order key x m =
        m.orderedInsert (fun a b => order.indexOf (key a) ≤ order.indexOf (key b)) x := by
      intro m
      induction m with
      | nil => rfl
      | cons y m ih =>
        simp only [arrange, List.orderedInsert]
        split
        · rfl
        · rw [ih]
    simp only [rehash, List.insertionSort, rehash_eq_insertionSort order key l, harr]

theorem map_eq_of_injOn {α β : Type} (f : α → β) :
    ∀ (l1 l2 : List α), (∀ x ∈ l1, ∀ y ∈ l2, f x = f y → x = y) →
      l1.map f = l2.map f → l1 = l2
  | [], [], _, _ => rfl
  | [], _ :: _, _, h => by simp at h
  | _ :: _, [], _, h => by simp at h
  | x :: l1, y :: l2, hinj, h => by
    simp only [List.map_cons, List.cons.injEq] at h
    have hxy := hinj x (List.mem_cons_self _ _) y (List.mem_cons_self _ _) h.1
    have ht := map_eq_of_injOn f l1 l2
      (fun a ha b hb => hinj a (List.mem_cons_of_mem _ ha) b (List.mem_cons_of_mem _ hb)) h.2
    rw [hxy, ht]

/-- Every iteration order is the result of some rehash: entries with distinct keys are put
in any arrangement `l'` of them by the order of the keys of `l'`. -/
theorem rehash_of_perm {α κ : Type} [DecidableEq κ] (key : α → κ) (l l' : List α)
    (hnd : (l'.map key).Nodup) (hp : l.Perm l') : rehash (l'.map key) key l = l' := by
  let f : α → Nat := fun a => (l'.map key).indexOf (key a)
  have hsorted : ((rehash (l'.map key) key l).map f).Sorted (· ≤ ·) := by
    rw [rehash_eq_insertionSort]
    haveI : IsTotal α (fun a b => f a ≤ f b) := ⟨fun a b => le_total _ _⟩
    haveI : IsTrans α (fun a b => f a ≤ f b) := ⟨fun a b c h1 h2 => le_trans h1 h2⟩
    have h := List.sorted_insertionSort (fun a b => f a ≤ f b) l
    exact List.pairwise_map.2 h
  have hidx : ∀ (i : Nat) (h : i < l'.length), f (l'.get ⟨i, h⟩) = i := by
    intro i h
    have h2 : i < (l'.map key).length := by simpa using h
    have h3 := List.indexOf_getElem hnd i h2
    simpa [f] using h3
  have hsorted2 : (l'.map f).Sorted (· ≤ ·) := by
    rw [List.Sorted, List.pairwise_map, List.pairwise_iff_get]
    intro i j hij
    rw [hidx i.1 i.2, hidx j.1 j.2]
    exact le_of_lt hij
  have hperm : ((rehash (l'.map key) key l).map f).Perm (l'.map f) :=
    ((rehash_perm _ _ l).trans hp).map f
  have heq := List.eq_of_perm_of_sorted hperm hsorted hsorted2
  refine map_eq_of_injOn f _ _ ?_ heq
  intro x hx y hy hxy
  have hx2 : x ∈ l' := hp.mem_iff.1 ((rehash_perm _ _ l).mem_iff.1 hx)
  obtain ⟨i, hi⟩ := List.mem_iff_get.1 hx2
  obtain ⟨j, hj⟩ := List.mem_iff_get.1 hy
  rw [← hi, ← hj, hidx i.1 i.2, hidx j.1 j.2] at hxy
  rw [← hi, ← hj, Fin.ext hxy]

theorem sleepEmplace_perm (tp : TimePoint) (t : TaskId) :
    ∀ l : List (TimePoint × TaskId), (sleepEmplace tp t l).Perm ((tp, t) :: l)
  | [] => List.Perm.refl _
  | (k, u) :: rest => by
    unfold sleepEmplace
    split
    · exact ((sleepEmplace_perm tp t rest).cons _).trans (List.Perm.swap _ _ _)
    · exact List.Perm.refl _

theorem sleepEmplace_sorted (tp : TimePoint) (t : TaskId) :
    ∀ l : List (TimePoint × TaskId), (l.map Prod.fst).Pairwise (· ≤ ·) →
      ((sleepEmplace tp t l).map Prod.fst).Pairwise (· ≤ ·)
  | [], _ => by simp [sleepEmplace]
  | (k, u) :: rest, h => by
    unfold sleepEmplace
    simp only [List.map_cons, List.pairwise_cons] at h
    split
    · next hk =>
      simp only [List.map_cons, List.pairwise_cons]
      refine ⟨?_, sleepEmplace_sorted tp t rest h.2⟩
      intro a ha
      have ha' := ((sleepEmplace_perm tp t rest).map Prod.fst).mem_iff.1 ha
      simp only [List.map_cons, List.mem_cons] at ha'
      rcases ha' with rfl | ha'
      · exact hk
      · exact h.1 a ha'
    · next hk =>
      simp only [List.map_cons, List.pairwise_cons, List.mem_cons]
      refine ⟨?_, h⟩
      rintro a (rfl | ha)
      · exact le_of_lt (not_le.1 hk)
      · exact le_trans (le_of_lt (not_le.1 hk)) (h.1 a ha)

theorem parked_CreateTask (t : TaskId) (s : Scheduler) :
    (parked (CreateTask t s)).Perm (t :: parked s) := by
  rw [List.perm_iff_count]
  intro a
  simp only [parked, CreateTask, List.map_append, List.count_append, List.count_cons,
    List.map_cons, List.map_nil, List.count_nil]
  omega

theorem parked_CreateEvent (eventId : EventID) (order : List EventID) (s : Scheduler) :
    (parked (CreateEvent eventId order s).1).Perm (parked s) := by
  unfold CreateEvent
  split
  · exact List.Perm.refl _
  · have h := (rehash_perm order Prod.fst
      ((eventId, ({ m_signaled := false, m_waiting := [], m_timed := [] } : Event)) ::
        s.m_events)).flatMap_right (fun p => p.2.m_waiting.map Prod.fst)
    rw [List.perm_iff_count] at h ⊢
    intro a
    have h := h a
    simp only [parked, waitingTasks, List.flatMap_cons, List.map_nil, List.nil_append,
      List.count_append] at h ⊢
    omega

theorem parked_Yield (s : Scheduler) : (parked (Yield s)).Perm (parked s) := by
  unfold Yield
  split
  · next cur hc =>
    rw [List.perm_iff_count]
    intro a
    simp only [parked, hc, Option.toList, List.map_append, List.count_append, List.count_cons,
      List.map_cons, List.map_nil, List.count_nil]
    omega
  · exact List.Perm.refl _

theorem parked_Sleep (duration : Int) (now : TimePoint) (s : Scheduler) :
    (parked (Sleep duration now s)).Perm (parked s) := by
  unfold Sleep
  split
  · exact parked_Yield s
  · split
    · next cur hc =>
      rw [List.perm_iff_count]
      intro a
      have h := ((sleepEmplace_perm (clockAdd now duration) cur s.m_sleeping).map Prod.snd).count_eq a
      simp only [parked, hc, Option.toList, List.map_append, List.count_append, List.count_cons,
        List.map_cons, List.map_nil, List.count_nil] at h ⊢
      omega
    · exact List.Perm.refl _

theorem parked_WaitForEvent (eventId : EventID) (timeout : Int) (now : TimePoint) (order : List TaskId)
    (s : Scheduler) : (parked (WaitForEvent eventId timeout now order s).1).Perm (parked s) := by
  unfold WaitForEvent
  split
  · next cur hc =>
    split
    · next e he =>
      have h2 := fun a => (waitingTasks_perm he).count_eq a
      split
      · rw [List.perm_iff_count]
        intro a
        have h1 := (waitingTasks_storeEvent_perm { e with m_signaled := false } he).count_eq a
        have h2 := h2 a
        simp only [parked, List.count_append] at h1 h2 ⊢
        omega
      · split
        · exact List.Perm.refl _
        · rw [List.perm_iff_count]
          intro a
          have h1 := (waitingTasks_storeEvent_perm
            { e with
              m_waiting := e.m_waiting ++ [(cur, waitDeadline timeout now)]
              m_timed := if timeout ≠ -1 then
                  timedEmplace (waitDeadline timeout now) cur order e.m_timed
                else e.m_timed } he).count_eq a
          have h2 := h2 a
          simp only [parked, hc, Option.toList, List.map_append, List.count_append,
            List.count_cons, List.map_cons, List.map_nil, List.count_nil] at h1 h2 ⊢
          omega
    · exact List.Perm.refl _
  · exact List.Perm.refl _

theorem parked_SetEvent (eventId : EventID) (s : Scheduler) :
    (parked (SetEvent eventId s)).Perm (parked s) := by
  unfold SetEvent
  split
  · next e he =>
    have h2 := fun a => (waitingTasks_perm he).count_eq a
    split
    · next t tp rest hw =>
      rw [List.perm_iff_count]
      intro a
      have h1 := (waitingTasks_storeEvent_perm
        { e with m_waiting := rest, m_timed := timedErase tp t e.m_timed } he).count_eq a
      have h2 := h2 a
      simp only [parked, hw, List.map_append, List.count_append,
        List.count_cons, List.map_cons, List.map_nil, List.count_nil] at h1 h2 ⊢
      omega
    · rw [List.perm_iff_count]
      intro a
      have h1 := (waitingTasks_storeEvent_perm { e with m_signaled := true } he).count_eq a
      have h2 := h2 a
      simp only [parked, List.count_append] at h1 h2 ⊢
      omega
  · exact List.Perm.refl _

theorem parked_DeleteEvent (eventId : EventID) (s : Scheduler) :
    (parked (DeleteEvent eventId s)).Perm (parked s) := by
  unfold DeleteEvent
  split
  · next e he =>
    rw [List.perm_iff_count]
    intro a
    have h2 := (waitingTasks_perm he).count_eq a
    simp only [parked, List.map_append, List.count_append, List.map_map] at h2 ⊢
    have h3 : (Prod.fst ∘ fun w : TaskId × TimePoint => (w.1, (1 : Int))) = Prod.fst := rfl
    rw [h3]
    omega
  · exact List.Perm.refl _

theorem parked_tickWake (now : TimePoint) (s : Scheduler) :
    (parked (tickWake now s)).Perm (parked s) := by
  rw [List.perm_iff_count]
  intro a
  have h := congrArg (fun l => List.count a (l.map Prod.snd))
    (List.takeWhile_append_dropWhile (fun q : TimePoint × TaskId => decide (q.1 ≤ now)) s.m_sleeping)
  simp only [List.map_append, List.count_append] at h
  simp only [parked, tickWake, wakeLoop_eq, List.map_append, List.count_append, List.map_map]
  have h3 : (Prod.fst ∘ fun q : TimePoint × TaskId => (q.2, (0 : Int))) = Prod.snd := rfl
  rw [h3]
  omega

theorem parked_TaskLeave {s : Scheduler} {t : TaskId} (hc : s.m_current = some t) :
    (parked s).Perm (t :: parked (TaskLeave s)) := by
  simp [parked, TaskLeave, hc]

/-! ## Well-formed events under step 2 of `Tick` -/

theorem timedTasks_sublist {a b : List (TimePoint × Bucket)} (h : a.Sublist b) :
    (timedTasks a).Sublist (timedTasks b) := by
  induction h with
  | slnil => exact List.Sublist.refl _
  | cons x _ ih =>
    simp only [timedTasks, List.flatMap_cons] at ih ⊢
    exact ih.trans (List.sublist_append_right _ _)
  | cons₂ x _ ih =>
    simp only [timedTasks, List.flatMap_cons] at ih ⊢
    exact (List.Sublist.refl _).append ih

theorem mem_timedTasks {t : TaskId} {tm : List (TimePoint × Bucket)} :
    t ∈ timedTasks tm ↔ ∃ kb ∈ tm, t ∈ kb.2 := by
  simp [timedTasks, List.mem_flatMap]

theorem timedTasks_split (now : TimePoint) (tm : List (TimePoint × Bucket)) :
    timedTasks tm = timedOut now tm ++
      timedTasks (tm.dropWhile (fun kb => decide (kb.1 ≤ now))) := by
  unfold timedOut timedTasks
  rw [← List.flatMap_append, List.takeWhile_append_dropWhile]

theorem timedOut_sublist (now : TimePoint) (tm : List (TimePoint × Bucket)) :
    (timedOut now tm).Sublist (timedTasks tm) :=
  timedTasks_sublist (List.takeWhile_sublist _)

theorem timedOut_mem_waiting {now : TimePoint} {e : Event} (h : EventWF e) {t : TaskId}
    (ht : t ∈ timedOut now e.m_timed) : t ∈ e.m_waiting.map Prod.fst := by
  obtain ⟨kb, hkb, htk⟩ := mem_timedTasks.1 ((timedOut_sublist now e.m_timed).subset ht)
  exact List.mem_map.2 ⟨(t, kb.1), h.2.2.2.2.1 kb hkb t htk, rfl⟩

theorem expired_waiting (now : TimePoint) {e : Event} (h : EventWF e) :
    (expired now e).m_waiting =
      e.m_waiting.filter (fun q => decide (q.1 ∉ timedOut now e.m_timed)) :=
  eraseNodes_eq_filter _ _ h.1

theorem EventWF_expired (now : TimePoint) {e : Event} (h : EventWF e) :
    EventWF (expired now e) := by
  obtain ⟨h1, h2, h3, h4, h5, h6⟩ := h
  have hsub : (e.m_timed.dropWhile (fun kb => decide (kb.1 ≤ now))).Sublist e.m_timed :=
    List.dropWhile_sublist _
  refine ⟨?_, ?_, ?_, ?_, ?_, ?_⟩
  · rw [expired_waiting now ⟨h1, h2, h3, h4, h5, h6⟩]
    exact filter_keys_nodup _ h1
  · exact h2.sublist (hsub.map Prod.fst)
  · intro kb hkb
    exact h3 kb (hsub.subset hkb)
  · exact h4.sublist (timedTasks_sublist hsub)
  · intro kb hkb t ht
    rw [expired_waiting now ⟨h1, h2, h3, h4, h5, h6⟩]
    have hsplit := timedTasks_split now e.m_timed
    rw [hsplit] at h4
    have hdisj := (List.nodup_append.1 h4).2.2
    refine List.mem_filter.2 ⟨h5 kb (hsub.subset hkb) t ht, ?_⟩
    simp only [decide_eq_true_eq]
    intro hin
    exact hdisj hin (mem_timedTasks.2 ⟨kb, hkb, ht⟩)
  · intro hs
    have hw : e.m_waiting = [] := h6 hs
    simp [expired, hw, eraseNodes]
    induction timedOut now e.m_timed with
    | nil => rfl
    | cons t ts ih => simpa [eraseNode] using ih

theorem expired_perm (now : TimePoint) {e : Event} (h : EventWF e) :
    (e.m_waiting.map Prod.fst).Perm
      (timedOut now e.m_timed ++ (expired now e).m_waiting.map Prod.fst) := by
  have hnd : (timedOut now e.m_timed).Nodup := h.2.2.2.1.sublist (timedOut_sublist now e.m_timed)
  rw [List.perm_ext_iff_of_nodup h.1]
  · intro a
    rw [expired_waiting now h]
    simp only [List.mem_append, List.mem_map, List.mem_filter, decide_eq_true_eq]
    constructor
    · rintro ⟨q, hq, rfl⟩
      by_cases hin : q.1 ∈ timedOut now e.m_timed
      · exact Or.inl hin
      · exact Or.inr ⟨q, ⟨hq, hin⟩, rfl⟩
    · rintro (hin | ⟨q, ⟨hq, _⟩, rfl⟩)
      · exact List.mem_map.1 (timedOut_mem_waiting h hin)
      · exact ⟨q, hq, rfl⟩
  · rw [List.nodup_append]
    refine ⟨hnd, (EventWF_expired now h).1, ?_⟩
    intro a ha hb
    rw [expired_waiting now h] at hb
    obtain ⟨q, hq, rfl⟩ := List.mem_map.1 hb
    have := (List.mem_filter.1 hq).2
    simp only [decide_eq_true_eq] at this
    exact this ha

theorem waitingTasks_expired_perm (now : TimePoint) :
    ∀ l : List (EventID × Event), (∀ p ∈ l, EventWF p.2) →
      (waitingTasks l).Perm
        (l.flatMap (fun p => timedOut now p.2.m_timed) ++
          waitingTasks (l.map (fun p => (p.1, expired now p.2))))
  | [], _ => by simp [waitingTasks]
  | (k, e) :: rest, h => by
    have ih := waitingTasks_expired_perm now rest (fun p hp => h p (List.mem_cons_of_mem _ hp))
    have he := expired_perm now (h (k, e) (List.mem_cons_self _ _))
    rw [List.perm_iff_count] at ih he ⊢
    intro a
    have ih := ih a
    have he := he a
    simp only [waitingTasks, List.flatMap_cons, List.map_cons, List.count_append] at ih he ⊢
    omega

theorem parked_tickExpire (now : TimePoint) {s : Scheduler} (h : ∀ p ∈ s.m_events, EventWF p.2) :
    (parked (tickExpire now s)).Perm (parked s) := by
  have hp := waitingTasks_expired_perm now s.m_events h
  rw [List.perm_iff_count] at hp ⊢
  intro a
  have hp := hp a
  simp only [parked, tickExpire, eventsLoop_eq, List.map_append, List.count_append,
    List.map_map] at hp ⊢
  have h3 : (Prod.fst ∘ fun t : TaskId => (t, (0 : Int))) = id := rfl
  rw [h3, List.map_id]
  omega

/-! ## The timed index under `SetEvent` and `WaitForEvent` -/

theorem timedErase_keys_sublist (tp : TimePoint) (t : TaskId) :
    ∀ tm : List (TimePoint × Bucket),
      ((timedErase tp t tm).map Prod.fst).Sublist (tm.map Prod.fst)
  | [] => List.Sublist.refl _
  | (k, b) :: rest => by
    unfold timedErase
    split
    · split
      · exact List.sublist_cons_self _ _
      · exact List.Sublist.refl _
    · exact (timedErase_keys_sublist tp t rest).cons₂ _

theorem timedErase_tasks_sublist (tp : TimePoint) (t : TaskId) :
    ∀ tm : List (TimePoint × Bucket),
      (timedTasks (timedErase tp t tm)).Sublist (timedTasks tm)
  | [] => List.Sublist.refl _
  | (k, b) :: rest => by
    unfold timedErase
    split
    · split
      · simp only [timedTasks, List.flatMap_cons]
        exact List.sublist_append_right _ _
      · simp only [timedTasks, List.flatMap_cons]
        exact (List.erase_sublist t b).append (List.Sublist.refl _)
    · have ih := timedErase_tasks_sublist tp t rest
      simp only [timedTasks, List.flatMap_cons] at ih ⊢
      exact (List.Sublist.refl _).append ih

theorem timedErase_nonempty (tp : TimePoint) (t : TaskId) :
    ∀ tm : List (TimePoint × Bucket), (∀ kb ∈ tm, kb.2 ≠ []) →
      ∀ kb ∈ timedErase tp t tm, kb.2 ≠ []
  | [], _ => by simp [timedErase]
  | (k, b) :: rest, h => by
    unfold timedErase
    split
    · split
      · intro kb hkb
        exact h kb (List.mem_cons_of_mem _ hkb)
      · next hne =>
        intro kb hkb
        rcases List.mem_cons.1 hkb with rfl | hkb
        · simpa using hne
        · exact h kb (List.mem_cons_of_mem _ hkb)
    · intro kb hkb
      rcases List.mem_cons.1 hkb with rfl | hkb
      · exact h _ (List.mem_cons_self _ _)
      · exact timedErase_nonempty tp t rest (fun kb hkb => h kb (List.mem_cons_of_mem _ hkb)) kb hkb

theorem timedErase_origin (tp : TimePoint) (t : TaskId) :
    ∀ tm : List (TimePoint × Bucket), ∀ kb ∈ timedErase tp t tm, ∀ u ∈ kb.2,
      ∃ kb0 ∈ tm, kb0.1 = kb.1 ∧ u ∈ kb0.2
  | [], kb, hkb, _, _ => by simp [timedErase] at hkb
  | (k, b) :: rest, kb, hkb, u, hu => by
    unfold timedErase at hkb
    split at hkb
    · split at hkb
      · exact ⟨kb, List.mem_cons_of_mem _ hkb, rfl, hu⟩
      · rcases List.mem_cons.1 hkb with rfl | hkb
        · exact ⟨(k, b), List.mem_cons_self _ _, rfl, (List.erase_sublist t b).subset hu⟩
        · exact ⟨kb, List.mem_cons_of_mem _ hkb, rfl, hu⟩
    · rcases List.mem_cons.1 hkb with rfl | hkb
      · exact ⟨(k, b), List.mem_cons_self _ _, rfl, hu⟩
      · obtain ⟨kb0, h0, h1, h2⟩ := timedErase_origin tp t rest kb hkb u hu
        exact ⟨kb0, List.mem_cons_of_mem _ h0, h1, h2⟩

theorem timedErase_not_mem (tp : TimePoint) (t : TaskId) :
    ∀ tm : List (TimePoint × Bucket), (tm.map Prod.fst).Pairwise (· < ·) →
      (timedTasks tm).Nodup → (∀ kb ∈ tm, t ∈ kb.2 → kb.1 = tp) →
      t ∉ timedTasks (timedErase tp t tm)
  | [], _, _, _ => by simp [timedErase, timedTasks]
  | (k, b) :: rest, hs, hn, hk => by
    simp only [List.map_cons, List.pairwise_cons] at hs
    simp only [timedTasks, List.flatMap_cons] at hn
    have hrest : t ∈ timedTasks rest → k = tp → False := by
      intro hin hktp
      obtain ⟨kb, hkb, htk⟩ := mem_timedTasks.1 hin
      have h1 := hk kb (List.mem_cons_of_mem _ hkb) htk
      have h2 := hs.1 kb.1 (List.mem_map.2 ⟨kb, hkb, rfl⟩)
      rw [h1, ← hktp] at h2
      exact lt_irrefl _ h2
    unfold timedErase
    split
    · next hktp =>
      have hb : t ∉ b.erase t := by
        intro hin
        exact ((List.nodup_append.1 hn).1.mem_erase_iff.1 hin).1 rfl
      split
      · exact fun hin => hrest hin hktp
      · simp only [timedTasks, List.flatMap_cons, List.mem_append]
        rintro (hin | hin)
        · exact hb hin
        · exact hrest hin hktp
    · next hktp =>
      simp only [timedTasks, List.flatMap_cons, List.mem_append]
      rintro (hin | hin)
      · exact hktp (hk (k, b) (List.mem_cons_self _ _) hin)
      · exact timedErase_not_mem tp t rest hs.2 (List.nodup_append.1 hn).2.1
          (fun kb hkb => hk kb (List.mem_cons_of_mem _ hkb)) hin

theorem deadline_unique {w : List (TaskId × TimePoint)} (h : (w.map Prod.fst).Nodup)
    {t : TaskId} {a b : TimePoint} (ha : (t, a) ∈ w) (hb : (t, b) ∈ w) : a = b := by
  have := List.inj_on_of_nodup_map h ha hb rfl
  exact (Prod.mk.inj this).2

theorem mem_bucketEmplace {order : List TaskId} {t u : TaskId} {b : Bucket} :
    u ∈ bucketEmplace order t b ↔ u = t ∨ u ∈ b := by
  unfold bucketEmplace
  split
  · next h =>
    constructor
    · exact Or.inr
    · rintro (rfl | h1)
      · exact h
      · exact h1
  · rw [mem_rehash, List.mem_cons]

theorem bucketEmplace_ne_nil (order : List TaskId) (t : TaskId) (b : Bucket) :
    bucketEmplace order t b ≠ [] := by
  intro h
  have : t ∈ bucketEmplace order t b := mem_bucketEmplace.2 (Or.inl rfl)
  rw [h] at this
  exact List.not_mem_nil _ this

theorem bucketEmplace_perm {order : List TaskId} {t : TaskId} {b : Bucket} (h : t ∉ b) :
    (bucketEmplace order t b).Perm (t :: b) := by
  unfold bucketEmplace
  rw [if_neg h]
  exact rehash_perm order id (t :: b)

theorem timedEmplace_keys (tp : TimePoint) (t : TaskId) (order : List TaskId) :
    ∀ (tm : List (TimePoint × Bucket)) (a : TimePoint),
      a ∈ (timedEmplace tp t order tm).map Prod.fst ↔ a = tp ∨ a ∈ tm.map Prod.fst
  | [], a => by simp [timedEmplace]
  | (k, b) :: rest, a => by
    unfold timedEmplace
    split
    · simp only [List.map_cons, List.mem_cons, timedEmplace_keys tp t order rest a]
      tauto
    · split
      · next hk =>
        simp only [List.map_cons, List.mem_cons]
        constructor
        · exact Or.inr
        · rintro (h | h)
          · exact Or.inl (h.trans hk.symm)
          · exact h
      · simp only [List.map_cons, List.mem_cons]

theorem timedEmplace_sorted (tp : TimePoint) (t : TaskId) (order : List TaskId) :
    ∀ tm : List (TimePoint × Bucket), (tm.map Prod.fst).Pairwise (· < ·) →
      ((timedEmplace tp t order tm).map Prod.fst).Pairwise (· < ·)
  | [], _ => by simp [timedEmplace]
  | (k, b) :: rest, h => by
    simp only [List.map_cons, List.pairwise_cons] at h
    unfold timedEmplace
    split
    · next hk =>
      simp only [List.map_cons, List.pairwise_cons]
      refine ⟨?_, timedEmplace_sorted tp t order rest h.2⟩
      intro a ha
      rcases (timedEmplace_keys tp t order rest a).1 ha with rfl | ha
      · exact hk
      · exact h.1 a ha
    · split
      · simpa only [List.map_cons, List.pairwise_cons] using h
      · next h1 h2 =>
        simp only [List.map_cons, List.pairwise_cons, List.mem_cons]
        have hlt : tp < k := lt_of_le_of_ne (not_lt.1 h1) (Ne.symm h2)
        refine ⟨?_, h⟩
        rintro a (rfl | ha)
        · exact hlt
        · exact lt_trans hlt (h.1 a ha)

theorem timedEmplace_nonempty (tp : TimePoint) (t : TaskId) (order : List TaskId) :
    ∀ tm : List (TimePoint × Bucket), (∀ kb ∈ tm, kb.2 ≠ []) →
      ∀ kb ∈ timedEmplace tp t order tm, kb.2 ≠ []
  | [], _ => by
    intro kb hkb
    simp only [timedEmplace, List.mem_singleton] at hkb
    subst hkb
    exact bucketEmplace_ne_nil order t []
  | (k, b) :: rest, h => by
    have hr : ∀ kb ∈ rest, kb.2 ≠ [] := fun kb hkb => h kb (List.mem_cons_of_mem _ hkb)
    unfold timedEmplace
    intro kb hkb
    split at hkb
    · rcases List.mem_cons.1 hkb with rfl | hkb
      · exact h _ (List.mem_cons_self _ _)
      · exact timedEmplace_nonempty tp t order rest hr kb hkb
    · split at hkb
      · rcases List.mem_cons.1 hkb with rfl | hkb
        · exact bucketEmplace_ne_nil _ _ _
        · exact hr kb hkb
      · rcases List.mem_cons.1 hkb with rfl | hkb
        · exact bucketEmplace_ne_nil order t []
        · exact h kb hkb

theorem timedEmplace_origin (tp : TimePoint) (t : TaskId) (order : List TaskId) :
    ∀ tm : List (TimePoint × Bucket), ∀ kb ∈ timedEmplace tp t order tm, ∀ u ∈ kb.2,
      (u = t ∧ kb.1 = tp) ∨ ∃ kb0 ∈ tm, kb0.1 = kb.1 ∧ u ∈ kb0.2
  | [], kb, hkb, u, hu => by
    simp only [timedEmplace, List.mem_singleton] at hkb
    subst hkb
    rcases mem_bucketEmplace.1 (show u ∈ bucketEmplace order t [] from hu) with rfl | hu
    · exact Or.inl ⟨rfl, rfl⟩
    · exact absurd hu (List.not_mem_nil _)
  | (k, b) :: rest, kb, hkb, u, hu => by
    unfold timedEmplace at hkb
    split at hkb
    · rcases List.mem_cons.1 hkb with rfl | hkb
      · exact Or.inr ⟨(k, b), List.mem_cons_self _ _, rfl, hu⟩
      · rcases timedEmplace_origin tp t order rest kb hkb u hu with h | ⟨kb0, h0, h1, h2⟩
        · exact Or.inl h
        · exact Or.inr ⟨kb0, List.mem_cons_of_mem _ h0, h1, h2⟩
    · split at hkb
      · next hk =>
        rcases List.mem_cons.1 hkb with rfl | hkb
        · rcases mem_bucketEmplace.1 hu with rfl | hu
          · exact Or.inl ⟨rfl, hk⟩
          · exact Or.inr ⟨(k, b), List.mem_cons_self _ _, rfl, hu⟩
        · exact Or.inr ⟨kb, List.mem_cons_of_mem _ hkb, rfl, hu⟩
      · rcases List.mem_cons.1 hkb with rfl | hkb
        · rcases mem_bucketEmplace.1 (show u ∈ bucketEmplace order t [] from hu) with rfl | hu
          · exact Or.inl ⟨rfl, rfl⟩
          · exact absurd hu (List.not_mem_nil _)
        · exact Or.inr ⟨kb, hkb, rfl, hu⟩

theorem timedEmplace_perm (tp : TimePoint) (t : TaskId) (order : List TaskId) :
    ∀ tm : List (TimePoint × Bucket), t ∉ timedTasks tm →
      (timedTasks (timedEmplace tp t order tm)).Perm (t :: timedTasks tm)
  | [], _ => by
    simp only [timedEmplace, timedTasks, List.flatMap_cons, List.flatMap_nil, List.append_nil]
    exact bucketEmplace_perm (List.not_mem_nil _)
  | (k, b) :: rest, h => by
    simp only [timedTasks, List.flatMap_cons, List.mem_append, not_or] at h
    unfold timedEmplace
    split
    · have ih := timedEmplace_perm tp t order rest h.2
      simp only [timedTasks, List.flatMap_cons] at ih ⊢
      exact (List.Perm.append_left _ ih).trans List.perm_middle
    · split
      · simp only [timedTasks, List.flatMap_cons]
        exact (bucketEmplace_perm h.1).append_right _
      · simp only [timedTasks, List.flatMap_cons]
        exact (bucketEmplace_perm (List.not_mem_nil _)).append_right _

/-! ## Well-formed events under the event operations -/

theorem EventWF_unlatch {e : Event} (h : EventWF e) : EventWF { e with m_signaled := false } := by
  obtain ⟨h1, h2, h3, h4, h5, _⟩ := h
  exact ⟨h1, h2, h3, h4, h5, fun hs => by simp at hs⟩

theorem EventWF_latch {e : Event} (h : EventWF e) (hw : e.m_waiting = []) :
    EventWF { e with m_signaled := true } := by
  obtain ⟨h1, h2, h3, h4, h5, _⟩ := h
  exact ⟨h1, h2, h3, h4, h5, fun _ => hw⟩

theorem timedTasks_subset_waiting {e : Event} (h : EventWF e) {t : TaskId}
    (ht : t ∈ timedTasks e.m_timed) : t ∈ e.m_waiting.map Prod.fst := by
  obtain ⟨kb, hkb, htk⟩ := mem_timedTasks.1 ht
  exact List.mem_map.2 ⟨(t, kb.1), h.2.2.2.2.1 kb hkb t htk, rfl⟩

theorem EventWF_park {e : Event} (h : EventWF e) (hs : e.m_signaled = false) {cur : TaskId}
    (hc : cur ∉ e.m_waiting.map Prod.fst) (timeout : Int) (now : TimePoint) (order : List TaskId) :
    EventWF { e with
      m_waiting := e.m_waiting ++ [(cur, waitDeadline timeout now)]
      m_timed := if timeout ≠ -1 then timedEmplace (waitDeadline timeout now) cur order e.m_timed
        else e.m_timed } := by
  have hct : cur ∉ timedTasks e.m_timed := fun hin => hc (timedTasks_subset_waiting h hin)
  obtain ⟨h1, h2, h3, h4, h5, _⟩ := h
  have hw : ((e.m_waiting ++ [(cur, waitDeadline timeout now)]).map Prod.fst).Nodup := by
    rw [List.map_append, List.nodup_append]
    refine ⟨h1, by simp, ?_⟩
    intro a ha hb
    simp only [List.map_cons, List.map_nil, List.mem_singleton] at hb
    exact hc (hb ▸ ha)
  by_cases hto : timeout ≠ -1
  · rw [if_pos hto]
    refine ⟨hw, timedEmplace_sorted _ _ _ _ h2, timedEmplace_nonempty _ _ _ _ h3, ?_, ?_, ?_⟩
    · exact ((timedEmplace_perm _ _ order _ hct).nodup_iff).2 (List.nodup_cons.2 ⟨hct, h4⟩)
    · intro kb hkb u hu
      rcases timedEmplace_origin _ _ _ _ kb hkb u hu with ⟨rfl, hk⟩ | ⟨kb0, h0, hk, hu0⟩
      · rw [hk]
        exact List.mem_append_right _ (List.mem_singleton_self _)
      · rw [← hk]
        exact List.mem_append_left _ (h5 kb0 h0 u hu0)
    · intro hs'
      simp [hs] at hs'
  · rw [if_neg hto]
    refine ⟨hw, h2, h3, h4, ?_, ?_⟩
    · intro kb hkb u hu
      exact List.mem_append_left _ (h5 kb hkb u hu)
    · intro hs'
      simp [hs] at hs'

theorem EventWF_release {e : Event} (h : EventWF e) {t : TaskId} {tp : TimePoint}
    {rest : List (TaskId × TimePoint)} (hw : e.m_waiting = (t, tp) :: rest) :
    EventWF { e with m_waiting := rest, m_timed := timedErase tp t e.m_timed } := by
  obtain ⟨h1, h2, h3, h4, h5, h6⟩ := h
  rw [hw] at h1 h5
  have hkey : ∀ kb ∈ e.m_timed, t ∈ kb.2 → kb.1 = tp := by
    intro kb hkb ht
    exact deadline_unique h1 (h5 kb hkb t ht) (List.mem_cons_self _ _)
  have hnot := timedErase_not_mem tp t e.m_timed h2 h4 hkey
  refine ⟨?_, ?_, timedErase_nonempty tp t _ h3, ?_, ?_, ?_⟩
  · simp only [List.map_cons, List.nodup_cons] at h1
    exact h1.2
  · exact h2.sublist (timedErase_keys_sublist tp t _)
  · exact h4.sublist (timedErase_tasks_sublist tp t _)
  · intro kb hkb u hu
    obtain ⟨kb0, h0, hk, hu0⟩ := timedErase_origin tp t _ kb hkb u hu
    have hmem := h5 kb0 h0 u hu0
    rw [hk] at hmem
    rcases List.mem_cons.1 hmem with heq | hmem
    · exfalso
      have hut : u = t := (Prod.mk.inj heq).1
      exact hnot (mem_timedTasks.2 ⟨kb, hkb, hut ▸ hu⟩)
    · exact hmem
  · intro hs
    have := h6 hs
    rw [hw] at this
    exact absurd this (List.cons_ne_nil _ _)

theorem EventWF_storeEvent {eventId : EventID} {e' : Event} {l : List (EventID × Event)}
    (h : ∀ p ∈ l, EventWF p.2) (he' : EventWF e') :
    ∀ p ∈ storeEvent eventId e' l, EventWF p.2 := by
  intro p hp
  rcases mem_storeEvent hp with hp | rfl
  · exact h p hp
  · exact he'

theorem waiting_subset_waitingTasks {eventId : EventID} {e : Event} {l : List (EventID × Event)}
    (he : findEvent eventId l = some e) {t : TaskId} (ht : t ∈ e.m_waiting.map Prod.fst) :
    t ∈ waitingTasks l :=
  List.mem_flatMap.2 ⟨(eventId, e), findEvent_mem he, ht⟩

theorem current_not_waiting {s : Scheduler} (h : (parked s).Nodup) {cur : TaskId}
    (hc : s.m_current = some cur) : cur ∉ waitingTasks s.m_events := by
  intro hin
  simp only [parked, hc, Option.toList, List.singleton_append, List.nodup_cons,
    List.mem_append] at h
  exact h.1 (Or.inr (Or.inr hin))

/-! ## The invariant is kept by every operation -/

theorem Inv_CreateTask {s : Scheduler} (h : Inv s) {t : TaskId} (ht : t ∉ parked s) :
    Inv (CreateTask t s) :=
  ⟨((parked_CreateTask t s).nodup_iff).2 (List.nodup_cons.2 ⟨ht, h.1⟩), h.2.1, h.2.2.1, h.2.2.2⟩

theorem Inv_CreateEvent {s : Scheduler} (h : Inv s) (eventId : EventID)
    (order : List EventID) :
    Inv (CreateEvent eventId order s).1 := by
  have hnd := ((parked_CreateEvent eventId order s).nodup_iff).2 h.1
  revert hnd
  unfold CreateEvent
  split
  · exact fun _ => h
  · next hnone =>
    intro hnd
    refine ⟨hnd, ?_, ?_, h.2.2.2⟩
    · intro p hp'
      rcases List.mem_cons.1 (mem_rehash.1 hp') with rfl | hp'
      · exact ⟨by simp, by simp, by simp, by simp [timedTasks], by simp, by simp⟩
      · exact h.2.1 p hp'
    · have hperm := (rehash_perm order Prod.fst
        ((eventId, ({ m_signaled := false, m_waiting := [], m_timed := [] } : Event)) ::
          s.m_events)).map Prod.fst
      exact (hperm.nodup_iff).2 (List.nodup_cons.2 ⟨findEvent_none_iff.1 hnone, h.2.2.1⟩)

theorem Inv_WaitForEvent {s : Scheduler} (h : Inv s) (eventId : EventID) (timeout : Int)
    (now : TimePoint) (order : List TaskId) : Inv (WaitForEvent eventId timeout now order s).1 := by
  have hnd := ((parked_WaitForEvent eventId timeout now order s).nodup_iff).2 h.1
  revert hnd
  unfold WaitForEvent
  split
  · next cur hc =>
    split
    · next e he =>
      have hwf := h.2.1 _ (findEvent_mem he)
      split
      · next hs =>
        intro hnd
        exact ⟨hnd, EventWF_storeEvent h.2.1 (EventWF_unlatch hwf),
          by simpa [storeEvent_keys] using h.2.2.1, h.2.2.2⟩
      · next hs =>
        split
        · exact fun _ => h
        · next hto =>
          intro hnd
          have hcw : cur ∉ e.m_waiting.map Prod.fst := fun hin =>
            current_not_waiting h.1 hc (waiting_subset_waitingTasks he hin)
          exact ⟨hnd,
            EventWF_storeEvent h.2.1 (EventWF_park hwf (by simpa using hs) hcw timeout now order),
            by simpa [storeEvent_keys] using h.2.2.1, h.2.2.2⟩
    · exact fun _ => h
  · exact fun _ => h

theorem Inv_SetEvent {s : Scheduler} (h : Inv s) (eventId : EventID) :
    Inv (SetEvent eventId s) := by
  have hnd := ((parked_SetEvent eventId s).nodup_iff).2 h.1
  revert hnd
  unfold SetEvent
  split
  · next e he =>
    have hwf := h.2.1 _ (findEvent_mem he)
    split
    · next t tp rest hw =>
      intro hnd
      exact ⟨hnd, EventWF_storeEvent h.2.1 (EventWF_release hwf hw),
        by simpa [storeEvent_keys] using h.2.2.1, h.2.2.2⟩
    · next hw =>
      intro hnd
      exact ⟨hnd, EventWF_storeEvent h.2.1 (EventWF_latch hwf hw),
        by simpa [storeEvent_keys] using h.2.2.1, h.2.2.2⟩
  · exact fun _ => h

theorem Inv_DeleteEvent {s : Scheduler} (h : Inv s) (eventId : EventID) :
    Inv (DeleteEvent eventId s) := by
  have hnd := ((parked_DeleteEvent eventId s).nodup_iff).2 h.1
  revert hnd
  unfold DeleteEvent
  split
  · next e he =>
    intro hnd
    exact ⟨hnd,
      fun p hp' => h.2.1 p ((eraseEvent_sublist eventId _).subset hp'),
      h.2.2.1.sublist ((eraseEvent_sublist eventId _).map Prod.fst), h.2.2.2⟩
  · exact fun _ => h

theorem Inv_Yield {s : Scheduler} (h : Inv s) : Inv (Yield s) := by
  have hnd := ((parked_Yield s).nodup_iff).2 h.1
  revert hnd
  unfold Yield
  split
  · exact fun hnd => ⟨hnd, h.2.1, h.2.2.1, h.2.2.2⟩
  · exact fun _ => h

theorem Inv_Sleep {s : Scheduler} (h : Inv s) (duration : Int) (now : TimePoint) :
    Inv (Sleep duration now s) := by
  have hnd := ((parked_Sleep duration now s).nodup_iff).2 h.1
  revert hnd
  unfold Sleep
  split
  · exact fun _ => Inv_Yield h
  · split
    · exact fun hnd => ⟨hnd, h.2.1, h.2.2.1, sleepEmplace_sorted _ _ _ h.2.2.2⟩
    · exact fun _ => h

theorem Inv_tickWake {s : Scheduler} (h : Inv s) (now : TimePoint) : Inv (tickWake now s) := by
  refine ⟨((parked_tickWake now s).nodup_iff).2 h.1, h.2.1, h.2.2.1, ?_⟩
  simp only [tickWake, wakeLoop_eq]
  exact h.2.2.2.sublist ((List.dropWhile_sublist _).map Prod.fst)

theorem Inv_tickExpire {s : Scheduler} (h : Inv s) (now : TimePoint) : Inv (tickExpire now s) := by
  refine ⟨((parked_tickExpire now h.2.1).nodup_iff).2 h.1, ?_, ?_, h.2.2.2⟩
  · simp only [tickExpire, eventsLoop_eq]
    intro p hp
    obtain ⟨q, hq, rfl⟩ := List.mem_map.1 hp
    exact EventWF_expired now (h.2.1 q hq)
  · simp only [tickExpire, eventsLoop_eq, List.map_map]
    exact h.2.2.1

theorem parked_tickHost (now : TimePoint) {s : Scheduler} (h : ∀ p ∈ s.m_events, EventWF p.2) :
    (parked (tickHost now s).1).Perm (parked s) := by
  unfold tickHost
  split
  · exact List.Perm.refl _
  · next hc =>
    have h1 : (parked (tickExpire now (tickWake now s))).Perm (parked s) :=
      (parked_tickExpire now (s := tickWake now s) h).trans (parked_tickWake now s)
    have hc2 : (tickExpire now (tickWake now s)).m_current = none := hc
    dsimp only
    split
    · next t x rest hr =>
      refine List.Perm.trans ?_ h1
      simp [parked, hr, hc2]
    · exact h1

theorem Inv_tickHost {s : Scheduler} (h : Inv s) (now : TimePoint) : Inv (tickHost now s).1 := by
  have hnd := ((parked_tickHost now h.2.1).nodup_iff).2 h.1
  have h2 := Inv_tickExpire (Inv_tickWake h now) now
  revert hnd
  unfold tickHost
  split
  · exact fun _ => h
  · dsimp only
    split
    · exact fun hnd => ⟨hnd, h2.2.1, h2.2.2.1, h2.2.2.2⟩
    · exact fun _ => h2

theorem Inv_TaskLeave {s : Scheduler} (h : Inv s) : Inv (TaskLeave s) := by
  refine ⟨?_, h.2.1, h.2.2.1, h.2.2.2⟩
  have : (parked (TaskLeave s)).Sublist (parked s) := by
    simp only [parked, TaskLeave, Option.toList, List.nil_append]
    exact List.sublist_append_right _ _
  exact h.1.sublist this

theorem Inv_step {s : Scheduler} (h : Inv s) {op : Op} (hok : OpOk s op) : Inv (step s op) := by
  cases op with
  | createTask t => exact Inv_CreateTask h hok
  | createEvent eventId order => exact Inv_CreateEvent h eventId order
  | waitForEvent eventId timeout now order => exact Inv_WaitForEvent h eventId timeout now order
  | setEvent eventId => exact Inv_SetEvent h eventId
  | deleteEvent eventId => exact Inv_DeleteEvent h eventId
  | yield => exact Inv_Yield h
  | sleep duration now => exact Inv_Sleep h duration now
  | tick now => exact Inv_tickHost h now
  | taskLeave => exact Inv_TaskLeave h

theorem Inv_runOps : ∀ (ops : List Op) {s : Scheduler}, Inv s → Admissible s ops →
    Inv (runOps s ops)
  | [], _, h, _ => h
  | _ :: ops, _, h, hadm => Inv_runOps ops (Inv_step h hadm.1) hadm.2

theorem Inv_empty : Inv Scheduler.empty := by decide

/-! ## Reachable states -/

theorem Reachable_inv {s : Scheduler} {live : List TaskId} (h : Reachable s live) :
    Inv s ∧ live.Perm (parked s) := by
  induction h with
  | init => exact ⟨Inv_empty, List.Perm.refl _⟩
  | createTask t _ hfresh ih =>
    have hnot : t ∉ parked _ := fun hin => hfresh (ih.2.mem_iff.2 hin)
    exact ⟨Inv_CreateTask ih.1 hnot, (ih.2.cons t).trans (parked_CreateTask t _).symm⟩
  | createEvent eventId order _ ih =>
    exact ⟨Inv_CreateEvent ih.1 eventId order,
      ih.2.trans (parked_CreateEvent eventId order _).symm⟩
  | waitForEvent eventId timeout now order _ ih =>
    exact ⟨Inv_WaitForEvent ih.1 eventId timeout now order,
      ih.2.trans (parked_WaitForEvent eventId timeout now order _).symm⟩
  | setEvent eventId _ ih =>
    exact ⟨Inv_SetEvent ih.1 eventId, ih.2.trans (parked_SetEvent eventId _).symm⟩
  | deleteEvent eventId _ ih =>
    exact ⟨Inv_DeleteEvent ih.1 eventId, ih.2.trans (parked_DeleteEvent eventId _).symm⟩
  | yield _ ih => exact ⟨Inv_Yield ih.1, ih.2.trans (parked_Yield _).symm⟩
  | sleep duration now _ ih =>
    exact ⟨Inv_Sleep ih.1 duration now, ih.2.trans (parked_Sleep duration now _).symm⟩
  | tick now _ ih =>
    exact ⟨Inv_tickHost ih.1 now, ih.2.trans (parked_tickHost now ih.1.2.1).symm⟩
  | taskLeave t _ hc ih =>
    refine ⟨Inv_TaskLeave ih.1, ?_⟩
    have h1 := (ih.2.trans (parked_TaskLeave hc)).erase t
    simpa using h1

/-- C1 (exclusive parking).  In every state reachable from the empty scheduler by the
operations of the scheduler (the jump into a task by `Tick` and the end of a task
included), each task that was created and has not finished occurs exactly once in the
list made of the current slot, the ready queue, the sleep map and the waiting sequences
of all events; that list has no repetition and holds no other task. -/
theorem C1_exclusive_parking (s : Scheduler) (live : List TaskId) (h : Reachable s live) :
    (∀ t ∈ live, (parked s).count t = 1) ∧ (parked s).Nodup ∧ (∀ t ∈ parked s, t ∈ live) := by
  obtain ⟨hinv, hperm⟩ := Reachable_inv h
  refine ⟨?_, hinv.1, fun t ht => hperm.mem_iff.2 ht⟩
  intro t ht
  exact List.count_eq_one_of_mem hinv.1 (hperm.mem_iff.1 ht)

theorem demoWaiting_reachable : Reachable demoWaiting [2, 1] :=
  Reachable.waitForEvent 100 (-1) 1 [] (Reachable.tick 1 (Reachable.waitForEvent 100 50 0 []
    (Reachable.tick 0 (Reachable.createTask 2 (Reachable.createTask 1
      (Reachable.createEvent 100 [] Reachable.init) (by decide)) (by decide)))))

theorem C1_exclusive_parking_witness :
    Reachable demoWaiting [2, 1] ∧
      ((∀ t ∈ [2, 1], (parked demoWaiting).count t = 1) ∧ (parked demoWaiting).Nodup ∧
        (∀ t ∈ parked demoWaiting, t ∈ [2, 1])) :=
  ⟨demoWaiting_reachable, C1_exclusive_parking demoWaiting [2, 1] demoWaiting_reachable⟩

/-! ## C2: release order of `SetEvent` -/

theorem SetEvent_cons {s : Scheduler} {eventId : EventID} {e : Event} {t : TaskId}
    {tp : TimePoint} {rest : List (TaskId × TimePoint)}
    (hfind : findEvent eventId s.m_events = some e) (hw : e.m_waiting = (t, tp) :: rest) :
    SetEvent eventId s =
      { s with
        m_ready := s.m_ready ++ [(t, 1)]
        m_events := storeEvent eventId
          { e with m_waiting := rest, m_timed := timedErase tp t e.m_timed } s.m_events } := by
  simp only [SetEvent, hfind, hw]

theorem SetEvent_nil {s : Scheduler} {eventId : EventID} {e : Event}
    (hfind : findEvent eventId s.m_events = some e) (hw : e.m_waiting = []) :
    SetEvent eventId s =
      { s with m_events := storeEvent eventId { e with m_signaled := true } s.m_events } := by
  simp only [SetEvent, hfind, hw]

/-- C2 (event FIFO).  For an event whose waiting sequence is `w` and every `k` not greater
than its length, `k` successive calls of `SetEvent` on it append the tasks of the first `k`
entries of `w` to the ready queue, in that order and each with value 1, and leave the
remaining entries of `w` waiting in their order. -/
theorem C2_event_fifo (k : Nat) : ∀ (s : Scheduler) (eventId : EventID) (e : Event),
    findEvent eventId s.m_events = some e → k ≤ e.m_waiting.length →
    ((SetEvent eventId)^[k] s).m_ready =
        s.m_ready ++ (e.m_waiting.take k).map (fun w => (w.1, (1 : Int))) ∧
      ∃ e', findEvent eventId ((SetEvent eventId)^[k] s).m_events = some e' ∧
        e'.m_waiting = e.m_waiting.drop k := by
  induction k with
  | zero =>
    intro s eventId e hfind _
    exact ⟨by simp, e, hfind, by simp⟩
  | succ k ih =>
    intro s eventId e hfind hk
    match hw : e.m_waiting with
    | [] => rw [hw] at hk; simp at hk
    | (t, tp) :: rest =>
      rw [hw] at hk
      have hk' : k ≤ rest.length := by simpa using hk
      rw [Function.iterate_succ_apply, SetEvent_cons hfind hw]
      have hfind' : findEvent eventId (storeEvent eventId
          { e with m_waiting := rest, m_timed := timedErase tp t e.m_timed } s.m_events) =
            some { e with m_waiting := rest, m_timed := timedErase tp t e.m_timed } :=
        findEvent_storeEvent_same hfind
      obtain ⟨h1, e', h2, h3⟩ := ih
        { s with
          m_ready := s.m_ready ++ [(t, 1)]
          m_events := storeEvent eventId
            { e with m_waiting := rest, m_timed := timedErase tp t e.m_timed } s.m_events }
        eventId { e with m_waiting := rest, m_timed := timedErase tp t e.m_timed } hfind' hk'
      refine ⟨?_, e', h2, ?_⟩
      · rw [h1]; simp
      · rw [h3]; simp

theorem C2_event_fifo_witness :
    findEvent 100 demoWaiting.m_events =
        some { m_signaled := false, m_waiting := [(1, 50000000), (2, 0)], m_timed := [(50000000, [1])] } ∧
      ((SetEvent 100)^[2] demoWaiting).m_ready = [(1, 1), (2, 1)] :=
  ⟨by decide, (C2_event_fifo 2 demoWaiting 100
    { m_signaled := false, m_waiting := [(1, 50000000), (2, 0)], m_timed := [(50000000, [1])] }
    (by decide) (by decide)).1⟩

/-! ## C3: what a tick selects -/

theorem ready_after_steps (now : TimePoint) (s : Scheduler) :
    (tickExpire now (tickWake now s)).m_ready = s.m_ready ++ readiedByTick now s := by
  simp [readiedByTick, tickExpire, tickWake, eventsLoop_eq, wakeLoop_eq, List.append_assoc]

/-- C3, counterexample.  With task 7 asleep until 5 ms after the epoch and an empty ready
queue, the `Tick` at 10 ms called from the main context appends task 7 to the ready queue
in its step 1 and selects task 7 in its step 3, in the same tick. -/
theorem C3_counterexample :
    Inv demoSleeping ∧ demoSleeping.m_current = none ∧
      demoSleeping.m_sleeping = [(5000000, 7)] ∧ demoSleeping.m_ready = [] ∧
      7 ∈ (readiedByTick 10000000 demoSleeping).map Prod.fst ∧
      tickSelected 10000000 demoSleeping = some 7 := by
  decide

/-- C3, amended.  For a `Tick` called from the main context in a well-formed state: when
the ready queue is not empty at the start of the tick, the tick selects the task at its
head, and that task is none of the tasks appended by steps 1 and 2 of this tick; when the
ready queue is empty at the start, the tick selects the first task appended by steps 1
and 2 of this same tick (and none when they append nothing). -/
theorem C3_selected_amended (now : TimePoint) (s : Scheduler) (hinv : Inv s)
    (hc : s.m_current = none) :
    (∀ t x rest, s.m_ready = (t, x) :: rest →
        tickSelected now s = some t ∧ t ∉ (readiedByTick now s).map Prod.fst) ∧
      (s.m_ready = [] →
        tickSelected now s = ((readiedByTick now s).head?).map Prod.fst) := by
  have hr := ready_after_steps now s
  have hinv2 := Inv_tickExpire (Inv_tickWake hinv now) now
  constructor
  · intro t x rest hready
    rw [hready] at hr
    constructor
    · simp [tickSelected, tickHost, hc, hr]
    · have hnd := hinv2.1
      simp only [parked, hr, List.map_append, List.map_cons, List.cons_append] at hnd
      have h1 := (List.nodup_append.1 hnd).2.1
      intro hin
      exact (List.nodup_cons.1 h1).1
        (List.mem_append_left _ (List.mem_append_right _ hin))
  · intro hready
    rw [hready, List.nil_append] at hr
    cases hrd : readiedByTick now s with
    | nil => simp [tickSelected, tickHost, hc, hr, hrd]
    | cons p rest =>
      obtain ⟨t, x⟩ := p
      simp [tickSelected, tickHost, hc, hr, hrd]

theorem C3_selected_amended_witness :
    Inv demoSleeping ∧ demoSleeping.m_current = none ∧
      (demoSleeping.m_ready = [] →
        tickSelected 10000000 demoSleeping = ((readiedByTick 10000000 demoSleeping).head?).map Prod.fst) :=
  ⟨by decide, by decide, (C3_selected_amended 10000000 demoSleeping (by decide) (by decide)).2⟩

/-! ## C4: `SetEvent` with a waiter -/

theorem timedWithout_cons (t : TaskId) (k : TimePoint) (b : Bucket)
    (rest : List (TimePoint × Bucket)) :
    timedWithout t ((k, b) :: rest) =
      if (b.filter (fun u => decide (u ≠ t))).isEmpty then timedWithout t rest
      else (k, b.filter (fun u => decide (u ≠ t))) :: timedWithout t rest := by
  by_cases h : (b.filter (fun u => decide (u ≠ t))).isEmpty = true
  · simp only [timedWithout, List.map_cons, List.filter_cons, h, Bool.not_true, if_true]
    simp
  · simp only [timedWithout, List.map_cons, List.filter_cons, h, if_false]
    simp

theorem filter_ne_of_not_mem {t : TaskId} {b : Bucket} (h : t ∉ b) :
    b.filter (fun u => decide (u ≠ t)) = b := by
  rw [List.filter_eq_self]
  intro u hu
  simp only [ne_eq, decide_eq_true_eq]
  rintro rfl
  exact h hu

theorem timedWithout_of_not_mem (t : TaskId) :
    ∀ tm : List (TimePoint × Bucket), (∀ kb ∈ tm, t ∉ kb.2) → (∀ kb ∈ tm, kb.2 ≠ []) →
      timedWithout t tm = tm
  | [], _, _ => rfl
  | (k, b) :: rest, h1, h2 => by
    have hb : b ≠ [] := h2 (k, b) (List.mem_cons_self _ _)
    rw [timedWithout_cons, filter_ne_of_not_mem (h1 (k, b) (List.mem_cons_self _ _)),
      timedWithout_of_not_mem t rest (fun kb hkb => h1 kb (List.mem_cons_of_mem _ hkb))
        (fun kb hkb => h2 kb (List.mem_cons_of_mem _ hkb))]
    simp [hb]

theorem timedErase_eq_without (tp : TimePoint) (t : TaskId) :
    ∀ tm : List (TimePoint × Bucket), (tm.map Prod.fst).Pairwise (· < ·) →
      (∀ kb ∈ tm, kb.2 ≠ []) → (timedTasks tm).Nodup → (∀ kb ∈ tm, t ∈ kb.2 → kb.1 = tp) →
      timedErase tp t tm = timedWithout t tm
  | [], _, _, _, _ => rfl
  | (k, b) :: rest, hs, hne, hn, hk => by
    simp only [List.map_cons, List.pairwise_cons] at hs
    simp only [timedTasks, List.flatMap_cons] at hn
    have hne' : ∀ kb ∈ rest, kb.2 ≠ [] := fun kb hkb => hne kb (List.mem_cons_of_mem _ hkb)
    have hk' : ∀ kb ∈ rest, t ∈ kb.2 → kb.1 = tp := fun kb hkb => hk kb (List.mem_cons_of_mem _ hkb)
    rw [timedWithout_cons]
    unfold timedErase
    split
    · next hktp =>
      have hrest : ∀ kb ∈ rest, t ∉ kb.2 := by
        intro kb hkb hin
        have h1 := hk' kb hkb hin
        have h2 := hs.1 kb.1 (List.mem_map.2 ⟨kb, hkb, rfl⟩)
        rw [h1, ← hktp] at h2
        exact lt_irrefl _ h2
      have hb : b.erase t = b.filter (fun u => decide (u ≠ t)) := by
        rw [(List.nodup_append.1 hn).1.erase_eq_filter]
        congr 1
        funext u
        by_cases hu : u = t <;> simp [hu]
      rw [timedWithout_of_not_mem t rest hrest hne', hb]
    · next hktp =>
      have htb : t ∉ b := fun hin => hktp (hk (k, b) (List.mem_cons_self _ _) hin)
      have hb : b ≠ [] := hne (k, b) (List.mem_cons_self _ _)
      rw [filter_ne_of_not_mem htb,
        timedErase_eq_without tp t rest hs.2 hne' (List.nodup_append.1 hn).2.1 hk']
      simp [hb]

/-- C4 (`SetEvent` releases exactly one task).  On a known, well-formed event whose waiting
sequence is `(t, tp) :: rest`, `SetEvent` appends `(t, 1)` to the ready queue (so that the
wait of `t` returns true), leaves `rest` as the waiting sequence, takes the entry of `t`
out of the timed index and drops a bucket left empty, leaves the latch false, and
changes neither the current slot, the sleep map, the keys of the event table nor any
other event. -/
theorem C4_set_releases_one (s : Scheduler) (eventId : EventID) (e : Event) (t : TaskId)
    (tp : TimePoint) (rest : List (TaskId × TimePoint))
    (hfind : findEvent eventId s.m_events = some e) (hwf : EventWF e)
    (hw : e.m_waiting = (t, tp) :: rest) :
    (SetEvent eventId s).m_ready = s.m_ready ++ [(t, 1)] ∧ waitResult 1 = true ∧
      (SetEvent eventId s).m_current = s.m_current ∧
      (SetEvent eventId s).m_sleeping = s.m_sleeping ∧
      (SetEvent eventId s).m_events.map Prod.fst = s.m_events.map Prod.fst ∧
      (∀ other, other ≠ eventId →
        findEvent other (SetEvent eventId s).m_events = findEvent other s.m_events) ∧
      findEvent eventId (SetEvent eventId s).m_events =
        some { m_signaled := false, m_waiting := rest, m_timed := timedWithout t e.m_timed } ∧
      t ∉ timedTasks (timedWithout t e.m_timed) ∧
      (∀ kb ∈ timedWithout t e.m_timed, kb.2 ≠ []) := by
  have hsig : e.m_signaled = false := by
    cases hs : e.m_signaled with
    | false => rfl
    | true =>
      have := hwf.2.2.2.2.2 hs
      rw [hw] at this
      exact absurd this (List.cons_ne_nil _ _)
  have hkey : ∀ kb ∈ e.m_timed, t ∈ kb.2 → kb.1 = tp := by
    intro kb hkb ht
    have h1 := hwf.1
    have h5 := hwf.2.2.2.2.1 kb hkb t ht
    rw [hw] at h1 h5
    exact deadline_unique h1 h5 (List.mem_cons_self _ _)
  have heq := timedErase_eq_without tp t e.m_timed hwf.2.1 hwf.2.2.1 hwf.2.2.2.1 hkey
  have hnot := timedErase_not_mem tp t e.m_timed hwf.2.1 hwf.2.2.2.1 hkey
  have hne := timedErase_nonempty tp t e.m_timed hwf.2.2.1
  rw [heq] at hnot hne
  rw [SetEvent_cons hfind hw, heq]
  refine ⟨rfl, by decide, rfl, rfl, storeEvent_keys _ _ _, ?_, ?_, hnot, hne⟩
  · intro other hother
    exact findEvent_storeEvent_other _ hother _
  · rw [findEvent_storeEvent_same hfind, hsig]

theorem C4_set_releases_one_witness :
    findEvent 100 demoWaiting.m_events =
        some { m_signaled := false, m_waiting := [(1, 50000000), (2, 0)], m_timed := [(50000000, [1])] } ∧
      (SetEvent 100 demoWaiting).m_ready = [(1, 1)] ∧
      findEvent 100 (SetEvent 100 demoWaiting).m_events =
        some { m_signaled := false, m_waiting := [(2, 0)], m_timed := [] } :=
  have h := C4_set_releases_one demoWaiting 100
    { m_signaled := false, m_waiting := [(1, 50000000), (2, 0)], m_timed := [(50000000, [1])] } 1 50000000 [(2, 0)]
    (by decide) (by decide) rfl
  ⟨by decide, h.1, h.2.2.2.2.2.2.1⟩

/-! ## C5: the latch -/

theorem WaitForEvent_latched {s : Scheduler} {eventId : EventID} {e : Event} {c : TaskId}
    (timeout : Int) (now : TimePoint) (order : List TaskId) (hc : s.m_current = some c)
    (hfind : findEvent eventId s.m_events = some e) (hs : e.m_signaled = true) :
    WaitForEvent eventId timeout now order s =
      ({ s with m_events := storeEvent eventId { e with m_signaled := false } s.m_events },
        some true) := by
  simp only [WaitForEvent, hc, hfind, hs, if_true]

theorem WaitForEvent_poll {s : Scheduler} {eventId : EventID} {e : Event} {c : TaskId}
    (now : TimePoint) (order : List TaskId) (hc : s.m_current = some c)
    (hfind : findEvent eventId s.m_events = some e) (hs : e.m_signaled = false) :
    WaitForEvent eventId 0 now order s = (s, some false) := by
  simp only [WaitForEvent, hc, hfind, hs, if_true, Bool.false_eq_true, if_false]

theorem WaitForEvent_park {s : Scheduler} {eventId : EventID} {e : Event} {c : TaskId}
    (timeout : Int) (now : TimePoint) (order : List TaskId) (hc : s.m_current = some c)
    (hfind : findEvent eventId s.m_events = some e) (hs : e.m_signaled = false)
    (hto : timeout ≠ 0) :
    WaitForEvent eventId timeout now order s =
      ({ s with
          m_current := none
          m_events := storeEvent eventId
            { e with
              m_waiting := e.m_waiting ++ [(c, waitDeadline timeout now)]
              m_timed := if timeout ≠ -1 then
                  timedEmplace (waitDeadline timeout now) c order e.m_timed
                else e.m_timed } s.m_events },
        none) := by
  simp only [WaitForEvent, hc, hfind, hs, hto, Bool.false_eq_true, if_false]

/-- C5 (auto-reset latch).  On a known event `e` without waiters, `SetEvent` raises the
latch and changes nothing else.  In any state where a task `c` runs and the event is as
that call left it, `WaitForEvent` with any timeout returns true without parking `c` and
clears the latch, changing nothing else; a second `WaitForEvent` then returns false and
changes nothing when the timeout is 0, and otherwise parks `c` (no result yet, current
slot empty, `c` alone in the waiting sequence). -/
theorem C5_auto_reset_latch (s : Scheduler) (eventId : EventID) (e : Event)
    (hfind : findEvent eventId s.m_events = some e) (hw : e.m_waiting = []) :
    SetEvent eventId s =
        { s with m_events := storeEvent eventId { e with m_signaled := true } s.m_events } ∧
      findEvent eventId (SetEvent eventId s).m_events = some { e with m_signaled := true } ∧
      (∀ other, other ≠ eventId →
        findEvent other (SetEvent eventId s).m_events = findEvent other s.m_events) ∧
      ∀ (s1 : Scheduler) (c : TaskId) (timeout : Int) (now : TimePoint) (order : List TaskId),
        s1.m_current = some c →
        findEvent eventId s1.m_events = some { e with m_signaled := true } →
        (WaitForEvent eventId timeout now order s1).2 = some true ∧
        (WaitForEvent eventId timeout now order s1).1 =
          { s1 with m_events := storeEvent eventId { e with m_signaled := false } s1.m_events } ∧
        (WaitForEvent eventId timeout now order s1).1.m_current = some c ∧
        findEvent eventId (WaitForEvent eventId timeout now order s1).1.m_events =
          some { e with m_signaled := false } ∧
        (∀ other, other ≠ eventId →
          findEvent other (WaitForEvent eventId timeout now order s1).1.m_events =
            findEvent other s1.m_events) ∧
        (∀ (now2 : TimePoint) (order2 : List TaskId),
          WaitForEvent eventId 0 now2 order2 (WaitForEvent eventId timeout now order s1).1 =
            ((WaitForEvent eventId timeout now order s1).1, some false)) ∧
        (∀ (timeout2 : Int) (now2 : TimePoint) (order2 : List TaskId), timeout2 ≠ 0 →
          (WaitForEvent eventId timeout2 now2 order2
              (WaitForEvent eventId timeout now order s1).1).2 = none ∧
          (WaitForEvent eventId timeout2 now2 order2
              (WaitForEvent eventId timeout now order s1).1).1.m_current = none ∧
          ∃ e2, findEvent eventId (WaitForEvent eventId timeout2 now2 order2
              (WaitForEvent eventId timeout now order s1).1).1.m_events = some e2 ∧
            e2.m_signaled = false ∧
            e2.m_waiting = [(c, waitDeadline timeout2 now2)]) := by
  refine ⟨SetEvent_nil hfind hw, ?_, ?_, ?_⟩
  · rw [SetEvent_nil hfind hw]
    exact findEvent_storeEvent_same hfind
  · intro other hother
    rw [SetEvent_nil hfind hw]
    exact findEvent_storeEvent_other _ hother _
  · intro s1 c timeout now order hc hf1
    have hstate : WaitForEvent eventId timeout now order s1 =
        ({ s1 with m_events := storeEvent eventId { e with m_signaled := false } s1.m_events },
          some true) :=
      WaitForEvent_latched (e := { e with m_signaled := true }) timeout now order hc hf1 rfl
    have hf2 : findEvent eventId
        (storeEvent eventId { e with m_signaled := false } s1.m_events) =
          some { e with m_signaled := false } := findEvent_storeEvent_same hf1
    rw [hstate]
    refine ⟨rfl, rfl, hc, hf2, ?_, ?_, ?_⟩
    · intro other hother
      exact findEvent_storeEvent_other _ hother _
    · intro now2 order2
      exact WaitForEvent_poll (e := { e with m_signaled := false }) now2 order2 hc hf2 rfl
    · intro timeout2 now2 order2 hto
      have hpark := WaitForEvent_park (e := { e with m_signaled := false }) timeout2 now2 order2
        (s := { s1 with
          m_events := storeEvent eventId { e with m_signaled := false } s1.m_events })
        hc hf2 rfl hto
      dsimp only at hpark ⊢
      rw [hpark]
      refine ⟨rfl, rfl, _, findEvent_storeEvent_same hf2, rfl, ?_⟩
      simp [hw]

theorem C5_auto_reset_latch_witness :
    findEvent 100 demoRunning.m_events =
        some { m_signaled := false, m_waiting := [], m_timed := [] } ∧
      findEvent 100 (SetEvent 100 demoRunning).m_events =
        some { m_signaled := true, m_waiting := [], m_timed := [] } ∧
      (WaitForEvent 100 (-1) 0 [] (SetEvent 100 demoRunning)).2 = some true :=
  have h := C5_auto_reset_latch demoRunning 100
    { m_signaled := false, m_waiting := [], m_timed := [] } (by decide) rfl
  ⟨by decide, h.2.1, (h.2.2.2 (SetEvent 100 demoRunning) 3 (-1) 0 [] (by decide) (by decide)).1⟩

/-! ## C6: `DeleteEvent` -/

/-- C6 (delete wakes all).  `DeleteEvent` on a known event appends the task of every entry
of its waiting sequence to the ready queue, in order and each with value 1 (so that its
wait returns true), takes the event with its waiting sequence and timed index out of the
event table, and changes neither the entries already in the ready queue, the sleep map,
the current slot nor any other event. -/
theorem C6_delete_wakes_all (s : Scheduler) (eventId : EventID) (e : Event)
    (hfind : findEvent eventId s.m_events = some e)
    (hkeys : (s.m_events.map Prod.fst).Nodup) :
    (DeleteEvent eventId s).m_ready =
        s.m_ready ++ e.m_waiting.map (fun w => (w.1, (1 : Int))) ∧
      waitResult 1 = true ∧
      (DeleteEvent eventId s).m_events = eraseEvent eventId s.m_events ∧
      findEvent eventId (DeleteEvent eventId s).m_events = none ∧
      (∀ other, other ≠ eventId →
        findEvent other (DeleteEvent eventId s).m_events = findEvent other s.m_events) ∧
      (DeleteEvent eventId s).m_sleeping = s.m_sleeping ∧
      (DeleteEvent eventId s).m_current = s.m_current := by
  have hstate : DeleteEvent eventId s =
      { s with
        m_ready := s.m_ready ++ e.m_waiting.map (fun w => (w.1, (1 : Int)))
        m_events := eraseEvent eventId s.m_events } := by
    simp only [DeleteEvent, hfind]
  rw [hstate]
  refine ⟨rfl, by decide, rfl, findEvent_eraseEvent_same hkeys, ?_, rfl, rfl⟩
  intro other hother
  exact findEvent_eraseEvent_other hother _

theorem C6_delete_wakes_all_witness :
    findEvent 100 demoWaiting.m_events =
        some { m_signaled := false, m_waiting := [(1, 50000000), (2, 0)], m_timed := [(50000000, [1])] } ∧
      (demoWaiting.m_events.map Prod.fst).Nodup ∧
      (DeleteEvent 100 demoWaiting).m_ready = [(1, 1), (2, 1)] ∧
      findEvent 100 (DeleteEvent 100 demoWaiting).m_events = none :=
  have h := C6_delete_wakes_all demoWaiting 100
    { m_signaled := false, m_waiting := [(1, 50000000), (2, 0)], m_timed := [(50000000, [1])] }
    (by decide) (by decide)
  ⟨by decide, by decide, h.1, h.2.2.2.1⟩

/-! ## C7: sleepers -/

theorem mem_dropWhile_of_not {α : Type} {p : α → Bool} {x : α} :
    ∀ {l : List α}, x ∈ l → p x = false → x ∈ l.dropWhile p
  | [], h, _ => by simp at h
  | y :: rest, h, hp => by
    rw [List.dropWhile_cons]
    split
    · next hy =>
      rcases List.mem_cons.1 h with rfl | h
      · rw [hp] at hy; exact absurd hy (by simp)
      · exact mem_dropWhile_of_not h hp
    · exact h

theorem tickHost_sleeping (now : TimePoint) (s : Scheduler) (hc : s.m_current = none) :
    (tickHost now s).1.m_sleeping =
      s.m_sleeping.dropWhile (fun q => decide (q.1 ≤ now)) := by
  have h : (tickExpire now (tickWake now s)).m_sleeping =
      s.m_sleeping.dropWhile (fun q => decide (q.1 ≤ now)) := by
    simp [tickExpire, tickWake, wakeLoop_eq]
  unfold tickHost
  rw [hc]
  dsimp only
  split
  · exact h
  · exact h

theorem sleeping_step {s : Scheduler} {T : TimePoint} {c : TaskId} (h : (T, c) ∈ s.m_sleeping)
    (op : Op) (hop : ∀ n ∈ tickTimes [op], n < T) : (T, c) ∈ (step s op).m_sleeping := by
  cases op with
  | createTask t => exact h
  | createEvent eventId order =>
    simp only [step, CreateEvent]
    split <;> exact h
  | waitForEvent eventId timeout now order =>
    simp only [step, WaitForEvent]
    split
    · split
      · split
        · exact h
        · split <;> exact h
      · exact h
    · exact h
  | setEvent eventId =>
    simp only [step, SetEvent]
    split
    · split <;> exact h
    · exact h
  | deleteEvent eventId =>
    simp only [step, DeleteEvent]
    split <;> exact h
  | yield =>
    simp only [step, Yield]
    split <;> exact h
  | sleep duration now =>
    simp only [step, Sleep, Yield]
    split
    · split <;> exact h
    · split
      · exact (sleepEmplace_perm _ _ _).mem_iff.2 (List.mem_cons_of_mem _ h)
      · exact h
  | tick now =>
    have hlt : now < T := hop now (by simp [tickTimes])
    cases hc : s.m_current with
    | some cur => simpa [step, tickHost, hc] using h
    | none =>
      simp only [step]
      rw [tickHost_sleeping now s hc]
      exact mem_dropWhile_of_not h (by simpa using hlt)
  | taskLeave => exact h

theorem tickTimes_cons_subset (op : Op) (ops : List Op) :
    (∀ n ∈ tickTimes [op], n ∈ tickTimes (op :: ops)) ∧
      (∀ n ∈ tickTimes ops, n ∈ tickTimes (op :: ops)) := by
  cases op <;> simp [tickTimes]
  exact fun n hn => Or.inr hn

theorem sleeping_runOps {T : TimePoint} {c : TaskId} :
    ∀ (ops : List Op) {s : Scheduler}, (T, c) ∈ s.m_sleeping →
      (∀ n ∈ tickTimes ops, n < T) → (T, c) ∈ (runOps s ops).m_sleeping
  | [], _, h, _ => h
  | op :: ops, _, h, hop =>
    sleeping_runOps ops
      (sleeping_step h op (fun n hn => hop n ((tickTimes_cons_subset op ops).1 n hn)))
      (fun n hn => hop n ((tickTimes_cons_subset op ops).2 n hn))

theorem wrap64_of_representable {x : Int} (h : Representable x) : wrap64 x = x := by
  unfold Representable at h
  unfold wrap64
  omega

theorem clockAdd_of_representable {now : TimePoint} {d : Int}
    (hd : Representable (d * periodsPerMs)) (hs : Representable (now + d * periodsPerMs)) :
    clockAdd now d = now + d * periodsPerMs := by
  unfold clockAdd
  rw [wrap64_of_representable hd, wrap64_of_representable hs]

/-- Sleepers and ticks.  In a well-formed state, step 1 of a `Tick` at time `now` appends to
the ready queue, each with value 0, the tasks of exactly the entries of the sleep map whose
deadline is `≤ now`, and the sleep map keeps exactly the entries whose deadline is `> now`,
also at the jump of the tick.  After a running task `c` has called `Sleep d` at clock
reading `t0` with `d ≠ 0`, its entry is stored under `clockAdd t0 d` and, whatever
operations follow, as long as every tick among them has a time earlier than `clockAdd t0 d`
the entry of `c` stays in the sleep map and `c` is neither in the ready queue nor running. -/
theorem sleepers_wake_exactly (s : Scheduler) (now : TimePoint) (hinv : Inv s) :
    (tickWake now s).m_ready =
        s.m_ready ++ (s.m_sleeping.filter (fun q => decide (q.1 ≤ now))).map
          (fun q => (q.2, (0 : Int))) ∧
      (tickWake now s).m_sleeping = s.m_sleeping.filter (fun q => decide (now < q.1)) ∧
      (s.m_current = none →
        (tickHost now s).1.m_sleeping = s.m_sleeping.filter (fun q => decide (now < q.1))) ∧
      ∀ (c : TaskId) (d : Int) (t0 : TimePoint) (ops : List Op),
        s.m_current = some c → d ≠ 0 → Admissible (Sleep d t0 s) ops →
        (∀ n ∈ tickTimes ops, n < clockAdd t0 d) →
        (clockAdd t0 d, c) ∈ (Sleep d t0 s).m_sleeping ∧
        (clockAdd t0 d, c) ∈ (runOps (Sleep d t0 s) ops).m_sleeping ∧
        c ∉ (runOps (Sleep d t0 s) ops).m_ready.map Prod.fst ∧
        (runOps (Sleep d t0 s) ops).m_current ≠ some c := by
  have hsorted := hinv.2.2.2
  refine ⟨?_, ?_, ?_, ?_⟩
  · simp only [tickWake, wakeLoop_eq]
    rw [takeWhile_eq_filter_of_sorted now _ hsorted]
  · simp only [tickWake, wakeLoop_eq]
    exact dropWhile_eq_filter_of_sorted now _ hsorted
  · intro hc
    rw [tickHost_sleeping now s hc]
    exact dropWhile_eq_filter_of_sorted now _ hsorted
  · intro c d t0 ops hc hd hadm hticks
    have hmem : (clockAdd t0 d, c) ∈ (Sleep d t0 s).m_sleeping := by
      simp only [Sleep, hd, if_false, hc]
      exact (sleepEmplace_perm _ _ _).mem_iff.2 (List.mem_cons_self _ _)
    have hfin := sleeping_runOps ops hmem hticks
    have hinv' := Inv_runOps ops (Inv_Sleep hinv d t0) hadm
    have hnd := hinv'.1
    have hsnd : c ∈ (runOps (Sleep d t0 s) ops).m_sleeping.map Prod.snd :=
      List.mem_map.2 ⟨(clockAdd t0 d, c), hfin, rfl⟩
    refine ⟨hmem, hfin, ?_, ?_⟩
    · intro hin
      simp only [parked] at hnd
      have h1 := (List.nodup_append.1 hnd).2.1
      exact (List.nodup_append.1 h1).2.2 hin (List.mem_append_left _ hsnd)
    · intro hcur
      simp only [parked, hcur, Option.toList, List.singleton_append, List.nodup_cons] at hnd
      exact hnd.1 (List.mem_append_right _ (List.mem_append_left _ hsnd))

/-- Sleep is a lower bound while the clock arithmetic does not overflow: when `d`
milliseconds and the deadline `t0 + d * periodsPerMs` are representable in the 64-bit tick
count of the clock, a task that called `Sleep d` at `t0` stays in the sleep map, out of the
ready queue and out of the current slot, as long as every tick has a time earlier than
`t0 + d * periodsPerMs`. -/
theorem sleep_lower_bound_in_range (s : Scheduler) (hinv : Inv s) (c : TaskId) (d : Int)
    (t0 : TimePoint) (ops : List Op) (hc : s.m_current = some c) (hd : d ≠ 0)
    (hrd : Representable (d * periodsPerMs)) (hrs : Representable (t0 + d * periodsPerMs))
    (hadm : Admissible (Sleep d t0 s) ops)
    (hticks : ∀ n ∈ tickTimes ops, n < t0 + d * periodsPerMs) :
    (t0 + d * periodsPerMs, c) ∈ (runOps (Sleep d t0 s) ops).m_sleeping ∧
      c ∉ (runOps (Sleep d t0 s) ops).m_ready.map Prod.fst ∧
      (runOps (Sleep d t0 s) ops).m_current ≠ some c := by
  have h := (sleepers_wake_exactly s 0 hinv).2.2.2 c d t0 ops hc hd hadm
    (by rw [clockAdd_of_representable hrd hrs]; exact hticks)
  rw [clockAdd_of_representable hrd hrs] at h
  exact h.2

theorem sleep_lower_bound_in_range_example :
    (5000000, 3) ∈ (runOps (Sleep 5 0 demoRunning)
        [Op.tick 1000000, Op.createTask 4, Op.tick 4000000, Op.yield]).m_sleeping :=
  (sleep_lower_bound_in_range demoRunning (by decide) 3 5 0
    [Op.tick 1000000, Op.createTask 4, Op.tick 4000000, Op.yield] (by decide) (by decide)
    (by decide) (by decide) (by decide) (by decide)).1

/-- C7 (code bug: a sleeper is readied before its time when the deadline overflows).
Task 3 runs in `demoRunning` and calls `Sleep` with the largest duration,
`milliseconds::max()`, at clock reading 1000000000 (one second).  The sum
`now() + duration` of Scheduler.cpp line 198 wraps in the signed 64-bit nanosecond count of
the clock: the task is stored in the sleep map under 999000000, a deadline one millisecond
in the past.  The next host `Tick`, one millisecond later at 1001000000, is far earlier than
`t + d`, and yet its step 1 moves the task to the ready queue with value 0 and the tick
selects it. -/
theorem C7_sleep_overflow_wakes_early :
    demoRunning.m_current = some 3 ∧
      (Sleep 9223372036854775807 1000000000 demoRunning).m_sleeping = [(999000000, 3)] ∧
      (1001000000 : Int) < 1000000000 + 9223372036854775807 * periodsPerMs ∧
      (tickWake 1001000000 (Sleep 9223372036854775807 1000000000 demoRunning)).m_ready =
        [(3, 0)] ∧
      (tickWake 1001000000 (Sleep 9223372036854775807 1000000000 demoRunning)).m_sleeping =
        [] ∧
      tickSelected 1001000000 (Sleep 9223372036854775807 1000000000 demoRunning) =
        some 3 := by
  decide

/-! ## C8: timed waits -/

theorem timedOut_eq_expiredTasks (now : TimePoint) {tm : List (TimePoint × Bucket)}
    (h : (tm.map Prod.fst).Pairwise (· < ·)) : timedOut now tm = expiredTasks now tm := by
  unfold timedOut expiredTasks
  rw [takeWhile_eq_filter_of_sorted now tm (pairwise_le_of_lt h)]

theorem flatMap_timedOut (now : TimePoint) :
    ∀ l : List (EventID × Event), (∀ p ∈ l, EventWF p.2) →
      l.flatMap (fun p => timedOut now p.2.m_timed) =
        l.flatMap (fun p => expiredTasks now p.2.m_timed)
  | [], _ => rfl
  | p :: rest, h => by
    simp only [List.flatMap_cons]
    rw [timedOut_eq_expiredTasks now (h p (List.mem_cons_self _ _)).2.1,
      flatMap_timedOut now rest (fun q hq => h q (List.mem_cons_of_mem _ hq))]

theorem expired_eq (now : TimePoint) {e : Event} (h : EventWF e) :
    expired now e =
      { m_signaled := e.m_signaled
        m_waiting := e.m_waiting.filter (fun w => decide (w.1 ∉ expiredTasks now e.m_timed))
        m_timed := e.m_timed.filter (fun kb => decide (now < kb.1)) } := by
  have h1 := expired_waiting now h
  rw [timedOut_eq_expiredTasks now h.2.1] at h1
  have h2 : (expired now e).m_timed = e.m_timed.filter (fun kb => decide (now < kb.1)) :=
    dropWhile_eq_filter_of_sorted now _ (pairwise_le_of_lt h.2.1)
  have h3 : (expired now e).m_signaled = e.m_signaled := rfl
  cases hx : expired now e with
  | mk sg w tm =>
    rw [hx] at h1 h2 h3
    simp only at h1 h2 h3
    rw [h1, h2, h3]

theorem mem_expiredTasks_iff (now : TimePoint) {e : Event} (h : EventWF e)
    {w : TaskId × TimePoint} (hw : w ∈ e.m_waiting) :
    w.1 ∈ expiredTasks now e.m_timed ↔ (w.1 ∈ timedTasks e.m_timed ∧ w.2 ≤ now) := by
  obtain ⟨t, tp⟩ := w
  simp only [expiredTasks, mem_timedTasks, List.mem_filter, decide_eq_true_eq]
  constructor
  · rintro ⟨kb, ⟨hkb, hle⟩, ht⟩
    have := deadline_unique h.1 (h.2.2.2.2.1 kb hkb t ht) hw
    exact ⟨⟨kb, hkb, ht⟩, this ▸ hle⟩
  · rintro ⟨⟨kb, hkb, ht⟩, hle⟩
    have := deadline_unique h.1 (h.2.2.2.2.1 kb hkb t ht) hw
    exact ⟨kb, ⟨hkb, this ▸ hle⟩, ht⟩

theorem tickHost_events (now : TimePoint) (s : Scheduler) (hc : s.m_current = none) :
    (tickHost now s).1.m_events = (tickExpire now s).m_events := by
  have h : (tickExpire now (tickWake now s)).m_events = (tickExpire now s).m_events := by
    simp [tickExpire, tickWake, eventsLoop_eq]
  unfold tickHost
  rw [hc]
  dsimp only
  split
  · exact h
  · exact h

/-- C8 (wait timeout).  In a well-formed state, step 2 of a `Tick` at time `now` appends to
the ready queue, each with value 0 (so that its wait returns false), the tasks recorded
in the buckets with a deadline `≤ now` of the timed index of every event, in table order;
for every event it removes from the waiting sequence exactly the entries of those
tasks, which are the waiters recorded in the timed index whose deadline is `≤ now`, keeps
the other waiters in their order, and keeps exactly the buckets with a deadline `> now`;
the latch is unchanged.  When the only waiter of an event times out, the waiting
sequence and the timed index of the event are empty afterwards. -/
theorem C8_wait_timeout (s : Scheduler) (now : TimePoint) (hinv : Inv s) :
    (tickExpire now (tickWake now s)).m_ready =
        (tickWake now s).m_ready ++
          (s.m_events.flatMap (fun p => expiredTasks now p.2.m_timed)).map
            (fun t => (t, (0 : Int))) ∧
      waitResult 0 = false ∧
      (s.m_current = none → (tickHost now s).1.m_events = (tickExpire now s).m_events) ∧
      ∀ (eventId : EventID) (e : Event), findEvent eventId s.m_events = some e →
        findEvent eventId (tickExpire now s).m_events =
          some
            { m_signaled := e.m_signaled
              m_waiting :=
                e.m_waiting.filter (fun w => decide (w.1 ∉ expiredTasks now e.m_timed))
              m_timed := e.m_timed.filter (fun kb => decide (now < kb.1)) } ∧
        (∀ w ∈ e.m_waiting,
          w.1 ∈ expiredTasks now e.m_timed ↔ (w.1 ∈ timedTasks e.m_timed ∧ w.2 ≤ now)) ∧
        (∀ (t : TaskId) (tp : TimePoint), e.m_waiting = [(t, tp)] → e.m_timed = [(tp, [t])] →
          tp ≤ now →
          findEvent eventId (tickExpire now s).m_events =
            some { m_signaled := e.m_signaled, m_waiting := [], m_timed := [] }) := by
  refine ⟨?_, by decide, tickHost_events now s, ?_⟩
  · have hwf : ∀ p ∈ (tickWake now s).m_events, EventWF p.2 := hinv.2.1
    have h := flatMap_timedOut now (tickWake now s).m_events hwf
    simp only [tickExpire, eventsLoop_eq]
    rw [h]
    rfl
  · intro eventId e hfind
    have hwf := hinv.2.1 _ (findEvent_mem hfind)
    have hf : findEvent eventId (tickExpire now s).m_events = some (expired now e) := by
      simp only [tickExpire, eventsLoop_eq, findEvent_map_expired, hfind, Option.map_some']
    refine ⟨?_, fun w hw => mem_expiredTasks_iff now hwf hw, ?_⟩
    · rw [hf, expired_eq now hwf]
    · intro t tp hw htm hle
      rw [hf, expired_eq now hwf, hw, htm]
      have hnlt : ¬ now < tp := not_lt.2 hle
      simp [expiredTasks, timedTasks, hle, hnlt]

theorem C8_wait_timeout_witness :
    Inv demoTimed ∧
      findEvent 100 demoTimed.m_events =
        some { m_signaled := false, m_waiting := [(1, 50000000), (2, 80000001)],
               m_timed := [(50000000, [1]), (80000001, [2])] } ∧
      findEvent 100 (tickExpire 60000000 demoTimed).m_events =
        some { m_signaled := false, m_waiting := [(2, 80000001)], m_timed := [(80000001, [2])] } :=
  ⟨by decide, by decide,
    ((C8_wait_timeout demoTimed 60000000 (by decide)).2.2.2 100
      { m_signaled := false, m_waiting := [(1, 50000000), (2, 80000001)],
        m_timed := [(50000000, [1]), (80000001, [2])] } (by decide)).1⟩

/-! ## C9: waiting without a timeout -/

theorem findEvent_CreateEvent_other {eventId other : EventID} (order : List EventID)
    (e0 : Event) (hne : other ≠ eventId) (l : List (EventID × Event)) :
    findEvent other (rehash order Prod.fst ((eventId, e0) :: l)) = findEvent other l := by
  rw [findEvent_rehash]
  simp [findEvent, Ne.symm hne]

theorem tickHost_ready (now : TimePoint) (s : Scheduler) (hc : s.m_current = none) :
    popped s (Op.tick now) ++ (tickHost now s).1.m_ready =
      (tickExpire now (tickWake now s)).m_ready ∧
    popped s (Op.tick now) = (tickExpire now (tickWake now s)).m_ready.take 1 ∧
    (tickHost now s).1.m_ready = (tickExpire now (tickWake now s)).m_ready.tail := by
  cases hr : (tickExpire now (tickWake now s)).m_ready with
  | nil => simp [popped, tickHost, hc, hr]
  | cons p rest =>
    obtain ⟨t, x⟩ := p
    simp [popped, tickHost, hc, hr]

theorem tickSteps_ready (now : TimePoint) (s : Scheduler) :
    (tickExpire now (tickWake now s)).m_ready =
      s.m_ready ++
        ((s.m_sleeping.takeWhile (fun q => decide (q.1 ≤ now))).map (fun q => (q.2, (0 : Int))) ++
          (s.m_events.flatMap (fun p => timedOut now p.2.m_timed)).map
            (fun t => (t, (0 : Int)))) := by
  simp [tickExpire, tickWake, eventsLoop_eq, wakeLoop_eq, List.append_assoc]

theorem ready_step (s : Scheduler) (op : Op) :
    popped s op ++ (step s op).m_ready = s.m_ready ++ readied s op := by
  cases op with
  | createTask t => rfl
  | createEvent eventId order =>
    simp only [step, CreateEvent, popped, readied, List.nil_append, List.append_nil]
    split <;> rfl
  | waitForEvent eventId timeout now order =>
    simp only [step, WaitForEvent, popped, readied, List.nil_append, List.append_nil]
    split
    · split
      · split
        · rfl
        · split <;> rfl
      · rfl
    · rfl
  | setEvent eventId =>
    simp only [step, SetEvent, popped, readied, List.nil_append]
    cases hf : findEvent eventId s.m_events with
    | none => simp
    | some e =>
      simp only []
      split <;> simp
  | deleteEvent eventId =>
    simp only [step, DeleteEvent, popped, readied, List.nil_append]
    cases hf : findEvent eventId s.m_events with
    | none => simp
    | some e => simp
  | yield =>
    simp only [step, Yield, popped, readied, List.nil_append]
    cases hc : s.m_current with
    | none => simp
    | some cur => simp
  | sleep duration now =>
    simp only [step, Sleep, Yield, popped, readied, List.nil_append]
    cases hc : s.m_current with
    | none => simp
    | some cur =>
      by_cases hd : duration = 0
      · simp [hd]
      · simp [hd]
  | tick now =>
    cases hc : s.m_current with
    | some cur => simp [step, popped, readied, tickHost, hc]
    | none =>
      simp only [step, readied, hc]
      rw [(tickHost_ready now s hc).1, tickSteps_ready]
  | taskLeave => simp [step, popped, readied, TaskLeave]

theorem ready_runOps : ∀ (ops : List Op) (s : Scheduler),
    dispatched s ops ++ (runOps s ops).m_ready = s.m_ready ++ readiedAlong s ops
  | [], s => by simp [dispatched, runOps, readiedAlong]
  | op :: ops, s => by
    have h1 := ready_step s op
    have h2 := ready_runOps ops (step s op)
    have h3 : runOps s (op :: ops) = runOps (step s op) ops := rfl
    rw [h3]
    simp only [dispatched, readiedAlong, List.append_assoc]
    rw [h2, ← List.append_assoc, h1, List.append_assoc]

/-- C10 (FIFO ready queue).  Every operation leaves the ready queue equal to the former
queue followed by the entries it makes ready, minus the entry popped by a tick; the
entries already queued keep their tasks, values and order.  What each operation appends
is stated: `CreateTask` the new task with value 0; `Yield` the running task with value 0;
`SetEvent` the first waiter of the event with value 1; `DeleteEvent` all the waiters of
the event, in their order, with value 1; step 1 of `Tick` the sleepers it takes out of the
sleep map, in key order, with value 0; step 2 of `Tick` the timed waiters of the buckets
it visits, event after event, with value 0; in a well-formed state these are the sleepers
and the timed waiters whose deadline is `≤ now`.  Step 3 of `Tick` pops the head and
nothing else.  Along any sequence of operations, the entries popped by the ticks followed
by the final queue are the initial queue followed by the entries made ready, in the order
in which they were made ready; so the `i`-th entry of a queue is the one popped by the
`i`-th tick that pops, and of two queued entries the earlier is popped by the earlier
tick. -/
theorem C10_fifo_ready (s : Scheduler) :
    (∀ op : Op, popped s op ++ (step s op).m_ready = s.m_ready ++ readied s op) ∧
      (∀ t : TaskId, (CreateTask t s).m_ready = s.m_ready ++ [(t, 0)]) ∧
      (∀ cur : TaskId, s.m_current = some cur →
        (Yield s).m_ready = s.m_ready ++ [(cur, 0)]) ∧
      (∀ (eventId : EventID) (e : Event) (t : TaskId) (tp : TimePoint)
          (rest : List (TaskId × TimePoint)),
        findEvent eventId s.m_events = some e → e.m_waiting = (t, tp) :: rest →
        (SetEvent eventId s).m_ready = s.m_ready ++ [(t, 1)]) ∧
      (∀ (eventId : EventID) (e : Event), findEvent eventId s.m_events = some e →
        (DeleteEvent eventId s).m_ready =
          s.m_ready ++ e.m_waiting.map (fun w => (w.1, (1 : Int)))) ∧
      (∀ now : TimePoint,
        (tickWake now s).m_ready =
          s.m_ready ++ (s.m_sleeping.takeWhile (fun q => decide (q.1 ≤ now))).map
            (fun q => (q.2, (0 : Int))) ∧
        s.m_sleeping =
          s.m_sleeping.takeWhile (fun q => decide (q.1 ≤ now)) ++ (tickWake now s).m_sleeping) ∧
      (∀ now : TimePoint,
        (tickExpire now s).m_ready =
          s.m_ready ++ (s.m_events.flatMap (fun p => timedOut now p.2.m_timed)).map
            (fun t => (t, (0 : Int)))) ∧
      (Inv s → ∀ now : TimePoint,
        s.m_sleeping.takeWhile (fun q => decide (q.1 ≤ now)) =
          s.m_sleeping.filter (fun q => decide (q.1 ≤ now)) ∧
        s.m_events.flatMap (fun p => timedOut now p.2.m_timed) =
          s.m_events.flatMap (fun p => expiredTasks now p.2.m_timed)) ∧
      (∀ now : TimePoint, s.m_current = none →
        popped s (Op.tick now) = (tickExpire now (tickWake now s)).m_ready.take 1 ∧
        (tickHost now s).1.m_ready = (tickExpire now (tickWake now s)).m_ready.tail) ∧
      (∀ ops : List Op,
        dispatched s ops ++ (runOps s ops).m_ready = s.m_ready ++ readiedAlong s ops) ∧
      (∀ (ops : List Op) (i : Nat), i < s.m_ready.length → i < (dispatched s ops).length →
        (dispatched s ops)[i]? = s.m_ready[i]?) := by
  refine ⟨ready_step s, fun _ => rfl, ?_, ?_, ?_, ?_, ?_, ?_, ?_, fun ops => ready_runOps ops s,
    ?_⟩
  · intro cur hc
    simp only [Yield, hc]
  · intro eventId e t tp rest hf hw
    simp only [SetEvent, hf, hw]
  · intro eventId e hf
    simp only [DeleteEvent, hf]
  · intro now
    simp only [tickWake, wakeLoop_eq]
    exact ⟨trivial, (List.takeWhile_append_dropWhile _ _).symm⟩
  · intro now
    simp only [tickExpire, eventsLoop_eq]
  · intro hinv now
    exact ⟨takeWhile_eq_filter_of_sorted now _ hinv.2.2.2,
      flatMap_timedOut now s.m_events hinv.2.1⟩
  · intro now hc
    exact (tickHost_ready now s hc).2
  · intro ops i hi hd
    have h := ready_runOps ops s
    have h1 := congrArg (fun l => l[i]?) h
    simp only at h1
    rw [List.getElem?_append_left hd, List.getElem?_append_left hi] at h1
    exact h1

/-! ## C15 and C16: ticks that do nothing -/

theorem takeWhile_dropWhile_of_all_false {α : Type} {p : α → Bool} :
    ∀ {l : List α}, (∀ x ∈ l, p x = false) → l.takeWhile p = [] ∧ l.dropWhile p = l
  | [], _ => ⟨rfl, rfl⟩
  | x :: rest, h => by
    have hx := h x (List.mem_cons_self _ _)
    simp [List.takeWhile, List.dropWhile, hx]

theorem tickWake_idle {now : TimePoint} {s : Scheduler} (hsl : ∀ q ∈ s.m_sleeping, now < q.1) :
    tickWake now s = s := by
  have h := takeWhile_dropWhile_of_all_false (p := fun q : TimePoint × TaskId => decide (q.1 ≤ now))
    (l := s.m_sleeping) (fun q hq => by simpa using hsl q hq)
  simp only [tickWake, wakeLoop_eq, h.1, h.2, List.map_nil, List.append_nil]

theorem expired_idle {now : TimePoint} {e : Event} (h : ∀ kb ∈ e.m_timed, now < kb.1) :
    expired now e = e := by
  have h1 := takeWhile_dropWhile_of_all_false (p := fun kb : TimePoint × Bucket => decide (kb.1 ≤ now))
    (l := e.m_timed) (fun kb hkb => by simpa using h kb hkb)
  simp only [expired, timedOut, h1.1, h1.2, timedTasks, List.flatMap_nil, eraseNodes,
    List.foldl_nil]

theorem tickExpire_idle {now : TimePoint} {s : Scheduler}
    (hev : ∀ p ∈ s.m_events, ∀ kb ∈ p.2.m_timed, now < kb.1) : tickExpire now s = s := by
  have h1 : s.m_events.map (fun p => (p.1, expired now p.2)) = s.m_events := by
    have : ∀ p ∈ s.m_events, (fun p : EventID × Event => (p.1, expired now p.2)) p = id p := by
      intro p hp
      simp only [id, expired_idle (hev p hp)]
    rw [List.map_congr_left this, List.map_id]
  have h2 : s.m_events.flatMap (fun p => timedOut now p.2.m_timed) = [] := by
    rw [List.flatMap_eq_nil_iff]
    intro p hp
    have h3 := takeWhile_dropWhile_of_all_false
      (p := fun kb : TimePoint × Bucket => decide (kb.1 ≤ now))
      (l := p.2.m_timed) (fun kb hkb => by simpa using hev p hp kb hkb)
    simp only [timedOut, h3.1, timedTasks, List.flatMap_nil]
  simp only [tickExpire, eventsLoop_eq, h1, h2, List.map_nil, List.append_nil]

theorem tickHost_idle {now : TimePoint} {s : Scheduler} (hc : s.m_current = none)
    (hr : s.m_ready = []) (hsl : ∀ q ∈ s.m_sleeping, now < q.1)
    (hev : ∀ p ∈ s.m_events, ∀ kb ∈ p.2.m_timed, now < kb.1) :
    tickHost now s = (s, none) := by
  simp only [tickHost, hc, tickWake_idle hsl, tickExpire_idle hev, hr]

/-- C15 (idle tick).  With an empty current slot, an empty ready queue, no entry of the
sleep map with a deadline `≤ now` and no bucket with a deadline `≤ now` in the timed index
of any event, `Tick` at time `now` returns the state unchanged whatever the tasks would
do, and it does not jump into any task. -/
theorem C15_idle_tick (s : Scheduler) (now : TimePoint) (hc : s.m_current = none)
    (hr : s.m_ready = []) (hsl : ∀ q ∈ s.m_sleeping, now < q.1)
    (hev : ∀ p ∈ s.m_events, ∀ kb ∈ p.2.m_timed, now < kb.1) :
    (∀ body : Scheduler → Int → Scheduler × Int, Tick now body s = s) ∧
      tickHost now s = (s, none) ∧ tickSelected now s = none := by
  have h : tickHost now s = (s, none) := tickHost_idle hc hr hsl hev
  refine ⟨fun body => ?_, h, ?_⟩
  · simp only [Tick, h]
  · simp only [tickSelected, h]

theorem C15_idle_tick_witness :
    demoIdle.m_current = none ∧ demoIdle.m_ready = [] ∧
      Tick 49000000 (fun s _ => (Yield s, 0)) demoIdle = demoIdle :=
  ⟨by decide, by decide,
    (C15_idle_tick demoIdle 49000000 (by decide) (by decide) (by decide) (by decide)).1 _⟩

/-- C16 (reentrant tick rejected).  When a task is running (the current slot is not
empty), `Tick` returns the state unchanged, whatever the time, the expired timers and the
ready queue: it does not reach steps 1 to 3 and does not jump. -/
theorem C16_reentrant_tick (s : Scheduler) (cur : TaskId) (hc : s.m_current = some cur) :
    ∀ (now : TimePoint),
      (∀ body : Scheduler → Int → Scheduler × Int, Tick now body s = s) ∧
      tickHost now s = (s, none) ∧ tickSelected now s = none ∧ step s (Op.tick now) = s := by
  intro now
  have h : tickHost now s = (s, none) := by
    simp only [tickHost, hc]
  refine ⟨fun body => ?_, h, ?_, ?_⟩
  · simp only [Tick, h]
  · simp only [tickSelected, h]
  · simp only [step, h]

theorem C16_reentrant_tick_witness :
    demoBusy.m_current = some 2 ∧ demoBusy.m_sleeping = [(5000000, 1)] ∧
      demoBusy.m_ready = [(3, 0)] ∧
      Tick 1000000000 (fun s _ => (Yield s, 0)) demoBusy = demoBusy :=
  ⟨by decide, by decide, by decide, (C16_reentrant_tick demoBusy 2 (by decide) 1000000000).1 _⟩

/-! ## C17 and C18: calls that do nothing -/

/-- C17 (`WaitForEvent` outside a task or on an unknown event).  When the current slot is
empty, or when the identifier is not in the event table, `WaitForEvent` returns true and
leaves the state unchanged, for every timeout; so a call from the main context on a
latched event returns true and the latch stays raised. -/
theorem C17_wait_benign (s : Scheduler) (eventId : EventID) (timeout : Int) (now : TimePoint)
    (order : List TaskId) (h : s.m_current = none ∨ findEvent eventId s.m_events = none) :
    WaitForEvent eventId timeout now order s = (s, some true) ∧
      (∀ e, s.m_current = none → findEvent eventId s.m_events = some e → e.m_signaled = true →
        findEvent eventId (WaitForEvent eventId timeout now order s).1.m_events = some e) := by
  have hres : WaitForEvent eventId timeout now order s = (s, some true) := by
    rcases h with h | h
    · simp only [WaitForEvent, h]
    · cases hc : s.m_current with
      | none => simp only [WaitForEvent, hc]
      | some cur => simp only [WaitForEvent, hc, h]
  refine ⟨hres, ?_⟩
  intro e _ hfind _
  rw [hres]
  exact hfind

theorem C17_wait_benign_witness :
    demoLatched.m_current = none ∧
      findEvent 100 demoLatched.m_events =
        some { m_signaled := true, m_waiting := [], m_timed := [] } ∧
      WaitForEvent 100 (-1) 0 [] demoLatched = (demoLatched, some true) :=
  ⟨by decide, by decide, (C17_wait_benign demoLatched 100 (-1) 0 [] (Or.inl (by decide))).1⟩

/-- C18 (benign failures are no-ops).  `SetEvent` and `DeleteEvent` with an identifier that
is not in the event table leave the state unchanged, in particular after the event has
been deleted; `Yield` and `Sleep` with any duration leave the state unchanged when the
current slot is empty. -/
theorem C18_benign_noops (s : Scheduler) :
    (∀ eventId, findEvent eventId s.m_events = none →
        SetEvent eventId s = s ∧ DeleteEvent eventId s = s) ∧
      (∀ eventId, (s.m_events.map Prod.fst).Nodup →
        SetEvent eventId (DeleteEvent eventId s) = DeleteEvent eventId s ∧
        DeleteEvent eventId (DeleteEvent eventId s) = DeleteEvent eventId s) ∧
      (s.m_current = none →
        Yield s = s ∧ ∀ (duration : Int) (now : TimePoint), Sleep duration now s = s) := by
  have h1 : ∀ (s : Scheduler) (eventId : EventID), findEvent eventId s.m_events = none →
      SetEvent eventId s = s ∧ DeleteEvent eventId s = s := by
    intro s eventId h
    constructor
    · simp only [SetEvent, h]
    · simp only [DeleteEvent, h]
  refine ⟨h1 s, ?_, ?_⟩
  · intro eventId hkeys
    apply h1
    cases hf : findEvent eventId s.m_events with
    | none => simp only [DeleteEvent, hf]
    | some e =>
      simp only [DeleteEvent, hf]
      exact findEvent_eraseEvent_same hkeys
  · intro hc
    have hy : Yield s = s := by simp only [Yield, hc]
    refine ⟨hy, ?_⟩
    intro duration now
    by_cases hd : duration = 0
    · simp only [Sleep, hd, if_true, hy]
    · simp only [Sleep, hd, if_false, hc]

theorem C18_benign_noops_witness :
    findEvent 7 demoLatched.m_events = none ∧ demoLatched.m_current = none ∧
      SetEvent 7 demoLatched = demoLatched ∧ Sleep 30 0 demoLatched = demoLatched :=
  have h := C18_benign_noops demoLatched
  ⟨by decide, by decide, (h.1 7 (by decide)).1, (h.2.2 (by decide)).2 30 0⟩

/-! ## C20: `Sleep` inside a task -/

theorem sleepEmplace_eq (tp : TimePoint) (t : TaskId) :
    ∀ l : List (TimePoint × TaskId),
      sleepEmplace tp t l =
        l.takeWhile (fun q => decide (q.1 ≤ tp)) ++
          (tp, t) :: l.dropWhile (fun q => decide (q.1 ≤ tp))
  | [] => rfl
  | (k, u) :: rest => by
    unfold sleepEmplace
    split
    · next hk => simp [List.takeWhile, List.dropWhile, hk, sleepEmplace_eq tp t rest]
    · next hk => simp [List.takeWhile, List.dropWhile, hk]

/-- The state after `Sleep` inside a task.  `Sleep 0` returns the state that `Yield`
returns: the current task at the end of the ready queue with value 0 and an empty current
slot.  For a duration `d ≠ 0`, `Sleep d` at clock reading `now` empties the current slot
and puts the task into the sleep map under the key `clockAdd now d`, after the entries
whose key is not later; the other entries of the sleep map keep their order, and the ready
queue and the event table are unchanged. -/
theorem sleep_in_task_state (s : Scheduler) (cur : TaskId) (now : TimePoint)
    (hc : s.m_current = some cur) :
    Sleep 0 now s = Yield s ∧
      Yield s = { s with m_current := none, m_ready := s.m_ready ++ [(cur, 0)] } ∧
      ∀ d : Int, d ≠ 0 →
        (Sleep d now s).m_current = none ∧
        (Sleep d now s).m_ready = s.m_ready ∧
        (Sleep d now s).m_events = s.m_events ∧
        (Sleep d now s).m_sleeping =
          s.m_sleeping.takeWhile (fun q => decide (q.1 ≤ clockAdd now d)) ++
            (clockAdd now d, cur) ::
              s.m_sleeping.dropWhile (fun q => decide (q.1 ≤ clockAdd now d)) ∧
        (clockAdd now d, cur) ∈ (Sleep d now s).m_sleeping ∧
        ((Sleep d now s).m_sleeping).Perm ((clockAdd now d, cur) :: s.m_sleeping) := by
  refine ⟨by simp only [Sleep, if_true], by simp only [Yield, hc], ?_⟩
  intro d hd
  have hstate : Sleep d now s =
      { s with m_current := none
               m_sleeping := sleepEmplace (clockAdd now d) cur s.m_sleeping } := by
    simp only [Sleep, hd, if_false, hc]
  rw [hstate]
  refine ⟨rfl, rfl, rfl, sleepEmplace_eq _ _ _, ?_, sleepEmplace_perm _ _ _⟩
  exact (sleepEmplace_perm _ _ _).mem_iff.2 (List.mem_cons_self _ _)

/-- The deadline of `Sleep` while the clock arithmetic does not overflow: when `d`
milliseconds and `now + d * periodsPerMs` are representable in the 64-bit tick count of the
clock, `Sleep d` with `d ≠ 0` stores the current task under the deadline
`now + d * periodsPerMs`, and changes neither the ready queue nor the events. -/
theorem sleep_in_task_in_range (s : Scheduler) (cur : TaskId) (now : TimePoint) (d : Int)
    (hc : s.m_current = some cur) (hd : d ≠ 0)
    (hrd : Representable (d * periodsPerMs)) (hrs : Representable (now + d * periodsPerMs)) :
    (Sleep d now s).m_current = none ∧
      (Sleep d now s).m_ready = s.m_ready ∧
      (Sleep d now s).m_events = s.m_events ∧
      (now + d * periodsPerMs, cur) ∈ (Sleep d now s).m_sleeping ∧
      ((Sleep d now s).m_sleeping).Perm ((now + d * periodsPerMs, cur) :: s.m_sleeping) := by
  have h := (sleep_in_task_state s cur now hc).2.2 d hd
  rw [clockAdd_of_representable hrd hrs] at h
  exact ⟨h.1, h.2.1, h.2.2.1, h.2.2.2.2.1, h.2.2.2.2.2⟩

theorem sleep_in_task_in_range_example :
    demoBusy.m_current = some 2 ∧
      (3000000 + 1 * periodsPerMs, 2) ∈ (Sleep 1 3000000 demoBusy).m_sleeping ∧
      (Sleep 1 3000000 demoBusy).m_sleeping = [(4000000, 2), (5000000, 1)] :=
  ⟨by decide,
    (sleep_in_task_in_range demoBusy 2 3000000 1 (by decide) (by decide) (by decide)
      (by decide)).2.2.2.1,
    by decide⟩

/-- C20 (code bug: the key under which `Sleep` stores the task is not `now + d` when the sum
overflows).  Task 2 runs in `demoBusy`, where task 1 sleeps until 5000000, and calls
`Sleep` with the largest duration, `milliseconds::max()`, at clock reading 1000000000.  The
current slot is emptied and the ready queue and the events are unchanged, as claimed, but
the sum `now() + duration` of Scheduler.cpp line 198 wraps in the signed 64-bit nanosecond
count of the clock: the sleep map holds the task under 999000000, which is earlier than the
clock reading of the call, and holds no entry under `now + d`.  The other half of the
claim holds at this input: `Sleep 0` returns the state of `Yield`. -/
theorem C20_sleep_deadline_overflows :
    demoBusy.m_current = some 2 ∧
      (Sleep 9223372036854775807 1000000000 demoBusy).m_current = none ∧
      (Sleep 9223372036854775807 1000000000 demoBusy).m_ready = demoBusy.m_ready ∧
      (Sleep 9223372036854775807 1000000000 demoBusy).m_events = demoBusy.m_events ∧
      (Sleep 9223372036854775807 1000000000 demoBusy).m_sleeping =
        [(5000000, 1), (999000000, 2)] ∧
      (1000000000 + 9223372036854775807 * periodsPerMs, 2) ∉
        (Sleep 9223372036854775807 1000000000 demoBusy).m_sleeping ∧
      (999000000 : Int) < 1000000000 ∧
      Sleep 0 1000000000 demoBusy = Yield demoBusy := by
  decide

/-! ## C13: a wait that parks -/

theorem mem_timedEmplace_iff (tp : TimePoint) (t : TaskId) (order : List TaskId) (k : TimePoint)
    (u : TaskId) :
    ∀ tm : List (TimePoint × Bucket),
      (∃ b, (k, b) ∈ timedEmplace tp t order tm ∧ u ∈ b) ↔
        ((k = tp ∧ u = t) ∨ ∃ b, (k, b) ∈ tm ∧ u ∈ b)
  | [] => by
    simp only [timedEmplace, List.mem_singleton, Prod.mk.injEq, List.not_mem_nil, false_and,
      exists_false, or_false]
    constructor
    · rintro ⟨b, ⟨hk, rfl⟩, hu⟩
      rcases mem_bucketEmplace.1 hu with h | h
      · exact ⟨hk, h⟩
      · exact absurd h (List.not_mem_nil _)
    · rintro ⟨hk, rfl⟩
      exact ⟨_, ⟨hk, rfl⟩, mem_bucketEmplace.2 (Or.inl rfl)⟩
  | (k0, b0) :: rest => by
    have ih := mem_timedEmplace_iff tp t order k u rest
    unfold timedEmplace
    split
    · constructor
      · rintro ⟨b, hb, hu⟩
        rcases List.mem_cons.1 hb with h | h
        · exact Or.inr ⟨b, h ▸ List.mem_cons_self _ _, hu⟩
        · rcases ih.1 ⟨b, h, hu⟩ with h1 | ⟨b1, h1, h2⟩
          · exact Or.inl h1
          · exact Or.inr ⟨b1, List.mem_cons_of_mem _ h1, h2⟩
      · rintro (h | ⟨b, hb, hu⟩)
        · obtain ⟨b1, h1, h2⟩ := ih.2 (Or.inl h)
          exact ⟨b1, List.mem_cons_of_mem _ h1, h2⟩
        · rcases List.mem_cons.1 hb with h | h
          · exact ⟨b, h ▸ List.mem_cons_self _ _, hu⟩
          · obtain ⟨b1, h1, h2⟩ := ih.2 (Or.inr ⟨b, h, hu⟩)
            exact ⟨b1, List.mem_cons_of_mem _ h1, h2⟩
    · split
      · next hk0 =>
        constructor
        · rintro ⟨b, hb, hu⟩
          rcases List.mem_cons.1 hb with h | h
          · obtain ⟨h1, rfl⟩ := Prod.mk.inj h
            rcases mem_bucketEmplace.1 hu with h2 | h2
            · exact Or.inl ⟨h1.trans hk0, h2⟩
            · exact Or.inr ⟨b0, h1 ▸ List.mem_cons_self _ _, h2⟩
          · exact Or.inr ⟨b, List.mem_cons_of_mem _ h, hu⟩
        · rintro (⟨h1, h2⟩ | ⟨b, hb, hu⟩)
          · exact ⟨bucketEmplace order t b0, by rw [h1, hk0]; exact List.mem_cons_self _ _,
              mem_bucketEmplace.2 (Or.inl h2)⟩
          · rcases List.mem_cons.1 hb with h | h
            · obtain ⟨h1, rfl⟩ := Prod.mk.inj h
              exact ⟨bucketEmplace order t b, by rw [h1]; exact List.mem_cons_self _ _,
                mem_bucketEmplace.2 (Or.inr hu)⟩
            · exact ⟨b, List.mem_cons_of_mem _ h, hu⟩
      · constructor
        · rintro ⟨b, hb, hu⟩
          rcases List.mem_cons.1 hb with h | h
          · obtain ⟨h1, rfl⟩ := Prod.mk.inj h
            rcases mem_bucketEmplace.1 hu with h2 | h2
            · exact Or.inl ⟨h1, h2⟩
            · exact absurd h2 (List.not_mem_nil _)
          · exact Or.inr ⟨b, h, hu⟩
        · rintro (⟨h1, h2⟩ | ⟨b, hb, hu⟩)
          · exact ⟨bucketEmplace order t [], by rw [h1]; exact List.mem_cons_self _ _,
              mem_bucketEmplace.2 (Or.inl h2)⟩
          · exact ⟨b, List.mem_cons_of_mem _ hb, hu⟩

/-- The state after a wait that parks.  Called by a running task `c` on a known event whose
latch is false, with a timeout other than 0, `WaitForEvent` jumps back to main without a
result, having emptied the current slot and put `c` at the end of the waiting sequence of
that event with the deadline `clockAdd now timeout`, or `time_point()` when the timeout is
-1.  When the timeout is -1 the timed index is unchanged; otherwise its entries are the
former ones and the entry of `c` under `clockAdd now timeout`.  The latch, the ready queue,
the sleep map, the keys of the event table and all other events are unchanged. -/
theorem wait_parks_state (s : Scheduler) (eventId : EventID) (e : Event) (c : TaskId)
    (timeout : Int) (now : TimePoint) (order : List TaskId) (hc : s.m_current = some c)
    (hfind : findEvent eventId s.m_events = some e) (hs : e.m_signaled = false)
    (hto : timeout ≠ 0) :
    (WaitForEvent eventId timeout now order s).2 = none ∧
      (WaitForEvent eventId timeout now order s).1.m_current = none ∧
      (WaitForEvent eventId timeout now order s).1.m_ready = s.m_ready ∧
      (WaitForEvent eventId timeout now order s).1.m_sleeping = s.m_sleeping ∧
      (WaitForEvent eventId timeout now order s).1.m_events.map Prod.fst =
        s.m_events.map Prod.fst ∧
      (∀ other, other ≠ eventId →
        findEvent other (WaitForEvent eventId timeout now order s).1.m_events =
          findEvent other s.m_events) ∧
      ∃ e', findEvent eventId (WaitForEvent eventId timeout now order s).1.m_events = some e' ∧
        e'.m_signaled = false ∧
        e'.m_waiting =
          e.m_waiting ++ [(c, if timeout = -1 then 0 else clockAdd now timeout)] ∧
        (timeout = -1 → e'.m_timed = e.m_timed) ∧
        (timeout ≠ -1 →
          e'.m_timed = timedEmplace (clockAdd now timeout) c order e.m_timed ∧
          ∀ (k : TimePoint) (u : TaskId),
            (∃ b, (k, b) ∈ e'.m_timed ∧ u ∈ b) ↔
              ((k = clockAdd now timeout ∧ u = c) ∨ ∃ b, (k, b) ∈ e.m_timed ∧ u ∈ b)) := by
  rw [WaitForEvent_park timeout now order hc hfind hs hto]
  refine ⟨rfl, rfl, rfl, rfl, storeEvent_keys _ _ _, ?_, _, findEvent_storeEvent_same hfind,
    hs, ?_, ?_, ?_⟩
  · intro other hother
    exact findEvent_storeEvent_other _ hother _
  · by_cases h : timeout = -1
    · simp [waitDeadline, h]
    · simp [waitDeadline, h]
  · intro h
    simp [h]
  · intro h
    have hd : waitDeadline timeout now = clockAdd now timeout := by simp [waitDeadline, h]
    simp only [h, ne_eq, not_false_eq_true, if_true, hd]
    exact ⟨trivial, fun k u => mem_timedEmplace_iff _ _ _ _ _ _⟩

/-- The deadline of a wait that parks while the clock arithmetic does not overflow: when
the timeout is neither 0 nor -1 and both `timeout` milliseconds and
`now + timeout * periodsPerMs` are representable in the 64-bit tick count of the clock, the
task is put at the end of the waiting sequence with the deadline
`now + timeout * periodsPerMs` and recorded in the timed index under that deadline. -/
theorem wait_parks_in_range (s : Scheduler) (eventId : EventID) (e : Event) (c : TaskId)
    (timeout : Int) (now : TimePoint) (order : List TaskId) (hc : s.m_current = some c)
    (hfind : findEvent eventId s.m_events = some e) (hs : e.m_signaled = false)
    (hto : timeout ≠ 0) (hne : timeout ≠ -1)
    (hrd : Representable (timeout * periodsPerMs))
    (hrs : Representable (now + timeout * periodsPerMs)) :
    ∃ e', findEvent eventId (WaitForEvent eventId timeout now order s).1.m_events = some e' ∧
      e'.m_waiting = e.m_waiting ++ [(c, now + timeout * periodsPerMs)] ∧
      e'.m_timed = timedEmplace (now + timeout * periodsPerMs) c order e.m_timed ∧
      ∀ (k : TimePoint) (u : TaskId),
        (∃ b, (k, b) ∈ e'.m_timed ∧ u ∈ b) ↔
          ((k = now + timeout * periodsPerMs ∧ u = c) ∨ ∃ b, (k, b) ∈ e.m_timed ∧ u ∈ b) := by
  obtain ⟨e', h1, _, h3, _, h5⟩ :=
    (wait_parks_state s eventId e c timeout now order hc hfind hs hto).2.2.2.2.2.2
  rw [if_neg hne, clockAdd_of_representable hrd hrs] at h3
  have h6 := h5 hne
  rw [clockAdd_of_representable hrd hrs] at h6
  exact ⟨e', h1, h3, h6.1, h6.2⟩

theorem wait_parks_in_range_example :
    demoSecondRuns.m_current = some 2 ∧
      findEvent 100 (WaitForEvent 100 80 1000000 [] demoSecondRuns).1.m_events =
        some { m_signaled := false, m_waiting := [(1, 50000000), (2, 81000000)],
               m_timed := [(50000000, [1]), (81000000, [2])] } ∧
      ∃ e', findEvent 100 (WaitForEvent 100 80 1000000 [] demoSecondRuns).1.m_events =
          some e' ∧
        e'.m_waiting = [(1, 50000000)] ++ [(2, 1000000 + 80 * periodsPerMs)] :=
  have h := wait_parks_in_range demoSecondRuns 100
    { m_signaled := false, m_waiting := [(1, 50000000)], m_timed := [(50000000, [1])] } 2 80
    1000000 [] (by decide) (by decide) rfl (by decide) (by decide) (by decide) (by decide)
  ⟨by decide, by decide, h.elim fun e' he => ⟨e', he.1, he.2.1⟩⟩

/-- C13 (code bug: the deadline of a parked wait is not `now + timeout` when the sum
overflows).  Task 2 runs in `demoSecondRuns`, where task 1 waits on event 100 until
50000000, and calls `WaitForEvent` on event 100 with the largest timeout,
`milliseconds::max()`, at clock reading 1000000000.  The task is parked as claimed: no
result, the current slot empty, the task at the end of the waiting sequence and in the
timed index, the latch, the ready queue and the sleep map unchanged.  But the sum
`now() + timeout` of Scheduler.cpp lines 111-112 wraps in the signed 64-bit nanosecond count
of the clock: the deadline recorded in the waiting sequence and in the timed index is
999000000, one millisecond before the call and not `now + timeout`, so that the tick one
millisecond after the call already makes the task ready with value 0, the value of a
timeout. -/
theorem C13_wait_deadline_overflows :
    demoSecondRuns.m_current = some 2 ∧
      findEvent 100 demoSecondRuns.m_events =
        some { m_signaled := false, m_waiting := [(1, 50000000)],
               m_timed := [(50000000, [1])] } ∧
      (WaitForEvent 100 9223372036854775807 1000000000 [] demoSecondRuns).2 = none ∧
      (WaitForEvent 100 9223372036854775807 1000000000 [] demoSecondRuns).1.m_current =
        none ∧
      (WaitForEvent 100 9223372036854775807 1000000000 [] demoSecondRuns).1.m_ready =
        demoSecondRuns.m_ready ∧
      (WaitForEvent 100 9223372036854775807 1000000000 [] demoSecondRuns).1.m_sleeping =
        demoSecondRuns.m_sleeping ∧
      findEvent 100
          (WaitForEvent 100 9223372036854775807 1000000000 [] demoSecondRuns).1.m_events =
        some { m_signaled := false, m_waiting := [(1, 50000000), (2, 999000000)],
               m_timed := [(50000000, [1]), (999000000, [2])] } ∧
      (999000000 : Int) ≠ 1000000000 + 9223372036854775807 * periodsPerMs ∧
      (999000000 : Int) < 1000000000 ∧
      (2, (0 : Int)) ∈ (tickExpire 1001000000
        (WaitForEvent 100 9223372036854775807 1000000000 [] demoSecondRuns).1).m_ready := by
  decide

/-! ## C11: round robin of yielding tasks -/

/-- A state in which a tick has only its step 3 to do: nothing runs, nobody sleeps and no
wait has a timeout. -/
theorem tickHost_quiet {s : Scheduler} (now : TimePoint)
    (hsl : s.m_sleeping = []) (hev : ∀ p ∈ s.m_events, p.2.m_timed = []) :
    tickExpire now (tickWake now s) = s := by
  have h1 : tickWake now s = s := tickWake_idle (by simp [hsl])
  have h2 : tickExpire now s = s := tickExpire_idle (by
    intro p hp kb hkb
    rw [hev p hp] at hkb
    exact absurd hkb (List.not_mem_nil _))
  rw [h1, h2]

theorem Tick_yield_cons {s : Scheduler} (now : TimePoint) (hc : s.m_current = none)
    (hsl : s.m_sleeping = []) (hev : ∀ p ∈ s.m_events, p.2.m_timed = [])
    {t : TaskId} {x : Int} {rest : List (TaskId × Int)} (hr : s.m_ready = (t, x) :: rest) :
    tickSelected now s = some t ∧
      Tick now yieldBody s = { s with m_ready := rest ++ [(t, 0)] } := by
  have hq := tickHost_quiet now hsl hev
  have hh : tickHost now s = ({ s with m_current := some t, m_ready := rest }, some x) := by
    simp only [tickHost, hc, hq, hr]
  constructor
  · simp only [tickSelected, hh]
  · simp only [Tick, hh, yieldBody, Yield, hc]
    simp

theorem Tick_yield_nil {s : Scheduler} (now : TimePoint) (hc : s.m_current = none)
    (hsl : s.m_sleeping = []) (hev : ∀ p ∈ s.m_events, p.2.m_timed = [])
    (hr : s.m_ready = []) :
    tickSelected now s = none ∧ Tick now yieldBody s = s := by
  have h : tickHost now s = (s, none) := tickHost_idle hc hr (by simp [hsl]) (by
    intro p hp kb hkb
    rw [hev p hp] at hkb
    exact absurd hkb (List.not_mem_nil _))
  exact ⟨by simp only [tickSelected, h], by simp only [Tick, h]⟩

theorem Tick_yield {s : Scheduler} (now : TimePoint) (hc : s.m_current = none)
    (hsl : s.m_sleeping = []) (hev : ∀ p ∈ s.m_events, p.2.m_timed = []) :
    (Tick now yieldBody s).m_current = none ∧ (Tick now yieldBody s).m_sleeping = [] ∧
      (Tick now yieldBody s).m_events = s.m_events ∧
      (Tick now yieldBody s).m_ready.map Prod.fst = (s.m_ready.map Prod.fst).rotate 1 ∧
      tickSelected now s = (s.m_ready.map Prod.fst)[0]? := by
  cases hr : s.m_ready with
  | nil =>
    obtain ⟨h1, h2⟩ := Tick_yield_nil now hc hsl hev hr
    rw [h1, h2, hr]
    exact ⟨hc, hsl, rfl, rfl, rfl⟩
  | cons p rest =>
    obtain ⟨t, x⟩ := p
    obtain ⟨h1, h2⟩ := Tick_yield_cons now hc hsl hev hr
    rw [h1, h2]
    refine ⟨hc, hsl, rfl, ?_, by simp⟩
    simp [List.rotate_cons_succ]

theorem yieldTicks_spec : ∀ (times : List TimePoint) (s : Scheduler), s.m_current = none →
    s.m_sleeping = [] → (∀ p ∈ s.m_events, p.2.m_timed = []) →
    (yieldTicks times s).m_current = none ∧ (yieldTicks times s).m_sleeping = [] ∧
      (yieldTicks times s).m_events = s.m_events ∧
      (yieldTicks times s).m_ready.map Prod.fst = (s.m_ready.map Prod.fst).rotate times.length ∧
      yieldTrace times s =
        (List.range times.length).map
          (fun i => (s.m_ready.map Prod.fst)[i % s.m_ready.length]?)
  | [], s, hc, hsl, _ => by
    simp [yieldTicks, yieldTrace, hc, hsl]
  | now :: times, s, hc, hsl, hev => by
    obtain ⟨h1, h2, h3, h4, h5⟩ := Tick_yield now hc hsl hev
    obtain ⟨k1, k2, k3, k4, k5⟩ := yieldTicks_spec times (Tick now yieldBody s) h1 h2
      (by rw [h3]; exact hev)
    have hlen : (Tick now yieldBody s).m_ready.length = s.m_ready.length := by
      have := congrArg List.length h4
      simpa using this
    refine ⟨k1, k2, k3.trans h3, ?_, ?_⟩
    · simp only [yieldTicks, List.length_cons]
      rw [k4, h4, List.rotate_rotate, Nat.add_comm]
    · simp only [yieldTrace, List.length_cons]
      rw [k5, h4, h5, hlen, List.range_succ_eq_map, List.map_cons, List.map_map]
      refine congrArg₂ List.cons ?_ ?_
      · simp
      · apply List.map_congr_left
        intro i _
        simp only [Function.comp]
        by_cases hn : s.m_ready.length = 0
        · have : s.m_ready = [] := List.length_eq_zero.1 hn
          simp [this]
        · have hpos : 0 < (s.m_ready.map Prod.fst).length := by
            simpa using Nat.pos_of_ne_zero hn
          have hlt : i % s.m_ready.length < (s.m_ready.map Prod.fst).length := by
            simpa using Nat.mod_lt i (Nat.pos_of_ne_zero hn)
          rw [List.getElem?_rotate hlt]
          simp only [List.length_map, Nat.succ_eq_add_one, Nat.mod_add_mod]

theorem yieldTicks_ready : ∀ (times : List TimePoint) (s : Scheduler), s.m_current = none →
    s.m_sleeping = [] → (∀ p ∈ s.m_events, p.2.m_timed = []) →
    times.length ≤ s.m_ready.length →
    (yieldTicks times s).m_ready =
      s.m_ready.drop times.length ++
        (s.m_ready.take times.length).map (fun p => (p.1, (0 : Int)))
  | [], s, _, _, _, _ => by simp [yieldTicks]
  | now :: times, s, hc, hsl, hev, hlen => by
    match hr : s.m_ready with
    | [] => rw [hr] at hlen; simp at hlen
    | (t, x) :: rest =>
      rw [hr] at hlen
      have hk : times.length ≤ rest.length := by simpa using hlen
      obtain ⟨_, h2⟩ := Tick_yield_cons now hc hsl hev hr
      have ih := yieldTicks_ready times (Tick now yieldBody s) (by rw [h2]; exact hc)
        (by rw [h2]; exact hsl) (by rw [h2]; exact hev) (by rw [h2]; simp; omega)
      simp only [yieldTicks, List.length_cons]
      rw [ih, h2]
      simp [List.drop_append_of_le_length hk, List.take_append_of_le_length hk]

/-- C11 (fair yield).  In a state where no task runs, nobody sleeps and no wait has a
timeout, with the ready queue `(t, x) :: rest`, a `Tick` called from main in which the
selected task calls `Yield` selects `t` and leaves the ready queue as `rest` followed by
`t` (with value 0), changing nothing else.  When every task yields each time it runs,
the successive ticks select the tasks of the ready queue in cyclic order, the queue
after `k` ticks is the original one rotated by `k`, and after as many ticks as there are
tasks its tasks are in the original order again, each with value 0. -/
theorem C11_fair_yield (s : Scheduler) (hc : s.m_current = none) (hsl : s.m_sleeping = [])
    (hev : ∀ p ∈ s.m_events, p.2.m_timed = []) :
    (∀ (now : TimePoint) (t : TaskId) (x : Int) (rest : List (TaskId × Int)),
        s.m_ready = (t, x) :: rest →
        tickSelected now s = some t ∧
        Tick now yieldBody s = { s with m_ready := rest ++ [(t, 0)] }) ∧
      (∀ times : List TimePoint,
        yieldTrace times s =
          (List.range times.length).map
            (fun i => (s.m_ready.map Prod.fst)[i % s.m_ready.length]?) ∧
        (yieldTicks times s).m_ready.map Prod.fst =
          (s.m_ready.map Prod.fst).rotate times.length ∧
        (times.length = s.m_ready.length →
          (yieldTicks times s).m_ready.map Prod.fst = s.m_ready.map Prod.fst ∧
          (yieldTicks times s).m_ready = s.m_ready.map (fun p => (p.1, (0 : Int)))) ∧
        (yieldTicks times s).m_current = none ∧
        (yieldTicks times s).m_sleeping = s.m_sleeping ∧
        (yieldTicks times s).m_events = s.m_events) := by
  refine ⟨fun now t x rest hr => Tick_yield_cons now hc hsl hev hr, ?_⟩
  intro times
  obtain ⟨k1, k2, k3, k4, k5⟩ := yieldTicks_spec times s hc hsl hev
  refine ⟨k5, k4, ?_, k1, by rw [k2, hsl], k3⟩
  intro hlen
  constructor
  · rw [k4, hlen]
    have := List.rotate_length (s.m_ready.map Prod.fst)
    simpa using this
  · rw [yieldTicks_ready times s hc hsl hev (le_of_eq hlen), hlen]
    simp

theorem C11_fair_yield_witness :
    demoThree.m_current = none ∧ demoThree.m_ready = [(1, 0), (2, 0), (3, 0)] ∧
      yieldTrace [0, 1, 2, 3, 4] demoThree = [some 1, some 2, some 3, some 1, some 2] ∧
      (yieldTicks [0, 1, 2] demoThree).m_ready.map Prod.fst = [1, 2, 3] :=
  have h := C11_fair_yield demoThree (by decide) (by decide) (by decide)
  ⟨by decide, by decide, (h.2 [0, 1, 2, 3, 4]).1, ((h.2 [0, 1, 2]).2.2.1 (by decide)).1⟩

/-! ## C12: the state when `Tick` returns -/

theorem staysCurrent_final {t : TaskId} :
    ∀ (ops : List Op) {s : Scheduler}, staysCurrent t s ops → (runOps s ops).m_current = some t
  | [], _, h => h
  | _ :: ops, _, h => staysCurrent_final ops h.2

theorem staysCurrent_head {t : TaskId} :
    ∀ (ops : List Op) {s : Scheduler}, staysCurrent t s ops → s.m_current = some t
  | [], _, h => h
  | _ :: _, _, h => h.1

theorem parked_step_mem {s : Scheduler} (hinv : Inv s) (op : Op) {u : TaskId}
    (hu : u ∈ parked (step s op)) : u ∈ parked s ∨ op = Op.createTask u := by
  cases op with
  | createTask t =>
    rcases List.mem_cons.1 ((parked_CreateTask t s).mem_iff.1 hu) with h | h
    · exact Or.inr (by rw [h])
    · exact Or.inl h
  | createEvent eventId order =>
    exact Or.inl ((parked_CreateEvent eventId order s).mem_iff.1 hu)
  | waitForEvent eventId timeout now order =>
    exact Or.inl ((parked_WaitForEvent eventId timeout now order s).mem_iff.1 hu)
  | setEvent eventId => exact Or.inl ((parked_SetEvent eventId s).mem_iff.1 hu)
  | deleteEvent eventId => exact Or.inl ((parked_DeleteEvent eventId s).mem_iff.1 hu)
  | yield => exact Or.inl ((parked_Yield s).mem_iff.1 hu)
  | sleep duration now => exact Or.inl ((parked_Sleep duration now s).mem_iff.1 hu)
  | tick now => exact Or.inl ((parked_tickHost now hinv.2.1).mem_iff.1 hu)
  | taskLeave =>
    left
    have : (parked (TaskLeave s)).Sublist (parked s) := by
      simp only [parked, TaskLeave, Option.toList, List.nil_append]
      exact List.sublist_append_right _ _
    exact this.subset hu

theorem not_parked_runOps {t : TaskId} :
    ∀ (ops : List Op) {s : Scheduler}, Inv s → t ∉ parked s → Admissible s ops →
      (∀ op ∈ ops, op ≠ Op.createTask t) → t ∉ parked (runOps s ops)
  | [], _, _, h, _, _ => h
  | op :: ops, _, hinv, h, hadm, hops => by
    refine not_parked_runOps ops (Inv_step hinv hadm.1) ?_ hadm.2
      (fun o ho => hops o (List.mem_cons_of_mem _ ho))
    intro hin
    rcases parked_step_mem hinv op hin with h1 | h1
    · exact h h1
    · exact hops op (List.mem_cons_self _ _) h1

theorem tickSelected_mem {s : Scheduler} (hinv : Inv s) {now : TimePoint} {t : TaskId}
    (h : tickSelected now s = some t) : t ∈ parked s := by
  have hcur : (tickHost now s).1.m_current = some t := by
    unfold tickSelected at h
    split at h
    · exact h
    · exact absurd h (by simp)
  refine (parked_tickHost now hinv.2.1).mem_iff.1 ?_
  simp [parked, hcur]

theorem WaitForEvent_none {s : Scheduler} {eventId : EventID} {timeout : Int} {now : TimePoint}
    {order : List TaskId} {c : TaskId} (hc : s.m_current = some c)
    (h : (WaitForEvent eventId timeout now order s).2 = none) :
    ∃ e, findEvent eventId s.m_events = some e ∧ e.m_signaled = false ∧ timeout ≠ 0 := by
  unfold WaitForEvent at h
  rw [hc] at h
  dsimp only at h
  cases hf : findEvent eventId s.m_events with
  | none => rw [hf] at h; simp at h
  | some e =>
    rw [hf] at h
    dsimp only at h
    cases hs : e.m_signaled with
    | true => rw [hs] at h; simp at h
    | false =>
      refine ⟨e, rfl, hs, ?_⟩
      rintro rfl
      rw [hs] at h
      simp at h

theorem count_parked_eq_one {s : Scheduler} (hinv : Inv s) {t : TaskId} (h : t ∈ parked s) :
    (parked s).count t = 1 :=
  List.count_eq_one_of_mem hinv.1 h

/-- C12 (the current slot when `Tick` returns).  Let a `Tick` called from main in a
well-formed state jump into a task, let `t` be the running task then, and let `t` make
calls that return to it and then end its turn; `t` is the task the tick selected.
Whatever the ending, the current slot is empty when `Tick` returns and the state is well
formed.  If the function of `t` returned, `t` is in no container, it stays
in none under all further operations that do not create a task at its address, and no
later tick selects it.  If `t` called `Yield` or `Sleep 0` it is the last entry of the
ready queue, with value 0; after `Sleep d` with `d ≠ 0` at time `now'` it is in the sleep
map under `clockAdd now' d`; after a `WaitForEvent` that parked it, it is the last entry of
the waiting sequence of that event; in each case it occurs exactly once in the containers. -/
theorem C12_tick_returns (s : Scheduler) (now : TimePoint)
    (body : Scheduler → Int → Scheduler × Int) (s1 : Scheduler) (x : Int) (t : TaskId)
    (pre : List Op) (fin : Ending) (hinv : Inv s) (hsel : tickHost now s = (s1, some x))
    (hbody : body s1 x = endTurn fin (runOps s1 pre))
    (hadm : Admissible s1 pre) (hcur : staysCurrent t s1 pre)
    (hjump : fin.jumps (runOps s1 pre)) :
    tickSelected now s = some t ∧
      (Tick now body s).m_current = none ∧ Inv (Tick now body s) ∧
      match fin with
      | .finish =>
        t ∉ parked (Tick now body s) ∧
        ∀ ops : List Op, Admissible (Tick now body s) ops →
          (∀ op ∈ ops, op ≠ Op.createTask t) →
          t ∉ parked (runOps (Tick now body s) ops) ∧
          ∀ now' : TimePoint, tickSelected now' (runOps (Tick now body s) ops) ≠ some t
      | .yield =>
        (Tick now body s).m_ready = (runOps s1 pre).m_ready ++ [(t, 0)] ∧
        (parked (Tick now body s)).count t = 1
      | .sleep d now' =>
        (d = 0 → (Tick now body s).m_ready = (runOps s1 pre).m_ready ++ [(t, 0)]) ∧
        (d ≠ 0 → (clockAdd now' d, t) ∈ (Tick now body s).m_sleeping ∧
          (Tick now body s).m_ready = (runOps s1 pre).m_ready) ∧
        (parked (Tick now body s)).count t = 1
      | .wait eventId timeout now' _ =>
        (∃ e e', findEvent eventId (runOps s1 pre).m_events = some e ∧
          findEvent eventId (Tick now body s).m_events = some e' ∧
          e'.m_waiting = e.m_waiting ++ [(t, waitDeadline timeout now')]) ∧
        (Tick now body s).m_ready = (runOps s1 pre).m_ready ∧
        (parked (Tick now body s)).count t = 1 := by
  have hs1 : (tickHost now s).1 = s1 := by rw [hsel]
  have hinv1 : Inv s1 := hs1 ▸ Inv_tickHost hinv now
  have hinv2 : Inv (runOps s1 pre) := Inv_runOps pre hinv1 hadm
  have hc2 : (runOps s1 pre).m_current = some t := staysCurrent_final pre hcur
  have hsel1 : tickSelected now s = some t := by
    simp only [tickSelected, hsel]
    exact staysCurrent_head pre hcur
  refine ⟨hsel1, ?_⟩
  have hTick : Tick now body s =
      if (endTurn fin (runOps s1 pre)).2 = 1 then
        { (endTurn fin (runOps s1 pre)).1 with m_current := none }
      else (endTurn fin (runOps s1 pre)).1 := by
    simp only [Tick, hsel, hbody]
  cases fin with
  | finish =>
    have hT : Tick now body s = TaskLeave (runOps s1 pre) := by
      rw [hTick]
      simp [endTurn, TaskLeave]
    rw [hT]
    have hinv3 := Inv_TaskLeave hinv2
    have hnot : t ∉ parked (TaskLeave (runOps s1 pre)) := by
      have hp := parked_TaskLeave hc2
      have hnd := (hp.nodup_iff).1 hinv2.1
      exact (List.nodup_cons.1 hnd).1
    refine ⟨rfl, hinv3, hnot, ?_⟩
    intro ops hadm' hops
    have hfinal := not_parked_runOps ops hinv3 hnot hadm' hops
    refine ⟨hfinal, ?_⟩
    intro now' hsel'
    exact hfinal (tickSelected_mem (Inv_runOps ops hinv3 hadm') hsel')
  | yield =>
    have hY : Yield (runOps s1 pre) =
        { runOps s1 pre with
          m_current := none, m_ready := (runOps s1 pre).m_ready ++ [(t, 0)] } := by
      simp only [Yield, hc2]
    have hT : Tick now body s = Yield (runOps s1 pre) := by
      rw [hTick]
      simp [endTurn]
    have hinv3 := Inv_Yield hinv2
    rw [hT]
    refine ⟨by rw [hY], hinv3, by rw [hY], ?_⟩
    apply count_parked_eq_one hinv3
    rw [hY]
    simp [parked]
  | sleep d now' =>
    have hT : Tick now body s = Sleep d now' (runOps s1 pre) := by
      rw [hTick]
      simp [endTurn]
    have hinv3 := Inv_Sleep hinv2 d now'
    rw [hT]
    have hmem : t ∈ parked (Sleep d now' (runOps s1 pre)) :=
      (parked_Sleep d now' _).mem_iff.2 (by simp [parked, hc2])
    have hcn : (Sleep d now' (runOps s1 pre)).m_current = none := by
      by_cases hd : d = 0
      · simp only [Sleep, hd, if_true, Yield, hc2]
      · simp only [Sleep, hd, if_false, hc2]
    refine ⟨hcn, hinv3, ?_, ?_, count_parked_eq_one hinv3 hmem⟩
    · intro hd
      simp only [Sleep, hd, if_true, Yield, hc2]
    · intro hd
      simp only [Sleep, hd, if_false, hc2]
      exact ⟨(sleepEmplace_perm _ _ _).mem_iff.2 (List.mem_cons_self _ _), trivial⟩
  | wait eventId timeout now' order =>
    have hT : Tick now body s = (WaitForEvent eventId timeout now' order (runOps s1 pre)).1 := by
      rw [hTick]
      simp [endTurn]
    obtain ⟨e, hf, hsg, hto⟩ := WaitForEvent_none hc2 hjump
    have hpark := WaitForEvent_park timeout now' order hc2 hf hsg hto
    have hinv3 := Inv_WaitForEvent hinv2 eventId timeout now' order
    have hmem : t ∈ parked (WaitForEvent eventId timeout now' order (runOps s1 pre)).1 :=
      (parked_WaitForEvent eventId timeout now' order _).mem_iff.2 (by simp [parked, hc2])
    rw [hT]
    refine ⟨by rw [hpark], hinv3, ?_, by rw [hpark], count_parked_eq_one hinv3 hmem⟩
    refine ⟨e, { e with
        m_waiting := e.m_waiting ++ [(t, waitDeadline timeout now')]
        m_timed := if timeout ≠ -1 then
            timedEmplace (waitDeadline timeout now') t order e.m_timed
          else e.m_timed }, hf, ?_, rfl⟩
    rw [hpark]
    exact findEvent_storeEvent_same hf

theorem C12_tick_returns_witness :
    Inv demoThree ∧
      tickHost 0 demoThree =
        ({ m_current := some 1, m_ready := [(2, 0), (3, 0)], m_events := [], m_sleeping := [] },
          some 0) ∧
      (Tick 0 (fun s1 _ => endTurn (Ending.sleep 5 0) (runOps s1 [Op.createTask 4]))
        demoThree).m_current = none :=
  ⟨by decide, by decide,
    (C12_tick_returns demoThree 0
      (fun s1 _ => endTurn (Ending.sleep 5 0) (runOps s1 [Op.createTask 4]))
      { m_current := some 1, m_ready := [(2, 0), (3, 0)], m_events := [], m_sleeping := [] }
      0 1 [Op.createTask 4] (Ending.sleep 5 0) (by decide) (by decide) rfl (by decide)
      (by decide) (by decide)).2.1⟩

/-! ## C19: repeated `SetEvent` -/

theorem storeEvent_idem (eventId : EventID) (e' : Event) :
    ∀ l : List (EventID × Event),
      storeEvent eventId e' (storeEvent eventId e' l) = storeEvent eventId e' l
  | [] => rfl
  | (k, e0) :: rest => by
    by_cases hk : k = eventId
    · simp [storeEvent, hk]
    · simp [storeEvent, hk, storeEvent_idem eventId e' rest]

theorem SetEvent_idem {s : Scheduler} {eventId : EventID} {e : Event}
    (hfind : findEvent eventId s.m_events = some e) (hw : e.m_waiting = []) :
    SetEvent eventId (SetEvent eventId s) = SetEvent eventId s := by
  have h1 := SetEvent_nil hfind hw
  have hfind' : findEvent eventId (SetEvent eventId s).m_events =
      some { e with m_signaled := true } := by
    rw [h1]
    exact findEvent_storeEvent_same hfind
  rw [SetEvent_nil hfind' hw]
  rw [h1]
  simp only [storeEvent_idem]

theorem SetEvent_iterate {s : Scheduler} {eventId : EventID} {e : Event}
    (hfind : findEvent eventId s.m_events = some e) (hw : e.m_waiting = []) :
    ∀ n : Nat, (SetEvent eventId)^[n + 1] s = SetEvent eventId s
  | 0 => rfl
  | n + 1 => by
    rw [Function.iterate_succ_apply', SetEvent_iterate hfind hw n, SetEvent_idem hfind hw]

/-- The latch of an event is changed only by `SetEvent` and `DeleteEvent` on it and by a
`WaitForEvent` on it called by a running task. -/
theorem latch_step {s : Scheduler} {eventId : EventID} {e : Event}
    (hfind : findEvent eventId s.m_events = some e) (op : Op)
    (hne1 : op ≠ Op.setEvent eventId) (hne2 : op ≠ Op.deleteEvent eventId)
    (hw : ∀ timeout now order, op = Op.waitForEvent eventId timeout now order →
      s.m_current = none) :
    ∃ e', findEvent eventId (step s op).m_events = some e' ∧ e'.m_signaled = e.m_signaled := by
  cases op with
  | createTask t => exact ⟨e, hfind, rfl⟩
  | createEvent other order =>
    simp only [step, CreateEvent]
    split
    · exact ⟨e, hfind, rfl⟩
    · next hnone =>
      have hne : eventId ≠ other := by
        rintro rfl
        rw [hfind] at hnone
        exact absurd hnone (by simp)
      exact ⟨e, by rw [findEvent_CreateEvent_other _ _ hne]; exact hfind, rfl⟩
  | waitForEvent other timeout now order =>
    by_cases hid : eventId = other
    · subst hid
      have hc := hw timeout now order rfl
      exact ⟨e, by simpa [step, WaitForEvent, hc] using hfind, rfl⟩
    · simp only [step, WaitForEvent]
      split
      · split
        · split
          · exact ⟨e, by rw [findEvent_storeEvent_other _ hid]; exact hfind, rfl⟩
          · split
            · exact ⟨e, hfind, rfl⟩
            · exact ⟨e, by rw [findEvent_storeEvent_other _ hid]; exact hfind, rfl⟩
        · exact ⟨e, hfind, rfl⟩
      · exact ⟨e, hfind, rfl⟩
  | setEvent other =>
    have hid : eventId ≠ other := by
      rintro rfl
      exact hne1 rfl
    simp only [step, SetEvent]
    split
    · split
      · exact ⟨e, by rw [findEvent_storeEvent_other _ hid]; exact hfind, rfl⟩
      · exact ⟨e, by rw [findEvent_storeEvent_other _ hid]; exact hfind, rfl⟩
    · exact ⟨e, hfind, rfl⟩
  | deleteEvent other =>
    have hid : eventId ≠ other := by
      rintro rfl
      exact hne2 rfl
    simp only [step, DeleteEvent]
    split
    · exact ⟨e, by rw [findEvent_eraseEvent_other hid]; exact hfind, rfl⟩
    · exact ⟨e, hfind, rfl⟩
  | yield =>
    simp only [step, Yield]
    split <;> exact ⟨e, hfind, rfl⟩
  | sleep duration now =>
    simp only [step, Sleep, Yield]
    split
    · split <;> exact ⟨e, hfind, rfl⟩
    · split <;> exact ⟨e, hfind, rfl⟩
  | tick now =>
    cases hc : s.m_current with
    | some cur => exact ⟨e, by simpa [step, tickHost, hc] using hfind, rfl⟩
    | none =>
      refine ⟨expired now e, ?_, rfl⟩
      simp only [step]
      rw [tickHost_events now s hc]
      simp only [tickExpire, eventsLoop_eq, findEvent_map_expired, hfind, Option.map_some']
  | taskLeave => exact ⟨e, hfind, rfl⟩

theorem FollowsSets_spec {eventId : EventID} {op : Op} (h : FollowsSets eventId op) :
    op ≠ Op.setEvent eventId ∧ op ≠ Op.deleteEvent eventId ∧
      ∀ timeout now order, op = Op.waitForEvent eventId timeout now order → timeout ≠ 0 := by
  cases op with
  | setEvent other =>
    refine ⟨?_, by simp, by simp⟩
    intro heq
    cases heq
    exact h rfl
  | deleteEvent other =>
    refine ⟨by simp, ?_, by simp⟩
    intro heq
    cases heq
    exact h rfl
  | waitForEvent other timeout now order =>
    refine ⟨by simp, by simp, ?_⟩
    intro timeout' now' order' heq
    cases heq
    exact h rfl
  | _ => exact ⟨by simp, by simp, by simp⟩

theorem waitOutcome_other {s : Scheduler} {eventId : EventID} {op : Op}
    (hw : ∀ timeout now order, op = Op.waitForEvent eventId timeout now order →
      s.m_current = none) : waitOutcome eventId s op = [] := by
  cases op with
  | waitForEvent other timeout now order =>
    simp only [waitOutcome]
    rw [if_neg]
    rintro ⟨rfl, hc⟩
    exact hc (hw timeout now order rfl)
  | _ => rfl

theorem unlatched_step {s : Scheduler} {eventId : EventID} {e : Event}
    (hfind : findEvent eventId s.m_events = some e) (hs : e.m_signaled = false) (op : Op)
    (hop : FollowsSets eventId op) :
    (∃ e', findEvent eventId (step s op).m_events = some e' ∧ e'.m_signaled = false) ∧
      (waitOutcome eventId s op = [] ∨ waitOutcome eventId s op = [none]) := by
  by_cases hw : ∀ timeout now order, op = Op.waitForEvent eventId timeout now order →
      s.m_current = none
  · obtain ⟨e', h1, h2⟩ := latch_step hfind op (FollowsSets_spec hop).1
      (FollowsSets_spec hop).2.1 hw
    exact ⟨⟨e', h1, h2.trans hs⟩, Or.inl (waitOutcome_other hw)⟩
  · push_neg at hw
    obtain ⟨timeout, now, order, rfl, hc⟩ := hw
    obtain ⟨c, hc⟩ := Option.ne_none_iff_exists'.1 hc
    have hto := (FollowsSets_spec hop).2.2 timeout now order rfl
    have hpark := WaitForEvent_park timeout now order hc hfind hs hto
    constructor
    · refine ⟨{ e with
          m_waiting := e.m_waiting ++ [(c, waitDeadline timeout now)]
          m_timed := if timeout ≠ -1 then
              timedEmplace (waitDeadline timeout now) c order e.m_timed
            else e.m_timed }, ?_, hs⟩
      simp only [step]
      rw [hpark]
      exact findEvent_storeEvent_same hfind
    · right
      simp only [waitOutcome, hc, ne_eq, not_false_eq_true, and_self, if_true, hpark,
        reduceCtorEq]

theorem unlatched_runOps {eventId : EventID} :
    ∀ (ops : List Op) {s : Scheduler} {e : Event}, findEvent eventId s.m_events = some e →
      e.m_signaled = false → (∀ op ∈ ops, FollowsSets eventId op) →
      ∃ n, waitOutcomes eventId s ops = List.replicate n none
  | [], _, _, _, _, _ => ⟨0, rfl⟩
  | op :: ops, s, e, hfind, hs, hops => by
    obtain ⟨⟨e', h1, h2⟩, h3⟩ := unlatched_step hfind hs op (hops op (List.mem_cons_self _ _))
    obtain ⟨n, hn⟩ := unlatched_runOps ops h1 h2 (fun o ho => hops o (List.mem_cons_of_mem _ ho))
    rcases h3 with h3 | h3
    · exact ⟨n, by simp only [waitOutcomes, h3, hn, List.nil_append]⟩
    · exact ⟨n + 1, by simp only [waitOutcomes, h3, hn]; rfl⟩

theorem latched_runOps {eventId : EventID} :
    ∀ (ops : List Op) {s : Scheduler} {e : Event}, findEvent eventId s.m_events = some e →
      e.m_signaled = true → (∀ op ∈ ops, FollowsSets eventId op) →
      waitOutcomes eventId s ops = [] ∨
        ∃ n, waitOutcomes eventId s ops = some true :: List.replicate n none
  | [], _, _, _, _, _ => Or.inl rfl
  | op :: ops, s, e, hfind, hs, hops => by
    have hop := hops op (List.mem_cons_self _ _)
    have hrest : ∀ o ∈ ops, FollowsSets eventId o := fun o ho => hops o (List.mem_cons_of_mem _ ho)
    by_cases hw : ∀ timeout now order, op = Op.waitForEvent eventId timeout now order →
        s.m_current = none
    · obtain ⟨e', h1, h2⟩ := latch_step hfind op (FollowsSets_spec hop).1
        (FollowsSets_spec hop).2.1 hw
      have h3 := waitOutcome_other hw
      rcases latched_runOps ops h1 (h2.trans hs) hrest with h | ⟨n, h⟩
      · exact Or.inl (by simp only [waitOutcomes, h3, h, List.nil_append])
      · exact Or.inr ⟨n, by simp only [waitOutcomes, h3, h, List.nil_append]⟩
    · push_neg at hw
      obtain ⟨timeout, now, order, rfl, hc⟩ := hw
      obtain ⟨c, hc⟩ := Option.ne_none_iff_exists'.1 hc
      have hl := WaitForEvent_latched timeout now order hc hfind hs
      have h1 : findEvent eventId (step s (Op.waitForEvent eventId timeout now order)).m_events =
          some { e with m_signaled := false } := by
        simp only [step]
        rw [hl]
        exact findEvent_storeEvent_same hfind
      obtain ⟨n, hn⟩ := unlatched_runOps ops h1 rfl hrest
      right
      refine ⟨n, ?_⟩
      simp only [waitOutcomes, waitOutcome, hc, ne_eq, not_false_eq_true, and_self, if_true, hl,
        reduceCtorEq, hn]
      rfl

/-- C19 (set coalesces).  On a known event without waiters, `N ≥ 1` successive calls of
`SetEvent` give the state that one call gives, with the latch raised.  Along any sequence
of operations that follows, without `SetEvent` or `DeleteEvent` on the event and with
timeouts other than 0 for the waits on it, the `WaitForEvent` calls made on the event by
running tasks have these results, in order: the first returns true without parking, and
every later one parks its task. -/
theorem C19_set_coalesces (s : Scheduler) (eventId : EventID) (e : Event) (N : Nat)
    (hfind : findEvent eventId s.m_events = some e) (hw : e.m_waiting = []) (hN : 1 ≤ N) :
    (SetEvent eventId)^[N] s = SetEvent eventId s ∧
      findEvent eventId ((SetEvent eventId)^[N] s).m_events =
        some { e with m_signaled := true } ∧
      ∀ ops : List Op, (∀ op ∈ ops, FollowsSets eventId op) →
        waitOutcomes eventId ((SetEvent eventId)^[N] s) ops = [] ∨
        ∃ n, waitOutcomes eventId ((SetEvent eventId)^[N] s) ops =
          some true :: List.replicate n none := by
  obtain ⟨n, rfl⟩ : ∃ n, N = n + 1 := ⟨N - 1, by omega⟩
  have h1 := SetEvent_iterate hfind hw n
  have h2 : findEvent eventId (SetEvent eventId s).m_events =
      some { e with m_signaled := true } := by
    rw [SetEvent_nil hfind hw]
    exact findEvent_storeEvent_same hfind
  rw [h1]
  exact ⟨rfl, h2, fun ops hops => latched_runOps ops h2 rfl hops⟩

theorem C19_set_coalesces_witness :
    findEvent 100 demoRunning.m_events =
        some { m_signaled := false, m_waiting := [], m_timed := [] } ∧
      (SetEvent 100)^[3] demoRunning = SetEvent 100 demoRunning ∧
      waitOutcomes 100 ((SetEvent 100)^[3] demoRunning)
        [Op.waitForEvent 100 (-1) 0 [], Op.waitForEvent 100 20 0 [], Op.createTask 4,
          Op.tick 1, Op.waitForEvent 100 (-1) 1 []] = [some true, none, none] :=
  have h := C19_set_coalesces demoRunning 100
    { m_signaled := false, m_waiting := [], m_timed := [] } 3 (by decide) rfl (by decide)
  ⟨by decide, h.1, by decide⟩

/-! ## C14: the timed index and the waiting sequence -/

theorem timedErase_keeps (tp : TimePoint) (t : TaskId) {u : TaskId} (hne : u ≠ t) :
    ∀ tm : List (TimePoint × Bucket), u ∈ timedTasks tm → u ∈ timedTasks (timedErase tp t tm)
  | [], h => h
  | (k, b) :: rest, h => by
    simp only [timedTasks, List.flatMap_cons, List.mem_append] at h
    unfold timedErase
    split
    · split
      · next hempty =>
        rcases h with h | h
        · have hmem : u ∈ b.erase t := (List.mem_erase_of_ne hne).2 h
          rw [List.isEmpty_iff] at hempty
          rw [hempty] at hmem
          exact absurd hmem (List.not_mem_nil _)
        · exact h
      · simp only [timedTasks, List.flatMap_cons, List.mem_append]
        rcases h with h | h
        · exact Or.inl ((List.mem_erase_of_ne hne).2 h)
        · exact Or.inr h
    · simp only [timedTasks, List.flatMap_cons, List.mem_append]
      rcases h with h | h
      · exact Or.inl h
      · exact Or.inr (timedErase_keeps tp t hne rest h)

theorem mem_timedTasks_timedEmplace (tp : TimePoint) (t : TaskId) (order : List TaskId)
    (tm : List (TimePoint × Bucket)) (u : TaskId) :
    u ∈ timedTasks (timedEmplace tp t order tm) ↔ u = t ∨ u ∈ timedTasks tm := by
  constructor
  · intro h
    obtain ⟨kb, hkb, hu⟩ := mem_timedTasks.1 h
    rcases timedEmplace_origin tp t order tm kb hkb u hu with ⟨h1, _⟩ | ⟨kb0, h0, _, h2⟩
    · exact Or.inl h1
    · exact Or.inr (mem_timedTasks.2 ⟨kb0, h0, h2⟩)
  · rintro (rfl | h)
    · obtain ⟨b, hb, hu⟩ := (mem_timedEmplace_iff tp u order tp u tm).2 (Or.inl ⟨rfl, rfl⟩)
      exact mem_timedTasks.2 ⟨(tp, b), hb, hu⟩
    · obtain ⟨kb, hkb, hu⟩ := mem_timedTasks.1 h
      obtain ⟨b, hb, hu'⟩ := (mem_timedEmplace_iff tp t order kb.1 u tm).2 (Or.inr ⟨kb.2, hkb, hu⟩)
      exact mem_timedTasks.2 ⟨(kb.1, b), hb, hu'⟩

theorem TimedAgrees_expired (now : TimePoint) {g : TaskId → Option Int} {e : Event}
    (hwf : EventWF e) (h : TimedAgrees g e) : TimedAgrees g (expired now e) := by
  intro w hw
  rw [expired_waiting now hwf] at hw
  obtain ⟨hw1, hw2⟩ := List.mem_filter.1 hw
  simp only [decide_eq_true_eq] at hw2
  obtain ⟨τ, h1, h2, h3⟩ := h w hw1
  refine ⟨τ, h1, ?_, ?_⟩
  · intro hτ
    have hin := h2 hτ
    rw [timedTasks_split now e.m_timed] at hin
    rcases List.mem_append.1 hin with hin | hin
    · exact absurd hin hw2
    · exact hin
  · intro hτ hin
    exact h3 hτ ((timedTasks_sublist (List.dropWhile_sublist _)).subset hin)

theorem TimedAgrees_release {g : TaskId → Option Int} {e : Event} (hwf : EventWF e)
    (h : TimedAgrees g e) {t : TaskId} {tp : TimePoint} {rest : List (TaskId × TimePoint)}
    (hw : e.m_waiting = (t, tp) :: rest) :
    TimedAgrees g { e with m_waiting := rest, m_timed := timedErase tp t e.m_timed } := by
  intro w hwr
  have hnd := hwf.1
  rw [hw] at hnd
  simp only [List.map_cons, List.nodup_cons] at hnd
  have hne : w.1 ≠ t := by
    intro heq
    exact hnd.1 (heq ▸ List.mem_map.2 ⟨w, hwr, rfl⟩)
  obtain ⟨τ, h1, h2, h3⟩ := h w (by rw [hw]; exact List.mem_cons_of_mem _ hwr)
  refine ⟨τ, h1, ?_, ?_⟩
  · intro hτ
    exact timedErase_keeps tp t hne _ (h2 hτ)
  · intro hτ hin
    exact h3 hτ ((timedErase_tasks_sublist tp t _).subset hin)

theorem TimedAgrees_other {g : TaskId → Option Int} {e : Event} (h : TimedAgrees g e)
    {c : TaskId} (hc : c ∉ e.m_waiting.map Prod.fst) (timeout : Int) :
    TimedAgrees (fun t => if t = c then some timeout else g t) e := by
  intro w hw
  have hne : w.1 ≠ c := fun heq => hc (heq ▸ List.mem_map.2 ⟨w, hw, rfl⟩)
  obtain ⟨τ, h1, h2, h3⟩ := h w hw
  exact ⟨τ, by simp only [hne, if_false, h1], h2, h3⟩

theorem TimedAgrees_park {g : TaskId → Option Int} {e : Event} (hwf : EventWF e)
    (h : TimedAgrees g e) {c : TaskId} (hc : c ∉ e.m_waiting.map Prod.fst) (timeout : Int)
    (now : TimePoint) (order : List TaskId) :
    TimedAgrees (fun t => if t = c then some timeout else g t)
      { e with
        m_waiting := e.m_waiting ++ [(c, waitDeadline timeout now)]
        m_timed := if timeout ≠ -1 then timedEmplace (waitDeadline timeout now) c order e.m_timed
          else e.m_timed } := by
  have hct : c ∉ timedTasks e.m_timed := fun hin => hc (timedTasks_subset_waiting hwf hin)
  intro w hw
  rcases List.mem_append.1 hw with hw | hw
  · have hne : w.1 ≠ c := fun heq => hc (heq ▸ List.mem_map.2 ⟨w, hw, rfl⟩)
    obtain ⟨τ, h1, h2, h3⟩ := h w hw
    refine ⟨τ, by simp only [hne, if_false, h1], ?_, ?_⟩
    · intro hτ
      dsimp only
      split
      · exact (mem_timedTasks_timedEmplace _ _ _ _ _).2 (Or.inr (h2 hτ))
      · exact h2 hτ
    · intro hτ
      dsimp only
      split
      · intro hin
        rcases (mem_timedTasks_timedEmplace _ _ _ _ _).1 hin with h4 | h4
        · exact hne h4
        · exact h3 hτ h4
      · exact h3 hτ
  · simp only [List.mem_singleton] at hw
    subst hw
    refine ⟨timeout, by simp, ?_, ?_⟩
    · intro hτ
      dsimp only
      rw [if_pos hτ]
      exact (mem_timedTasks_timedEmplace _ _ _ _ _).2 (Or.inl rfl)
    · intro hτ
      dsimp only
      rw [if_neg (by simp [hτ])]
      exact hct

theorem agrees_step {s : Scheduler} {g : TaskId → Option Int} (hinv : Inv s)
    (h : ∀ p ∈ s.m_events, TimedAgrees g p.2) (op : Op) :
    ∀ p ∈ (step s op).m_events, TimedAgrees (noteWait s op g) p.2 := by
  cases op with
  | createTask t => exact h
  | createEvent eventId order =>
    simp only [step, CreateEvent, noteWait]
    split
    · exact h
    · intro p hp
      rcases List.mem_cons.1 (mem_rehash.1 hp) with rfl | hp
      · intro w hw
        exact absurd hw (List.not_mem_nil _)
      · exact h p hp
  | waitForEvent eventId timeout now order =>
    cases hc : s.m_current with
    | none =>
      have hres : WaitForEvent eventId timeout now order s = (s, some true) := by
        simp only [WaitForEvent, hc]
      simp only [step, noteWait, hc, hres]
      exact h
    | some c =>
      cases hf : findEvent eventId s.m_events with
      | none =>
        have hres : WaitForEvent eventId timeout now order s = (s, some true) := by
          simp only [WaitForEvent, hc, hf]
        simp only [step, noteWait, hc, hres]
        exact h
      | some e =>
        have hwf := hinv.2.1 _ (findEvent_mem hf)
        have hge := h _ (findEvent_mem hf)
        cases hs : e.m_signaled with
        | true =>
          have hres := WaitForEvent_latched timeout now order hc hf hs
          simp only [step, noteWait, hc, hres]
          intro p hp
          rcases mem_storeEvent hp with hp | rfl
          · exact h p hp
          · exact hge
        | false =>
          by_cases hto : timeout = 0
          · subst hto
            have hres := WaitForEvent_poll now order hc hf hs
            simp only [step, noteWait, hc, hres]
            exact h
          · have hres := WaitForEvent_park timeout now order hc hf hs hto
            simp only [step, noteWait, hc, hres]
            have hcw : ∀ p ∈ s.m_events, c ∉ p.2.m_waiting.map Prod.fst := by
              intro p hp hin
              exact current_not_waiting hinv.1 hc (List.mem_flatMap.2 ⟨p, hp, hin⟩)
            intro p hp
            rcases mem_storeEvent hp with hp | rfl
            · exact TimedAgrees_other (h p hp) (hcw p hp) timeout
            · exact TimedAgrees_park hwf hge (hcw _ (findEvent_mem hf)) timeout now order
  | setEvent eventId =>
    simp only [step, SetEvent, noteWait]
    split
    · next e hf =>
      have hwf := hinv.2.1 _ (findEvent_mem hf)
      have hge := h _ (findEvent_mem hf)
      split
      · next t tp rest hw =>
        intro p hp
        rcases mem_storeEvent hp with hp | rfl
        · exact h p hp
        · exact TimedAgrees_release hwf hge hw
      · intro p hp
        rcases mem_storeEvent hp with hp | rfl
        · exact h p hp
        · exact hge
    · exact h
  | deleteEvent eventId =>
    simp only [step, DeleteEvent, noteWait]
    split
    · intro p hp
      exact h p ((eraseEvent_sublist eventId _).subset hp)
    · exact h
  | yield =>
    simp only [step, Yield, noteWait]
    split <;> exact h
  | sleep duration now =>
    simp only [step, Sleep, Yield, noteWait]
    split
    · split <;> exact h
    · split <;> exact h
  | tick now =>
    cases hc : s.m_current with
    | some cur =>
      simp only [step, tickHost, hc, noteWait]
      exact h
    | none =>
      simp only [step, noteWait]
      rw [tickHost_events now s hc]
      simp only [tickExpire, eventsLoop_eq]
      intro p hp
      obtain ⟨q, hq, rfl⟩ := List.mem_map.1 hp
      exact TimedAgrees_expired now (hinv.2.1 q hq) (h q hq)
  | taskLeave => exact h

theorem agrees_runOps :
    ∀ (ops : List Op) {s : Scheduler} {g : TaskId → Option Int}, Inv s →
      (∀ p ∈ s.m_events, TimedAgrees g p.2) → Admissible s ops →
      ∀ p ∈ (runOps s ops).m_events, TimedAgrees (parkedWith s ops g) p.2
  | [], _, _, _, h, _ => h
  | op :: ops, _, _, hinv, h, hadm =>
    agrees_runOps ops (Inv_step hinv hadm.1) (agrees_step hinv h op) hadm.2

theorem runOps_append (s : Scheduler) (ops : List Op) (op : Op) :
    runOps s (ops ++ [op]) = step (runOps s ops) op := by
  simp [runOps, List.foldl_append]

theorem Admissible_append :
    ∀ (ops : List Op) {s : Scheduler} {op : Op}, Admissible s ops → OpOk (runOps s ops) op →
      Admissible s (ops ++ [op])
  | [], _, _, _, h => ⟨h, trivial⟩
  | _ :: ops, _, _, hadm, h => ⟨hadm.1, Admissible_append ops hadm.2 h⟩

/-- Every reachable state is the state after an admissible sequence of operations from
the empty scheduler. -/
theorem Reachable_runOps {s : Scheduler} {live : List TaskId} (h : Reachable s live) :
    ∃ ops, Admissible Scheduler.empty ops ∧ runOps Scheduler.empty ops = s := by
  have key : ∀ {s : Scheduler} (op : Op),
      (∃ ops, Admissible Scheduler.empty ops ∧ runOps Scheduler.empty ops = s) →
      OpOk s op →
      ∃ ops, Admissible Scheduler.empty ops ∧ runOps Scheduler.empty ops = step s op := by
    rintro s op ⟨ops, h1, h2⟩ hok
    exact ⟨ops ++ [op], Admissible_append ops h1 (h2 ▸ hok), by rw [runOps_append, h2]⟩
  induction h with
  | init => exact ⟨[], trivial, rfl⟩
  | createTask t hr hfresh ih =>
    exact key (Op.createTask t) ih (fun hin => hfresh ((Reachable_inv hr).2.mem_iff.2 hin))
  | createEvent eventId order _ ih => exact key (Op.createEvent eventId order) ih trivial
  | waitForEvent eventId timeout now order _ ih =>
    exact key (Op.waitForEvent eventId timeout now order) ih trivial
  | setEvent eventId _ ih => exact key (Op.setEvent eventId) ih trivial
  | deleteEvent eventId _ ih => exact key (Op.deleteEvent eventId) ih trivial
  | yield _ ih => exact key Op.yield ih trivial
  | sleep duration now _ ih => exact key (Op.sleep duration now) ih trivial
  | tick now _ ih => exact key (Op.tick now) ih trivial
  | taskLeave t _ _ ih => exact key Op.taskLeave ih trivial

/-- C14 (timed-index consistency).  In every state reached from the empty scheduler by an
admissible sequence of operations (every reachable state is one), for every event of
the table: no bucket of the timed
index is empty; each task recorded in a bucket has exactly one entry in the waiting
sequence of the event, and the deadline of that entry is the key of the bucket; every
waiter whose latest parking `WaitForEvent` had a timeout other than -1 is recorded
exactly once in the timed index, in the bucket under its deadline, and a waiter parked
with -1 is not recorded in it. -/
theorem C14_timed_index_consistent (ops : List Op) (hadm : Admissible Scheduler.empty ops) :
    ∀ p ∈ (runOps Scheduler.empty ops).m_events,
      (∀ kb ∈ p.2.m_timed, kb.2 ≠ []) ∧
      (∀ kb ∈ p.2.m_timed, ∀ t ∈ kb.2,
        (t, kb.1) ∈ p.2.m_waiting ∧ (p.2.m_waiting.map Prod.fst).count t = 1 ∧
        ∀ tp, (t, tp) ∈ p.2.m_waiting → tp = kb.1) ∧
      (∀ w ∈ p.2.m_waiting,
        ∃ τ, parkedWith Scheduler.empty ops (fun _ => none) w.1 = some τ ∧
          (τ ≠ -1 → (timedTasks p.2.m_timed).count w.1 = 1 ∧
            ∃ b, (w.2, b) ∈ p.2.m_timed ∧ w.1 ∈ b) ∧
          (τ = -1 → w.1 ∉ timedTasks p.2.m_timed)) := by
  intro p hp
  have hinv := Inv_runOps ops Inv_empty hadm
  have hwf := hinv.2.1 p hp
  have hag := agrees_runOps (g := fun _ => none) ops Inv_empty
    (by intro q hq; exact absurd hq (List.not_mem_nil _)) hadm p hp
  refine ⟨hwf.2.2.1, ?_, ?_⟩
  · intro kb hkb t ht
    have hmem := hwf.2.2.2.2.1 kb hkb t ht
    refine ⟨hmem, ?_, ?_⟩
    · exact List.count_eq_one_of_mem hwf.1 (List.mem_map.2 ⟨(t, kb.1), hmem, rfl⟩)
    · intro tp htp
      exact deadline_unique hwf.1 htp hmem
  · intro w hw
    obtain ⟨τ, h1, h2, h3⟩ := hag w hw
    refine ⟨τ, h1, ?_, h3⟩
    intro hτ
    have hin := h2 hτ
    refine ⟨List.count_eq_one_of_mem hwf.2.2.2.1 hin, ?_⟩
    obtain ⟨kb, hkb, ht⟩ := mem_timedTasks.1 hin
    have hk : kb.1 = w.2 := deadline_unique hwf.1 (hwf.2.2.2.2.1 kb hkb w.1 ht) hw
    exact ⟨kb.2, by rw [← hk]; exact hkb, ht⟩

theorem C14_timed_index_consistent_witness :
    Admissible Scheduler.empty
        [Op.createEvent 100 [], Op.createTask 1, Op.createTask 2, Op.tick 0,
          Op.waitForEvent 100 50 0 [], Op.tick 1, Op.waitForEvent 100 (-1) 1 []] ∧
      (runOps Scheduler.empty
        [Op.createEvent 100 [], Op.createTask 1, Op.createTask 2, Op.tick 0,
          Op.waitForEvent 100 50 0 [], Op.tick 1, Op.waitForEvent 100 (-1) 1 []]).m_events =
        [(100, { m_signaled := false, m_waiting := [(1, 50000000), (2, 0)],
                 m_timed := [(50000000, [1])] })] ∧
      (∀ kb ∈ [((50000000 : TimePoint), ([1] : Bucket))], kb.2 ≠ []) :=
  ⟨by decide, by decide,
    (C14_timed_index_consistent
      [Op.createEvent 100 [], Op.createTask 1, Op.createTask 2, Op.tick 0,
        Op.waitForEvent 100 50 0 [], Op.tick 1, Op.waitForEvent 100 (-1) 1 []] (by decide)
      (100, { m_signaled := false, m_waiting := [(1, 50000000), (2, 0)], m_timed := [(50000000, [1])] })
      (by decide)).1⟩

end pi
